import Mathlib

/-!
# Virtual file management system: namespace core

A shallow embedding of `file_system.cpp` (classes `File`, `Folder`, `FileStorage`,
`FileManager`) and the properties of its identifier scheme, counters and navigation.

Modelling conventions
* `std::string` is a list of characters (`Str`); ordering is the lexicographic
  byte order used by `std::map` / `std::multimap`.
* `Folder*` is an index (a `Nat`) into a heap of folder objects; `new` appends a slot,
  `delete` empties it, dereferencing an empty slot or a null pointer is undefined
  behaviour.
* A `File` object is never changed after construction by any `FileManager` operation,
  so a `File*` held in an index is modelled by the `File` value it points to.
* A function that can throw or run into undefined behaviour returns `Exec`.
-/

namespace FileSystem

/-! ## Strings -/

/-- The type of `std::string` values. -/
abbrev Str := List Char

/-- The comparison `std::less<std::string>`: lexicographic order on the characters. -/
def strLt : Str → Str → Bool
  | [], [] => false
  | [], _ :: _ => true
  | _ :: _, [] => false
  | a :: as, b :: bs =>
    if a.toNat < b.toNat then true
    else if b.toNat < a.toNat then false
    else strLt as bs

/-- The number of values of `std::size_t`. -/
def sizeMod : Nat := 2 ^ 64

/-- Subtraction `a - b` of `std::size_t` values, for a small constant `b`: below zero the
result wraps around. -/
def sizeSub (a b : Nat) : Nat := if b ≤ a then a - b else a + sizeMod - b

/-- Conversion of an `int` to `std::size_t`: a negative value wraps around. -/
def toSizeT (i : Int) : Nat := if 0 ≤ i then i.toNat else (i + (sizeMod : Int)).toNat

/-! ## Control flow: exceptions and undefined behaviour -/

/-- The result of running a piece of code: a value, a thrown `std::runtime_error`
carrying its `what()` text, or `crash` (undefined behaviour such as a null or
out-of-bounds access, or an exception that no handler of the program catches). -/
inductive Exec (α : Type) where
  | ret (a : α) : Exec α
  | throw (what : String) : Exec α
  | crash : Exec α
deriving DecidableEq, Repr

/-- Sequencing of two computations. -/
def Exec.bind {α β : Type} (x : Exec α) (f : α → Exec β) : Exec β :=
  match x with
  | .ret a => f a
  | .throw w => .throw w
  | .crash => .crash

instance : Monad Exec where
  pure := Exec.ret
  bind := Exec.bind

/-- The member `std::string::substr(pos, len)`; `pos > size()` raises
`std::out_of_range`, which is not a `std::runtime_error` and is caught nowhere. -/
def substr (s : Str) (pos len : Nat) : Exec Str :=
  if pos > s.length then .crash else .ret ((s.drop pos).take len)

/-- The function `std::to_string` on a non-negative value. -/
def natToString (n : Nat) : Str := Nat.toDigits 10 n

/-- The function `std::to_string(int)`. -/
def to_string (i : Int) : Str :=
  if i < 0 then '-' :: natToString i.natAbs else natToString i.toNat

/-- The value of a run of decimal digits, `none` when a character is not a digit. -/
def parseDigits : Str → Nat → Option Nat
  | [], acc => some acc
  | c :: cs, acc =>
    if '0' ≤ c ∧ c ≤ '9' then parseDigits cs (acc * 10 + (c.toNat - 48)) else none

/-- The function `std::stoi` on the output of `std::to_string`: an optional sign
followed by decimal digits. Anything else raises `std::invalid_argument`, which no
handler catches. -/
def stoi (s : Str) : Exec Int :=
  match s with
  | [] => .crash
  | '-' :: ds =>
    match ds, parseDigits ds 0 with
    | _ :: _, some n => .ret (-(n : Int))
    | _, _ => .crash
  | ds =>
    match parseDigits ds 0 with
    | some n => .ret (n : Int)
    | none => .crash

/-! ## Ordered containers -/

section Containers

variable {β : Type}

/-- The lookup `std::map::find`. -/
def mapFind (m : List (Str × β)) (k : Str) : Option β :=
  (m.find? (fun e => e.1 = k)).map (fun e => e.2)

/-- The assignment `m[k] = v` on a `std::map`: the entry is placed between the smaller
and the greater keys, replacing an entry with the same key. -/
def mapAssign (m : List (Str × β)) (k : Str) (v : β) : List (Str × β) :=
  m.filter (fun e => strLt e.1 k) ++ (k, v) :: m.filter (fun e => strLt k e.1)

/-- The member `std::map::erase(key)`. -/
def mapErase (m : List (Str × β)) (k : Str) : List (Str × β) :=
  m.filter (fun e => e.1 ≠ k)

/-- The member `std::multimap::insert`: the entry goes after every entry whose key is
not greater, so equal keys stay in insertion order. -/
def multiInsert (m : List (Str × β)) (k : Str) (v : β) : List (Str × β) :=
  m.filter (fun e => !strLt k e.1) ++ (k, v) :: m.filter (fun e => strLt k e.1)

/-- The member `std::multimap::equal_range(key)`, as the list of its entries. -/
def equal_range (m : List (Str × β)) (k : Str) : List (Str × β) :=
  m.filter (fun e => e.1 = k)

/-- The member `std::multimap::count(key)`. -/
def multiCount (m : List (Str × β)) (k : Str) : Nat :=
  (equal_range m k).length

/-- The member `std::multimap::erase(key)`. -/
def multiErase (m : List (Str × β)) (k : Str) : List (Str × β) :=
  m.filter (fun e => e.1 ≠ k)

end Containers

/-! ## Files and folders -/

/-- The struct `File::Metadata`. -/
structure FileMetadata where
  fileSize : Nat
  filePath : Str
  fileExtension : Str
  fileId : Str
  fileName : Str
  fileVersion : Str
deriving DecidableEq, Repr

/-- The class `File`. -/
structure File where
  metadata : FileMetadata
  fileContent : Str
deriving DecidableEq, Repr

/-- The constructor `File::File`. -/
def mkFile (fileId filePath fileExtension fileContent fileName fileVersion : Str) : File :=
  { metadata :=
      { fileSize := fileContent.length, filePath := filePath, fileExtension := fileExtension,
        fileId := fileId, fileName := fileName, fileVersion := fileVersion },
    fileContent := fileContent }

/-- The struct `Folder::Metadata`. -/
structure FolderMetadata where
  uniqueFolderCount : Int
  uniqueFileCount : Int
  folderPath : Str
  folderId : Str
  folderName : Str
deriving DecidableEq, Repr

/-- The class `Folder`; `parentFolder = none` is the null pointer. -/
structure Folder where
  metadata : FolderMetadata
  parentFolder : Option Nat
  foldersById : List (Str × Nat)
  foldersByName : List (Str × Nat)
  filesById : List (Str × File)
  filesByName : List (Str × File)
deriving DecidableEq, Repr

/-- The key under which a folder keeps its parent in `foldersById`. -/
def parentKey : Str := "-1".toList

/-- The name under which a folder keeps its parent in `foldersByName`. -/
def dotdot : Str := "..".toList

/-- The constructor `Folder::Folder`. -/
def mkFolder (folderId folderPath : Str) (parentFolder : Option Nat) (folderName : Str) :
    Folder :=
  let metadata : FolderMetadata :=
    { uniqueFolderCount := 0, uniqueFileCount := 0, folderPath := folderPath,
      folderId := folderId, folderName := folderName }
  match parentFolder with
  | some p =>
    { metadata := metadata, parentFolder := some p,
      foldersById := mapAssign [] parentKey p,
      foldersByName := multiInsert [] dotdot p,
      filesById := [], filesByName := [] }
  | none =>
    { metadata := metadata, parentFolder := none,
      foldersById := [], foldersByName := [], filesById := [], filesByName := [] }

/-- The heap of folder objects; an empty slot is a deleted object. -/
abbrev Heap := List (Option Folder)

/-- The object a pointer refers to, if it is live. -/
def Heap.deref (h : Heap) (p : Nat) : Option Folder := h[p]?.join

/-- The expression `new Folder(...)`: a fresh slot at the end of the heap. -/
def Heap.alloc (h : Heap) (f : Folder) : Heap × Nat := (h ++ [some f], h.length)

/-- An update of the object behind a pointer. -/
def Heap.store (h : Heap) (p : Nat) (f : Folder) : Heap := h.set p (some f)

/-- The release of the storage behind a pointer. -/
def Heap.free (h : Heap) (p : Nat) : Heap := h.set p none

/-- The body of `Folder::addFolder` on the fields of `this`, given the id and the name
read through `newFolderPointer`. -/
def Folder.addFolder (self : Folder) (newFolderPointer : Nat) (newFolderId newFolderName : Str) :
    Folder :=
  let foldersById := mapAssign self.foldersById newFolderId newFolderPointer
  let foldersByName := multiInsert self.foldersByName newFolderName newFolderPointer
  let uniqueFolderCount :=
    if multiCount foldersByName newFolderName = 1 then self.metadata.uniqueFolderCount + 1
    else self.metadata.uniqueFolderCount
  { self with
    metadata := { self.metadata with uniqueFolderCount := uniqueFolderCount },
    foldersById := foldersById, foldersByName := foldersByName }

/-- The method `Folder::addFolder`, called on the object behind `self`. -/
def addFolder (h : Heap) (self newFolderPointer : Nat) : Exec Heap :=
  match h.deref newFolderPointer, h.deref self with
  | some g, some f =>
    .ret (h.store self (f.addFolder newFolderPointer g.metadata.folderId g.metadata.folderName))
  | _, _ => .crash

/-- The method `Folder::addFile`. -/
def Folder.addFile (self : Folder) (newFile : File) : Folder :=
  let newFileName := newFile.metadata.fileName
  let filesById := mapAssign self.filesById newFile.metadata.fileId newFile
  let filesByName := multiInsert self.filesByName newFile.metadata.fileName newFile
  let uniqueFileCount :=
    if multiCount filesByName newFileName = 1 then self.metadata.uniqueFileCount + 1
    else self.metadata.uniqueFileCount
  { self with
    metadata := { self.metadata with uniqueFileCount := uniqueFileCount },
    filesById := filesById, filesByName := filesByName }

/-- The destructor `Folder::~Folder` run by `delete p`: every entry of `foldersById`
except the parent entry is deleted in turn, then the object itself is released. The first
argument bounds the nesting depth of the recursion. -/
def destroy : Nat → Heap → Nat → Heap
  | 0, h, _ => h
  | fuel + 1, h, p =>
    match h.deref p with
    | none => h
    | some f =>
      (f.foldersById.foldl
        (fun acc e => if e.1 = parentKey then acc else destroy fuel acc e.2) h).free p

/-- The loop of `Folder::removeFolder` over the entries of the equal range: the id of
the entry is read through its pointer and erased from `foldersById` of `this`, then
the entry is deleted. -/
def removeFolderLoop (self : Nat) : List (Str × Nat) → Heap → Exec Heap
  | [], h => .ret h
  | folder :: rest, h =>
    match h.deref folder.2, h.deref self with
    | some g, some me =>
      let h1 := h.store self { me with foldersById := mapErase me.foldersById g.metadata.folderId }
      removeFolderLoop self rest (destroy h1.length h1 folder.2)
    | _, _ => .crash

/-- The method `Folder::removeFolder`, called on the object behind `self`. -/
def removeFolder (h : Heap) (self : Nat) (folderName : Str) : Exec Heap :=
  match h.deref self with
  | none => .crash
  | some f =>
    match removeFolderLoop self (equal_range f.foldersByName folderName) h with
    | .ret h1 =>
      match h1.deref self with
      | none => .crash
      | some me =>
        .ret (h1.store self
          { me with
            foldersByName := multiErase me.foldersByName folderName,
            metadata :=
              { me.metadata with uniqueFolderCount := me.metadata.uniqueFolderCount - 1 } })
    | .throw w => .throw w
    | .crash => .crash

/-- The method `Folder::removeFile`. -/
def Folder.removeFile (self : Folder) (fileName : Str) : Folder :=
  let files := equal_range self.filesByName fileName
  let filesById := files.foldl (fun acc file => mapErase acc file.2.metadata.fileId) self.filesById
  { self with
    filesById := filesById,
    filesByName := multiErase self.filesByName fileName,
    metadata := { self.metadata with uniqueFileCount := self.metadata.uniqueFileCount - 1 } }

/-! ## The file manager -/

/-- The objects `FileStorage` and `FileManager`: the heap, the root pointer held by the
storage, and the cursor (pointer and path) held by the manager. -/
structure State where
  heap : Heap
  rootFolder : Nat
  currentDirectoryPointer : Nat
  currentDirectoryPath : Str
deriving DecidableEq, Repr

/-- The constructors `FileStorage::FileStorage` and `FileManager::FileManager`. -/
def State.init : State :=
  let root := mkFolder "0".toList "/".toList none "root".toList
  { heap := [some root], rootFolder := 0, currentDirectoryPointer := 0,
    currentDirectoryPath := "/".toList }

/-- The folder object behind the cursor. -/
def State.current (s : State) : Option Folder := s.heap.deref s.currentDirectoryPointer

/-- The function `FileManager::getFileExtension`, its loop `for (i = size - 1; i >= 0; i--)`
with `i` an unsigned index: the condition never fails, so after index `0` the counter wraps
around and the next read is out of bounds. -/
def getFileExtensionScan (fileName : Str) : Nat → Exec Str
  | 0 =>
    match fileName[0]? with
    | some c => if c = '.' then .ret (fileName.drop 1) else .crash
    | none => .crash
  | i + 1 =>
    match fileName[i + 1]? with
    | some c => if c = '.' then .ret (fileName.drop (i + 2)) else getFileExtensionScan fileName i
    | none => .crash

/-- The function `FileManager::getFileExtension`. -/
def getFileExtension (fileName : Str) : Exec Str :=
  let fileNameSize := fileName.length
  getFileExtensionScan fileName (sizeSub fileNameSize 1)

/-- The test on the first character made by `throwErrorifNameInvalid`. -/
def isAlphabet (c : Char) : Bool :=
  ('a' ≤ c && c ≤ 'z') || ('A' ≤ c && c ≤ 'Z')

/-- The function `FileManager::throwErrorifNameInvalid`; `name[0]` of the empty string is
the terminating null character. -/
def throwErrorifNameInvalid (name : Str) : Exec Unit :=
  if name.contains '/' then
    .throw "Folder or File Name cannot contain \"/\" in them"
  else if !isAlphabet (name.headD (Char.ofNat 0)) then
    .throw "File or Folder name must start with an alphabet"
  else .ret ()

/-- The statement `c += 1` on a `char`. -/
def charInc (c : Char) : Char := Char.ofNat ((c.toNat + 1) % 256)

/-- The function `FileManager::getNewFolderOrFileVersion`; indexing positions 0 and 1 of a
shorter string is out of bounds. -/
def getNewFolderOrFileVersion (previousFolderOrFileVersion : Str) : Exec Str :=
  match previousFolderOrFileVersion with
  | c0 :: c1 :: rest =>
    if c1 = '9' then .ret (charInc c0 :: '0' :: rest)
    else .ret (c0 :: charInc c1 :: rest)
  | _ => .crash

/-- The derivation of an id shared by `getNewFolderId` and `getNewFileId`: `uniqueCount`
is the counter of the current directory and `lastId` the id of the last entry of the equal
range of the new name, if there is one. -/
def getNewId (parentFolderId : Str) (uniqueCount : Int) (lastId : Option Str) : Exec Str :=
  match lastId with
  | none => do
    let folderUniqueCount := to_string (uniqueCount + 1)
    let n ← stoi folderUniqueCount
    if n ≥ 100 then
      .throw "Folder can not be created"
    else if folderUniqueCount.length = 1 then
      .ret (parentFolderId ++ "0".toList ++ folderUniqueCount ++ "00".toList)
    else
      .ret (parentFolderId ++ folderUniqueCount ++ "00".toList)
  | some lastFolderId => do
    let lastFolderIdSize := lastFolderId.length
    let newFolderUniqueCount ← substr lastFolderId (sizeSub lastFolderIdSize 4) 2
    let previousFolderVersion ← substr lastFolderId (sizeSub lastFolderIdSize 2) 2
    let newFolderVersion ← getNewFolderOrFileVersion previousFolderVersion
    .ret (parentFolderId ++ newFolderUniqueCount ++ newFolderVersion)

/-- The method `FileManager::getNewFolderId`. -/
def getNewFolderId (s : State) (newFolderName : Str) : Exec Str :=
  match s.current with
  | none => .crash
  | some cur =>
    match (equal_range cur.foldersByName newFolderName).getLast? with
    | none => getNewId cur.metadata.folderId cur.metadata.uniqueFolderCount none
    | some lastFolder =>
      match s.heap.deref lastFolder.2 with
      | none => .crash
      | some lf =>
        getNewId cur.metadata.folderId cur.metadata.uniqueFolderCount (some lf.metadata.folderId)

/-- The method `FileManager::getNewFileId`. -/
def getNewFileId (s : State) (newFileName : Str) : Exec Str :=
  match s.current with
  | none => .crash
  | some cur =>
    match (equal_range cur.filesByName newFileName).getLast? with
    | none => getNewId cur.metadata.folderId cur.metadata.uniqueFileCount none
    | some lastFile =>
      getNewId cur.metadata.folderId cur.metadata.uniqueFileCount (some lastFile.2.metadata.fileId)

/-- What a public operation of `FileManager` leaves behind: it returned normally (`ok`),
it caught a `std::runtime_error` and reported it, the state being the one at the handler
(`failed`), or it did not return (`crash`). -/
inductive Outcome where
  | ok (s : State) : Outcome
  | failed (what : String) (s : State) : Outcome
  | crash : Outcome
deriving DecidableEq, Repr

/-- The handler `catch (const std::runtime_error&)` around a body that throws only
before it changes anything: the state at the handler is the state at entry. -/
def catchRuntimeError (s : State) (body : Exec State) : Outcome :=
  match body with
  | .ret s1 => .ok s1
  | .throw w => .failed w s
  | .crash => .crash

/-- The path of a new child of the current directory. -/
def newPath (currentDirectoryPath name : Str) : Str :=
  if currentDirectoryPath = "/".toList then currentDirectoryPath ++ name
  else currentDirectoryPath ++ ("/".toList ++ name)

/-- The method `FileManager::createFolder`. -/
def createFolder (s : State) (newFolderName : Str) : Outcome :=
  catchRuntimeError s do
    throwErrorifNameInvalid newFolderName
    let newFolderPath := newPath s.currentDirectoryPath newFolderName
    let newFolderId ← getNewFolderId s newFolderName
    let (heap1, newFolderPointer) :=
      s.heap.alloc (mkFolder newFolderId newFolderPath (some s.currentDirectoryPointer)
        newFolderName)
    let heap2 ← addFolder heap1 s.currentDirectoryPointer newFolderPointer
    pure { s with heap := heap2 }

/-- The method `FileManager::createFile`. -/
def createFile (s : State) (newFileName newFileContent : Str) : Outcome :=
  catchRuntimeError s do
    throwErrorifNameInvalid newFileName
    let newFilePath := newPath s.currentDirectoryPath newFileName
    let newFileId ← getNewFileId s newFileName
    let newFileExtension ← getFileExtension newFileName
    let newFileIdSize : Int := newFileId.length
    let newFileVersion ← substr newFileId (toSizeT (newFileIdSize - 2)) 2
    let newFile :=
      mkFile newFileId newFilePath newFileExtension newFileContent newFileName newFileVersion
    match s.current with
    | none => .crash
    | some cur => pure { s with heap := s.heap.store s.currentDirectoryPointer (cur.addFile newFile) }

/-- The method `FileManager::deleteFolder`. -/
def deleteFolder (s : State) (folderName : Str) : Outcome :=
  catchRuntimeError s do
    throwErrorifNameInvalid folderName
    match s.current with
    | none => .crash
    | some cur =>
      if multiCount cur.foldersByName folderName = 0 then
        .throw "Folder with specified Name does not exist"
      else do
        let heap1 ← removeFolder s.heap s.currentDirectoryPointer folderName
        pure { s with heap := heap1 }

/-- The method `FileManager::deleteFile`. -/
def deleteFile (s : State) (fileName : Str) : Outcome :=
  catchRuntimeError s do
    throwErrorifNameInvalid fileName
    match s.current with
    | none => .crash
    | some cur =>
      if multiCount cur.filesByName fileName = 0 then
        .throw "File with specified name does not exist in memeory"
      else
        pure { s with heap := s.heap.store s.currentDirectoryPointer (cur.removeFile fileName) }

/-- The two-character form of the requested version built by `changeDirectory`. -/
def versionString (version : Int) : Str :=
  let folderVersion := to_string (version - 1)
  if folderVersion.length = 1 then '0' :: folderVersion else folderVersion

/-- The method `FileManager::changeDirectory`. A lookup `foldersById[folderId]` of an
absent key inserts a null pointer, which the next statement dereferences. -/
def changeDirectory (s : State) (destinationFolder : Str) (version : Int) (relative : Bool) :
    Outcome :=
  if destinationFolder = dotdot then
    match s.current with
    | none => .crash
    | some cur =>
      match cur.parentFolder with
      | none => .crash
      | some parent =>
        match s.heap.deref parent with
        | none => .crash
        | some pf =>
          .ok { s with currentDirectoryPointer := parent,
                       currentDirectoryPath := pf.metadata.folderPath }
  else
    let temporaryDirectoryPointer :=
      if relative = false then s.rootFolder else s.currentDirectoryPointer
    match s.heap.deref temporaryDirectoryPointer with
    | none => .crash
    | some tmp =>
      if multiCount tmp.foldersByName destinationFolder = 0 then
        .failed "Destination Folder cannot be found" s
      else
        match (equal_range tmp.foldersByName destinationFolder).head? with
        | none => .crash
        | some first =>
          match s.heap.deref first.2 with
          | none => .crash
          | some ff =>
            let folderIdSize : Int := ff.metadata.folderId.length
            match substr ff.metadata.folderId 0 (toSizeT (folderIdSize - 2)) with
            | .ret idHead =>
              let folderId := idHead ++ versionString version
              match mapFind tmp.foldersById folderId with
              | none => .crash
              | some target =>
                match s.heap.deref target with
                | none => .crash
                | some tf =>
                  .ok { s with currentDirectoryPointer := target,
                               currentDirectoryPath := tf.metadata.folderPath }
            | _ => .crash

/-! ## Runs of operations -/

/-- The public mutating operations of `FileManager`. -/
inductive Op where
  | createFolder (name : Str) : Op
  | createFile (name content : Str) : Op
  | deleteFolder (name : Str) : Op
  | deleteFile (name : Str) : Op
  | changeDirectory (target : Str) (version : Int) (relative : Bool) : Op
deriving DecidableEq, Repr

/-- The effect of one operation. -/
def Op.run (s : State) : Op → Outcome
  | .createFolder name => FileSystem.createFolder s name
  | .createFile name content => FileSystem.createFile s name content
  | .deleteFolder name => FileSystem.deleteFolder s name
  | .deleteFile name => FileSystem.deleteFile s name
  | .changeDirectory target version relative =>
    FileSystem.changeDirectory s target version relative

/-- The state in which the program continues after an operation, if it continues. -/
def Outcome.state? : Outcome → Option State
  | .ok s => some s
  | .failed _ s => some s
  | .crash => none

/-- The state after a sequence of operations, if none of them crashes. -/
def runOps : State → List Op → Option State
  | s, [] => some s
  | s, op :: ops =>
    match (op.run s).state? with
    | some s1 => runOps s1 ops
    | none => none

/-- The states the program can be in: the initial one and those an operation returns
into. -/
inductive Reachable : State → Prop where
  | init : Reachable State.init
  | step {s s1 : State} (op : Op) : Reachable s → (op.run s).state? = some s1 → Reachable s1

/-! ## Notions used in the statements -/

/-- An ASCII letter, `a`-`z` or `A`-`Z`. -/
def asciiLetter (c : Char) : Prop := ('a' ≤ c ∧ c ≤ 'z') ∨ ('A' ≤ c ∧ c ≤ 'Z')

instance : DecidablePred asciiLetter := fun c => by
  unfold asciiLetter
  infer_instance

/-- The name has a first character and it is an ASCII letter. -/
def firstIsLetter : Str → Prop
  | [] => False
  | c :: _ => asciiLetter c

instance : DecidablePred firstIsLetter := fun name => by
  cases name with
  | nil => exact isFalse (fun h => h)
  | cons c _ => exact inferInstanceAs (Decidable (asciiLetter c))

/-- The names the specification rejects: those that contain a slash or do not start with
an ASCII letter. -/
def specNameInvalid (name : Str) : Prop := '/' ∈ name ∨ ¬ firstIsLetter name

instance : DecidablePred specNameInvalid := fun name => by
  unfold specNameInvalid
  infer_instance

/-- The names that pass validation. -/
def validName (name : Str) : Prop := ¬ specNameInvalid name

instance : DecidablePred validName := fun name => by
  unfold validName
  infer_instance

/-- The zero-padded two-digit decimal form of a number below 100. -/
def pad2 (n : Nat) : Str := [Char.ofNat (48 + n / 10), Char.ofNat (48 + n % 10)]

/-- The keys of an index. -/
def keys {β : Type} (m : List (Str × β)) : List Str := m.map Prod.fst

/-- The number of distinct names among the child files of a folder. -/
def distinctFileNames (f : Folder) : Nat := (keys f.filesByName).dedup.length

/-- The number of distinct names among the child folders of a folder; the entry of the
parent is not a child. -/
def distinctFolderNames (f : Folder) : Nat :=
  ((keys f.foldersByName).filter (fun k => k ≠ dotdot)).dedup.length

/-! ## Well-formedness of reachable states -/

/-- The step of the loop of the destructor over the entries of `foldersById`. -/
def destroyStep (fuel : Nat) (acc : Heap) (e : Str × Nat) : Heap :=
  if e.1 = parentKey then acc else destroy fuel acc e.2

/-- The ids that the loop of `Folder::removeFolder` reads through the pointers of the
entries it visits. -/
def idsBehind (h : Heap) (l : List (Str × Nat)) : List Str :=
  l.filterMap (fun e => (h.deref e.2).map (fun g => g.metadata.folderId))

/-- The version of the `i`-th child with one name: `00` bumped `i` times by
`getNewFolderOrFileVersion`. -/
def verOf : Nat → Str
  | 0 => "00".toList
  | i + 1 =>
    match getNewFolderOrFileVersion (verOf i) with
    | .ret v => v
    | _ => verOf i

/-- What holds of the file indexes and the file counter of a folder: the counter, the
names, the link between the two indexes, and the chain of versions of every name (one
group, versions `00`, `01`, ... in insertion order). -/
structure FilePart (f : Folder) : Prop where
  fileCount : f.metadata.uniqueFileCount = (distinctFileNames f : Int)
  fileCount_le : f.metadata.uniqueFileCount ≤ 99
  fileNames : ∀ e ∈ f.filesByName, validName e.1 ∧ e.2.metadata.fileName = e.1
  fileIds : ∀ e ∈ f.filesById,
    e.2.metadata.fileId = e.1 ∧ (e.2.metadata.fileName, e.2) ∈ f.filesByName
  chain : ∀ name, ∃ g : Str, g.length = 2 ∧
    (equal_range f.filesByName name).map
        (fun e => (e.2.metadata.fileId, e.2.metadata.fileVersion)) =
      (List.range (multiCount f.filesByName name)).map
        (fun i => (f.metadata.folderId ++ g ++ verOf i, verOf i))

/-- What holds of the folder indexes and the folder counter of the folder `f` behind the
pointer `p`: the counter, the names, the objects behind the child entries (live, younger
than `f`, with `f` as parent and an id that extends the id of `f` by four characters), the
two entries of the parent, and the chain of versions of every name. -/
structure FolderPart (h : Heap) (p : Nat) (f : Folder) : Prop where
  folderCount : f.metadata.uniqueFolderCount = (distinctFolderNames f : Int)
  folderCount_le : f.metadata.uniqueFolderCount ≤ 99
  folderNames : ∀ e ∈ f.foldersByName, e.1 ≠ dotdot → validName e.1
  children : ∀ e ∈ f.foldersByName, e.1 ≠ dotdot →
    p < e.2 ∧ ∃ g, h.deref e.2 = some g ∧ g.parentFolder = some p ∧
      g.metadata.folderName = e.1 ∧
      ∃ w : Str, w.length = 4 ∧ g.metadata.folderId = f.metadata.folderId ++ w
  childIds : ∀ e ∈ f.foldersById, e.1 ≠ parentKey →
    p < e.2 ∧ ∃ g, h.deref e.2 = some g ∧ g.parentFolder = some p ∧
      g.metadata.folderId = e.1
  parentEntry : ∀ e ∈ f.foldersById, e.1 = parentKey → e.2 < p
  dotdotEntry : ∀ e ∈ f.foldersByName, e.1 = dotdot → e.2 < p
  nodup : (f.foldersByName.map Prod.snd).Nodup
  chain : ∀ name, name ≠ dotdot → ∃ g : Str, g.length = 2 ∧
    idsBehind h (equal_range f.foldersByName name) =
      (List.range (multiCount f.foldersByName name)).map
        (fun i => f.metadata.folderId ++ g ++ verOf i)

/-- The invariant of a live folder object. -/
structure Node (h : Heap) (p : Nat) (f : Folder) : Prop where
  folders : FolderPart h p f
  files : FilePart f

/-- The invariant of the states of the program: every live folder object is well formed
and the cursor refers to a live folder whose path is the stored current path. -/
structure WF (s : State) : Prop where
  nodes : ∀ p f, s.heap.deref p = some f → Node s.heap p f
  cursor : ∃ f, s.current = some f ∧ s.currentDirectoryPath = f.metadata.folderPath

/-- Children are allocated after their parent. -/
def Ord (h : Heap) : Prop :=
  ∀ a f, h.deref a = some f → ∀ e ∈ f.foldersById, e.1 ≠ parentKey → a < e.2

/-- A live object behind a child entry has the holder of the entry as its parent. -/
def Par (h : Heap) : Prop :=
  ∀ a f, h.deref a = some f → ∀ e ∈ f.foldersById, e.1 ≠ parentKey →
    ∀ g, h.deref e.2 = some g → g.parentFolder = some a

/-- The heap `h1` results from `h` by releasing objects. -/
def FreesOnly (h h1 : Heap) : Prop :=
  h1.length = h.length ∧ ∀ r, h1.deref r = h.deref r ∨ h1.deref r = none

/-! ## Runs used in the statements and examples -/

/-- The folder `name` is created `k` times; the result is the state after the last
creation, if every creation returns normally. -/
def createFolders (s : State) (name : Str) : Nat → Option State
  | 0 => some s
  | k + 1 =>
    match createFolder s name with
    | .ok s1 => createFolders s1 name k
    | _ => none

/-- The state after a run of operations from the initial state (the initial state itself
if the run crashes). -/
def after (ops : List Op) : State := (runOps State.init ops).getD State.init

/-- The folder behind a pointer (an empty folder if the pointer is dangling). -/
def folderAt (s : State) (p : Nat) : Folder := (s.heap.deref p).getD (mkFolder [] [] none [])

/-- An operation returned normally. -/
def Outcome.isOk : Outcome → Bool
  | .ok _ => true
  | _ => false

/-- Three files of one name are created in the root. -/
def sameNameOps : List Op :=
  [.createFile "a.txt".toList "x".toList, .createFile "a.txt".toList "y".toList,
    .createFile "a.txt".toList "z".toList]

/-- Three files of different names are created in the root. -/
def distinctNameOps : List Op :=
  [.createFile "a.txt".toList [], .createFile "b.txt".toList [], .createFile "c.txt".toList []]

/-- Two files and two folders of one name each are created in the root. -/
def twoVersionsOps : List Op :=
  [.createFile "a.txt".toList "x".toList, .createFile "a.txt".toList "y".toList,
    .createFolder "b".toList, .createFolder "b".toList]

/-- A folder is created in the root and entered. -/
def descendOps : List Op :=
  [.createFolder "x".toList, .changeDirectory "x".toList 1 true]

/-- The folder `a` is created 99 times in the root. -/
def ninetyNineFoldersOps : List Op :=
  List.replicate 99 (.createFolder "a".toList)

/-- Folders `a` and `b` are created in the root, `a` is deleted and `c` is created. -/
def collisionOps : List Op :=
  [.createFolder "a".toList, .createFolder "b".toList, .deleteFolder "a".toList,
    .createFolder "c".toList]

/-- The folder `b` is created twice in the root. -/
def twoFoldersOps : List Op :=
  [.createFolder "b".toList, .createFolder "b".toList]

/-- The name and the id of the folders behind the entries of an index. -/
def describeEntries (s : State) (l : List (Str × Nat)) : List (Str × Str) :=
  l.map (fun e => ((folderAt s e.2).metadata.folderName, (folderAt s e.2).metadata.folderId))

/-! ## Listing the current directory -/

/-- The folder line of `Folder::printContent`: for every entry of `foldersById`, in the
order of the map, the key and the name of the folder behind the pointer. -/
def printFolders (h : Heap) : List (Str × Nat) → Exec (List (Str × Str))
  | [] => .ret []
  | folder :: rest =>
    match h.deref folder.2 with
    | none => .crash
    | some g => do
      let tail ← printFolders h rest
      .ret ((folder.1, g.metadata.folderName) :: tail)

/-- The method `Folder::printContent`: the pairs written on the folder line and the pairs
written on the file line. -/
def printContent (h : Heap) (self : Folder) : Exec (List (Str × Str) × List (Str × Str)) := do
  let folders ← printFolders h self.foldersById
  let files := self.filesById.map (fun file => (file.1, file.2.metadata.fileName))
  .ret (folders, files)

/-- The method `FileManager::printFolderContent`. -/
def printFolderContent (s : State) : Exec (List (Str × Str) × List (Str × Str)) :=
  match s.current with
  | none => .crash
  | some cur => printContent s.heap cur

/-! ## More runs used in the statements and examples -/

/-- Folders `a` and `b` are created in the root and `a` is deleted. -/
def beforeCollisionOps : List Op :=
  [.createFolder "a".toList, .createFolder "b".toList, .deleteFolder "a".toList]

/-- Files `a.t` and `b.t` are created in the root and `a.t` is deleted. -/
def beforeFileCollisionOps : List Op :=
  [.createFile "a.t".toList [], .createFile "b.t".toList [], .deleteFile "a.t".toList]

/-- The folder `a` is created in the root and deleted. -/
def recycleFolderOps : List Op :=
  [.createFolder "a".toList, .deleteFolder "a".toList]

/-- The file `a.t` is created in the root and deleted. -/
def recycleFileOps : List Op :=
  [.createFile "a.t".toList [], .deleteFile "a.t".toList]

/-- The file `a.t` is created 101 times in the root. -/
def overflowOps : List Op :=
  List.replicate 101 (.createFile "a.t".toList [])

/-- A file `a.txt` is created in the root. -/
def oneFileOps : List Op := [.createFile "a.txt".toList "x".toList]

/-- A folder `a` is created in the root. -/
def oneFolderOps : List Op := [.createFolder "a".toList]

/-- The name and the id of the child folders of a folder, in the order of the name index. -/
def childFolders (s : State) (f : Folder) : List (Str × Str) :=
  describeEntries s (f.foldersByName.filter (fun e => e.1 ≠ dotdot))

/-- The id of the folder created by `createFolder`, if it returns normally: the id of the
object at the address the allocation returns. -/
def createdFolderId (s : State) (name : Str) : Option Str :=
  match createFolder s name with
  | .ok s1 => (s1.heap.deref s.heap.length).map (fun g => g.metadata.folderId)
  | _ => none

/-- The id of the file created by `createFile`, if it returns normally: the id of the last
entry of the name in the name index. -/
def createdFileId (s : State) (name content : Str) : Option Str :=
  match createFile s name content with
  | .ok s1 =>
    match s1.current with
    | some cur => (equal_range cur.filesByName name).getLast?.map (fun e => e.2.metadata.fileId)
    | none => none
  | _ => none

/-! ## Paths -/

/-- The path `/n1/.../nd` of a node whose ancestors below the root and itself have the
names `n1`, ..., `nd`; the path of the root is `/`. -/
def renderPath (names : List Str) : Str :=
  if names = [] then "/".toList else (names.map (fun n => '/' :: n)).flatten

/-- The path has two slashes in a row somewhere. -/
def doubleSlash : Str → Bool
  | a :: b :: rest => (a == '/' && b == '/') || doubleSlash (b :: rest)
  | _ => false

/-! ## The effect of one operation on the folder objects -/

/-- The ways in which an operation that returns normally changes the object of the
current directory `cur`: by `Folder::addFile`, `Folder::removeFile`, `Folder::addFolder`
of the object just allocated, or `Folder::removeFolder`. -/
inductive Updated (s : State) (cur : Folder) : Folder → Prop where
  | addFile (id ext content name ver : Str) (hv : validName name) :
    Updated s cur
      (cur.addFile (mkFile id (newPath s.currentDirectoryPath name) ext content name ver))
  | removeFile (name : Str) : Updated s cur (cur.removeFile name)
  | addFolder (id name w : Str) (hv : validName name) (hw : w.length = 4)
      (hid : id = cur.metadata.folderId ++ w) :
    Updated s cur (cur.addFolder s.heap.length id name)
  | removeFolder (name : Str) (hv : validName name) :
    Updated s cur
      { cur with
        foldersById :=
          (idsBehind s.heap (equal_range cur.foldersByName name)).foldl mapErase cur.foldersById,
        foldersByName := multiErase cur.foldersByName name,
        metadata :=
          { cur.metadata with uniqueFolderCount := cur.metadata.uniqueFolderCount - 1 } }

/-- The folder behind `p` is reached from the root by child entries of the id indexes:
every folder on the way is live, holds the next one under a key other than `-1`, and is
the parent of the next one. -/
inductive Rooted (h : Heap) (root : Nat) : Nat → Prop where
  | root {f : Folder} : h.deref root = some f → f.parentFolder = none → Rooted h root root
  | child {q p : Nat} {pf f : Folder} {e : Str × Nat} : Rooted h root q →
    h.deref q = some pf → e ∈ pf.foldersById → e.1 ≠ parentKey → e.2 = p →
    h.deref p = some f → f.parentFolder = some q → q < p → Rooted h root p

/-- What holds of the header and of the indexes of the folder `f` behind the pointer `p`,
beyond `Node`: the parent is older, the root is the object at address 0 and every other
folder has a valid name, the path is made of the names on the way from the root and
extends the path of the parent by the name, the file paths extend the path of the folder,
the id indexes are in strictly ascending key order, the key `-1` holds the parent and
nothing else, and every other entry of the id index is an entry of the name index. -/
structure Shape (h : Heap) (p : Nat) (f : Folder) : Prop where
  parent_lt : ∀ q, f.parentFolder = some q → q < p
  header : (f.parentFolder = none ∧ p = 0 ∧ f.metadata.folderName = "root".toList ∧
      f.metadata.folderId = "0".toList) ∨
    (f.parentFolder ≠ none ∧ validName f.metadata.folderName)
  idHead : f.metadata.folderId.head? = some '0'
  path : ∃ names : List Str, (∀ n ∈ names, validName n) ∧
    f.metadata.folderPath = renderPath names ∧ (f.parentFolder = none ↔ names = []) ∧
    (f.parentFolder ≠ none → names.getLast? = some f.metadata.folderName) ∧
    ∀ q pf, f.parentFolder = some q → h.deref q = some pf →
      pf.metadata.folderPath = renderPath names.dropLast
  parentPath : ∀ q pf, f.parentFolder = some q → h.deref q = some pf →
    f.metadata.folderPath = newPath pf.metadata.folderPath f.metadata.folderName
  filePaths : ∀ e ∈ f.filesByName,
    e.2.metadata.filePath = newPath f.metadata.folderPath e.1
  sortedFolders : f.foldersById.Pairwise (fun a b => strLt a.1 b.1 = true)
  sortedFiles : f.filesById.Pairwise (fun a b => strLt a.1 b.1 = true)
  parentKeyEntry : ∀ e ∈ f.foldersById, e.1 = parentKey → f.parentFolder = some e.2
  parentKeyPresent : ∀ q, f.parentFolder = some q → (parentKey, q) ∈ f.foldersById
  idLink : ∀ e ∈ f.foldersById, e.1 ≠ parentKey →
    ∃ k, k ≠ dotdot ∧ (k, e.2) ∈ f.foldersByName

/-- The second invariant of the states of the program: every live folder object has the
shape above, the root is the object at address 0, and the current directory is reached
from the root. -/
structure Layout (s : State) : Prop where
  shapes : ∀ p f, s.heap.deref p = some f → Shape s.heap p f
  root : s.rootFolder = 0
  rooted : Rooted s.heap s.rootFolder s.currentDirectoryPointer

/-- The folder `x` is created in the root and entered; there the folder `y` and the file
`a.txt` (twice) are created. -/
def nestedOps : List Op :=
  [.createFolder "x".toList, .changeDirectory "x".toList 1 true, .createFolder "y".toList,
    .createFile "a.txt".toList "u".toList, .createFile "a.txt".toList "v".toList]

/-- Folders `a` and `b` and the file `m.txt` are created in the root. -/
def listingOps : List Op :=
  [.createFolder "b".toList, .createFolder "a".toList, .createFile "m.txt".toList []]

/-! # Properties -/

/-! ## Basic facts -/

@[simp] theorem Exec.ret_bind {α β : Type} (a : α) (f : α → Exec β) :
    (Exec.ret a >>= f) = f a := rfl

@[simp] theorem Exec.throw_bind {α β : Type} (w : String) (f : α → Exec β) :
    ((Exec.throw w : Exec α) >>= f) = Exec.throw w := rfl

@[simp] theorem Exec.crash_bind {α β : Type} (f : α → Exec β) :
    ((Exec.crash : Exec α) >>= f) = Exec.crash := rfl

@[simp] theorem Exec.pure_eq {α : Type} (a : α) : (pure a : Exec α) = Exec.ret a := rfl

theorem isAlphabet_iff (c : Char) : isAlphabet c = true ↔ asciiLetter c := by
  simp [isAlphabet, asciiLetter]

theorem throwErrorifNameInvalid_valid {name : Str} (h : validName name) :
    throwErrorifNameInvalid name = .ret () := by
  unfold validName specNameInvalid at h
  push_neg at h
  obtain ⟨h1, h2⟩ := h
  cases name with
  | nil => exact absurd h2 (fun h => h)
  | cons c rest =>
    have h3 : isAlphabet c = true := (isAlphabet_iff c).2 h2
    have h4 : (c :: rest).contains '/' = false := by
      simpa using h1
    simp only [throwErrorifNameInvalid, h4, List.headD_cons, h3]
    rfl

theorem throwErrorifNameInvalid_invalid {name : Str} (h : specNameInvalid name) :
    ∃ w, throwErrorifNameInvalid name = .throw w := by
  unfold specNameInvalid at h
  by_cases h1 : '/' ∈ name
  · have h4 : name.contains '/' = true := by simpa using h1
    exact ⟨_, by simp only [throwErrorifNameInvalid, h4]; rfl⟩
  · have h4 : name.contains '/' = false := by simpa using h1
    have h2 : ¬ firstIsLetter name := by tauto
    have h3 : isAlphabet (name.headD (Char.ofNat 0)) = false := by
      cases name with
      | nil => decide
      | cons c rest =>
        have : ¬ asciiLetter c := h2
        rw [← isAlphabet_iff] at this
        simpa using this
    exact ⟨_, by simp only [throwErrorifNameInvalid, h4, h3]; rfl⟩

/-- C5. Name validation fails exactly when the name contains a slash or does not start
with an ASCII letter, and for such a name `createFolder`, `createFile`, `deleteFolder` and
`deleteFile` report the failure and leave the whole state (heap and cursor) as it was. -/
theorem invalid_name_rejected (name : Str) :
    ((∃ w, throwErrorifNameInvalid name = .throw w) ↔ specNameInvalid name) ∧
    (specNameInvalid name → ∀ (s : State) (content : Str), ∃ w,
      createFolder s name = .failed w s ∧ createFile s name content = .failed w s ∧
      deleteFolder s name = .failed w s ∧ deleteFile s name = .failed w s) := by
  refine ⟨⟨?_, throwErrorifNameInvalid_invalid⟩, ?_⟩
  · rintro ⟨w, hw⟩
    by_contra hv
    rw [throwErrorifNameInvalid_valid hv] at hw
    cases hw
  · intro h s content
    obtain ⟨w, hw⟩ := throwErrorifNameInvalid_invalid h
    refine ⟨w, ?_, ?_, ?_, ?_⟩ <;>
      simp [createFolder, createFile, deleteFolder, deleteFile, hw, catchRuntimeError]

/-- The names `1abc` and `a/b` are rejected in the initial state. -/
theorem invalid_name_rejected_witness :
    (specNameInvalid "1abc".toList ∧
      ∃ w, createFolder State.init "1abc".toList = .failed w State.init ∧
        createFile State.init "1abc".toList [] = .failed w State.init ∧
        deleteFolder State.init "1abc".toList = .failed w State.init ∧
        deleteFile State.init "1abc".toList = .failed w State.init) ∧
    (specNameInvalid "a/b".toList ∧
      ∃ w, createFolder State.init "a/b".toList = .failed w State.init ∧
        createFile State.init "a/b".toList [] = .failed w State.init ∧
        deleteFolder State.init "a/b".toList = .failed w State.init ∧
        deleteFile State.init "a/b".toList = .failed w State.init) :=
  ⟨⟨by decide, (invalid_name_rejected "1abc".toList).2 (by decide) State.init []⟩,
    ⟨by decide, (invalid_name_rejected "a/b".toList).2 (by decide) State.init []⟩⟩

/-! ## The extension of a file name -/

theorem sizeSub_of_le {a b : Nat} (h : b ≤ a) : sizeSub a b = a - b := by
  simp [sizeSub, h]

/-- The scan from index `i` stops at the last dot at or before `i`. -/
theorem getFileExtensionScan_spec (fileName : Str) :
    ∀ i, i < fileName.length → (∃ j, j ≤ i ∧ fileName[j]? = some '.') →
      ∃ pre ext, getFileExtensionScan fileName i = .ret ext ∧ fileName = pre ++ '.' :: ext ∧
        ∀ k, pre.length < k → k ≤ i → fileName[k]? ≠ some '.' := by
  have split : ∀ k, fileName[k]? = some '.' →
      fileName = fileName.take k ++ '.' :: fileName.drop (k + 1) ∧ (fileName.take k).length = k := by
    intro k hk
    have hlt : k < fileName.length := by
      by_contra hge
      rw [List.getElem?_eq_none (by omega)] at hk
      cases hk
    have hget : fileName[k] = '.' := by
      rw [List.getElem?_eq_getElem hlt] at hk
      exact Option.some.inj hk
    refine ⟨?_, by simp; omega⟩
    conv_lhs => rw [← List.take_append_drop k fileName]
    rw [List.drop_eq_getElem_cons hlt, hget]
  intro i
  induction i with
  | zero =>
    intro _ ⟨j, hj, hdot⟩
    have hj0 : j = 0 := by omega
    subst hj0
    obtain ⟨hs, hl⟩ := split 0 hdot
    refine ⟨fileName.take 0, fileName.drop 1, ?_, hs, ?_⟩
    · simp [getFileExtensionScan, hdot]
    · intro k hk1 hk2
      omega
  | succ i ih =>
    intro hlen ⟨j, hj, hdot⟩
    by_cases hc : fileName[i + 1]? = some '.'
    · obtain ⟨hs, hl⟩ := split (i + 1) hc
      refine ⟨fileName.take (i + 1), fileName.drop (i + 2), ?_, hs, ?_⟩
      · simp [getFileExtensionScan, hc]
      · intro k hk1 hk2
        omega
    · have hj2 : j ≤ i := by
        rcases Nat.lt_or_ge j (i + 1) with h | h
        · omega
        · have : j = i + 1 := by omega
          subst this
          exact absurd hdot hc
      obtain ⟨pre, ext, hr, hs, hk⟩ := ih (by omega) ⟨j, hj2, hdot⟩
      refine ⟨pre, ext, ?_, hs, ?_⟩
      · have hget : fileName[i + 1]? = some fileName[i + 1] := List.getElem?_eq_getElem hlen
        have hne : fileName[i + 1] ≠ '.' := by
          intro he
          rw [he] at hget
          exact hc hget
        simp [getFileExtensionScan, hget, hne, hr]
      · intro k hk1 hk2
        rcases Nat.lt_or_ge k (i + 1) with h | h
        · exact hk k hk1 (by omega)
        · have : k = i + 1 := by omega
          subst this
          exact hc

/-- The extension of a name with a dot: what follows its last dot. -/
theorem getFileExtension_of_dot {name : Str} (h : '.' ∈ name) :
    ∃ pre ext, getFileExtension name = .ret ext ∧ name = pre ++ '.' :: ext ∧ '.' ∉ ext := by
  obtain ⟨j, hj, hget⟩ := List.getElem_of_mem h
  have hpos : 1 ≤ name.length := by omega
  obtain ⟨pre, ext, hr, hs, hk⟩ :=
    getFileExtensionScan_spec name (name.length - 1) (by omega)
      ⟨j, by omega, by rw [List.getElem?_eq_getElem hj, hget]⟩
  refine ⟨pre, ext, ?_, hs, ?_⟩
  · simp only [getFileExtension, sizeSub_of_le hpos]
    exact hr
  · intro hmem
    obtain ⟨m, hm, hgetm⟩ := List.getElem_of_mem hmem
    have hlen : name.length = pre.length + (ext.length + 1) := by
      conv_lhs => rw [hs]
      simp
    have hidx : name[pre.length + 1 + m]? = some '.' := by
      rw [hs, List.getElem?_append_right (by omega)]
      have : pre.length + 1 + m - pre.length = m + 1 := by omega
      rw [this, List.getElem?_cons_succ, List.getElem?_eq_getElem hm, hgetm]
    exact hk (pre.length + 1 + m) (by omega) (by omega) hidx

/-! ## Facts about the string order and the containers -/

theorem strLt_irrefl : ∀ a : Str, strLt a a = false
  | [] => rfl
  | c :: cs => by simp [strLt, strLt_irrefl cs]

theorem strLt_trichotomy : ∀ a b : Str, strLt a b = false → strLt b a = false → a = b
  | [], [], _, _ => rfl
  | [], _ :: _, h, _ => by simp [strLt] at h
  | _ :: _, [], _, h => by simp [strLt] at h
  | a :: as, b :: bs, h1, h2 => by
    rcases Nat.lt_trichotomy a.toNat b.toNat with hlt | heq | hgt
    · simp [strLt, hlt] at h1
    · have hab : a = b := by
        apply Char.ext
        apply UInt32.ext
        exact heq
      subst hab
      simp only [strLt, Nat.lt_irrefl, if_false] at h1 h2
      rw [strLt_trichotomy as bs h1 h2]
    · simp [strLt, hgt] at h2

section Containers

variable {β : Type}

theorem mem_multiInsert {m : List (Str × β)} {k : Str} {v : β} {e : Str × β} :
    e ∈ multiInsert m k v ↔ e = (k, v) ∨ e ∈ m := by
  simp only [multiInsert, List.mem_append, List.mem_cons, List.mem_filter]
  constructor
  · rintro (⟨h, _⟩ | h | ⟨h, _⟩)
    · exact Or.inr h
    · exact Or.inl h
    · exact Or.inr h
  · rintro (h | h)
    · exact Or.inr (Or.inl h)
    · cases hlt : strLt k e.1
      · exact Or.inl ⟨h, by simp [hlt]⟩
      · exact Or.inr (Or.inr ⟨h, rfl⟩)

theorem multiInsert_perm (m : List (Str × β)) (k : Str) (v : β) :
    (multiInsert m k v).Perm ((k, v) :: m) := by
  unfold multiInsert
  refine List.perm_middle.trans (List.Perm.cons _ ?_)
  have h := List.filter_append_perm (fun e : Str × β => strLt k e.1) m
  exact List.perm_append_comm.trans h

theorem equal_range_multiInsert_self (m : List (Str × β)) (k : Str) (v : β) :
    equal_range (multiInsert m k v) k = equal_range m k ++ [(k, v)] := by
  simp only [equal_range, multiInsert, List.filter_append, List.filter_cons, List.filter_filter,
    decide_True, if_true]
  have h1 : List.filter (fun e : Str × β => decide (e.1 = k) && strLt k e.1) m = [] := by
    rw [List.filter_eq_nil_iff]
    intro e _
    by_cases he : e.1 = k
    · simp [he, strLt_irrefl]
    · simp [he]
  have h2 : List.filter (fun e : Str × β => decide (e.1 = k) && !strLt k e.1) m
      = List.filter (fun e : Str × β => decide (e.1 = k)) m := by
    apply List.filter_congr
    intro e _
    by_cases he : e.1 = k
    · simp [he, strLt_irrefl]
    · simp [he]
  rw [h1, h2]

theorem equal_range_multiInsert_ne (m : List (Str × β)) {k k1 : Str} (v : β) (hne : k1 ≠ k) :
    equal_range (multiInsert m k v) k1 = equal_range m k1 := by
  have hk : decide (k = k1) = false := by simp [Ne.symm hne]
  simp only [equal_range, multiInsert, List.filter_append, List.filter_cons, List.filter_filter,
    hk]
  cases hlt : strLt k k1
  · have h1 : List.filter (fun e : Str × β => decide (e.1 = k1) && strLt k e.1) m = [] := by
      rw [List.filter_eq_nil_iff]
      intro e _
      by_cases he : e.1 = k1
      · simp [he, hlt]
      · simp [he]
    have h2 : List.filter (fun e : Str × β => decide (e.1 = k1) && !strLt k e.1) m
        = List.filter (fun e : Str × β => decide (e.1 = k1)) m := by
      apply List.filter_congr
      intro e _
      by_cases he : e.1 = k1
      · simp [he, hlt]
      · simp [he]
    simp [h1, h2]
  · have h1 : List.filter (fun e : Str × β => decide (e.1 = k1) && !strLt k e.1) m = [] := by
      rw [List.filter_eq_nil_iff]
      intro e _
      by_cases he : e.1 = k1
      · simp [he, hlt]
      · simp [he]
    have h2 : List.filter (fun e : Str × β => decide (e.1 = k1) && strLt k e.1) m
        = List.filter (fun e : Str × β => decide (e.1 = k1)) m := by
      apply List.filter_congr
      intro e _
      by_cases he : e.1 = k1
      · simp [he, hlt]
      · simp [he]
    simp [h1, h2]

theorem mem_equal_range {m : List (Str × β)} {k : Str} {e : Str × β} :
    e ∈ equal_range m k ↔ e ∈ m ∧ e.1 = k := by
  simp [equal_range]

theorem multiCount_eq_zero {m : List (Str × β)} {k : Str} :
    multiCount m k = 0 ↔ k ∉ keys m := by
  simp only [multiCount, List.length_eq_zero, equal_range, List.filter_eq_nil_iff, keys,
    List.mem_map, not_exists, not_and, decide_eq_true_eq]

theorem multiCount_multiInsert_self (m : List (Str × β)) (k : Str) (v : β) :
    multiCount (multiInsert m k v) k = multiCount m k + 1 := by
  simp [multiCount, equal_range_multiInsert_self]

theorem mem_multiErase {m : List (Str × β)} {k : Str} {e : Str × β} :
    e ∈ multiErase m k ↔ e ∈ m ∧ e.1 ≠ k := by
  simp [multiErase]

theorem mem_mapErase {m : List (Str × β)} {k : Str} {e : Str × β} :
    e ∈ mapErase m k ↔ e ∈ m ∧ e.1 ≠ k := by
  simp [mapErase]

theorem mem_mapAssign {m : List (Str × β)} {k : Str} {v : β} {e : Str × β} :
    e ∈ mapAssign m k v ↔ e = (k, v) ∨ (e ∈ m ∧ e.1 ≠ k) := by
  simp only [mapAssign, List.mem_append, List.mem_cons, List.mem_filter]
  constructor
  · rintro (⟨h, hlt⟩ | h | ⟨h, hlt⟩)
    · refine Or.inr ⟨h, fun he => ?_⟩
      rw [he, strLt_irrefl] at hlt
      cases hlt
    · exact Or.inl h
    · refine Or.inr ⟨h, fun he => ?_⟩
      rw [he, strLt_irrefl] at hlt
      cases hlt
  · rintro (h | ⟨h, hne⟩)
    · exact Or.inr (Or.inl h)
    · cases h1 : strLt e.1 k
      · cases h2 : strLt k e.1
        · exact absurd (strLt_trichotomy _ _ h1 h2) hne
        · exact Or.inr (Or.inr ⟨h, rfl⟩)
      · exact Or.inl ⟨h, rfl⟩

theorem mapFind_mem {m : List (Str × β)} {k : Str} {v : β} (h : mapFind m k = some v) :
    (k, v) ∈ m := by
  unfold mapFind at h
  rw [Option.map_eq_some'] at h
  obtain ⟨e, he, hv⟩ := h
  have h1 := List.find?_some he
  have h2 := List.mem_of_find?_eq_some he
  simp only [decide_eq_true_eq] at h1
  rw [← h1, ← hv]
  exact h2

end Containers

/-! ## Facts about the heap -/

theorem Heap.deref_lt {h : Heap} {p : Nat} {f : Folder} (hp : h.deref p = some f) :
    p < h.length := by
  by_contra hge
  simp [Heap.deref, List.getElem?_eq_none (Nat.le_of_not_lt hge)] at hp

theorem Heap.deref_eq_some {h : Heap} {p : Nat} {f : Folder} :
    h.deref p = some f ↔ h[p]? = some (some f) := by
  unfold Heap.deref
  cases h[p]? with
  | none => simp
  | some o => cases o <;> simp

theorem Heap.deref_store_self {h : Heap} {p : Nat} (f : Folder) (hp : p < h.length) :
    (h.store p f).deref p = some f := by
  simp [Heap.deref, Heap.store, List.getElem?_set, hp]

theorem Heap.deref_store_ne {h : Heap} {p q : Nat} (f : Folder) (hne : p ≠ q) :
    (h.store p f).deref q = h.deref q := by
  simp [Heap.deref, Heap.store, List.getElem?_set, hne]

theorem Heap.deref_free_self (h : Heap) (p : Nat) : (h.free p).deref p = none := by
  unfold Heap.deref Heap.free
  by_cases hp : p < h.length
  · simp [List.getElem?_set, hp]
  · have : (List.set h p none)[p]? = none :=
      List.getElem?_eq_none (by rw [List.length_set]; exact Nat.le_of_not_lt hp)
    simp [this]

theorem Heap.deref_free_ne {h : Heap} {p q : Nat} (hne : p ≠ q) :
    (h.free p).deref q = h.deref q := by
  simp [Heap.deref, Heap.free, List.getElem?_set, hne]

@[simp] theorem Heap.length_store (h : Heap) (p : Nat) (f : Folder) :
    (h.store p f).length = h.length := by
  simp [Heap.store]

@[simp] theorem Heap.length_free (h : Heap) (p : Nat) : (h.free p).length = h.length := by
  simp [Heap.free]

theorem Heap.deref_append_of_lt {h : Heap} {p : Nat} (x : Option Folder) (hp : p < h.length) :
    Heap.deref (h ++ [x]) p = h.deref p := by
  simp [Heap.deref, List.getElem?_append_left hp]

theorem Heap.deref_append_length (h : Heap) (x : Option Folder) :
    Heap.deref (h ++ [x]) h.length = x := by
  simp [Heap.deref]

theorem Heap.deref_append_some {h : Heap} {p : Nat} {f : Folder} (x : Option Folder)
    (hp : h.deref p = some f) : Heap.deref (h ++ [x]) p = some f := by
  rw [Heap.deref_append_of_lt x (Heap.deref_lt hp), hp]

/-! ## The destructor -/

theorem FreesOnly.refl (h : Heap) : FreesOnly h h := ⟨rfl, fun _ => Or.inl rfl⟩

theorem FreesOnly.trans {h h1 h2 : Heap} (a : FreesOnly h h1) (b : FreesOnly h1 h2) :
    FreesOnly h h2 := by
  refine ⟨b.1.trans a.1, fun r => ?_⟩
  rcases b.2 r with hb | hb
  · rw [hb]
    exact a.2 r
  · exact Or.inr hb

theorem FreesOnly.free (h : Heap) (p : Nat) : FreesOnly h (h.free p) := by
  refine ⟨Heap.length_free h p, fun r => ?_⟩
  by_cases hr : p = r
  · subst hr
    exact Or.inr (Heap.deref_free_self h p)
  · exact Or.inl (Heap.deref_free_ne hr)

theorem FreesOnly.some {h h1 : Heap} (a : FreesOnly h h1) {r : Nat} {g : Folder}
    (hr : h1.deref r = some g) : h.deref r = some g := by
  rcases a.2 r with ha | ha
  · rw [← ha, hr]
  · rw [ha] at hr
    cases hr

theorem FreesOnly.none {h h1 : Heap} (a : FreesOnly h h1) {r : Nat}
    (hr : h.deref r = none) : h1.deref r = none := by
  rcases a.2 r with ha | ha
  · rw [ha, hr]
  · exact ha

theorem Ord.keep_released {h h1 : Heap} (ho : Ord h) (a : FreesOnly h h1) : Ord h1 :=
  fun r f hr e he hk => ho r f (a.some hr) e he hk

theorem Par.keep_freed {h h1 : Heap} (hp : Par h) (a : FreesOnly h h1) : Par h1 :=
  fun r f hr e he hk g hg => hp r f (a.some hr) e he hk g (a.some hg)

theorem destroy_succ (fuel : Nat) (h : Heap) (p : Nat) :
    destroy (fuel + 1) h p =
      match h.deref p with
      | none => h
      | some f => (f.foldersById.foldl (destroyStep fuel) h).free p := rfl

theorem foldl_freesOnly {step : Heap → Str × Nat → Heap}
    (hstep : ∀ acc e, FreesOnly acc (step acc e)) :
    ∀ (l : List (Str × Nat)) (acc : Heap), FreesOnly acc (l.foldl step acc)
  | [], acc => FreesOnly.refl acc
  | e :: l, acc => (hstep acc e).trans (foldl_freesOnly hstep l (step acc e))

/-- The destructor only releases objects. -/
theorem destroy_freesOnly : ∀ (fuel : Nat) (h : Heap) (p : Nat), FreesOnly h (destroy fuel h p)
  | 0, h, _ => FreesOnly.refl h
  | fuel + 1, h, p => by
    rw [destroy_succ]
    cases h.deref p with
    | none => exact FreesOnly.refl h
    | some f =>
      refine FreesOnly.trans (foldl_freesOnly (fun acc e => ?_) _ _) (FreesOnly.free _ p)
      unfold destroyStep
      split
      · exact FreesOnly.refl acc
      · exact destroy_freesOnly fuel acc e.2

/-- The destructor does not touch an object allocated before the one it is run on. -/
theorem destroy_below : ∀ (fuel : Nat) (h : Heap) (p : Nat), Ord h →
    ∀ r, r < p → (destroy fuel h p).deref r = h.deref r
  | 0, _, _, _, _, _ => rfl
  | fuel + 1, h, p, ho, r, hr => by
    rw [destroy_succ]
    cases hf : h.deref p with
    | none => rfl
    | some f =>
      have inner : ∀ (l : List (Str × Nat)) (acc : Heap), Ord acc →
          (∀ e ∈ l, e.1 ≠ parentKey → p < e.2) →
          (l.foldl (destroyStep fuel) acc).deref r = acc.deref r := by
        intro l
        induction l with
        | nil => intro acc _ _; rfl
        | cons e l ih =>
          intro acc hacc hl
          rw [List.foldl_cons]
          have hstep : FreesOnly acc (destroyStep fuel acc e) := by
            unfold destroyStep
            split
            · exact FreesOnly.refl acc
            · exact destroy_freesOnly fuel acc e.2
          rw [ih _ (hacc.keep_released hstep) (fun e1 he1 => hl e1 (List.mem_cons_of_mem _ he1))]
          unfold destroyStep
          split
          · rfl
          · rename_i hk
            exact destroy_below fuel acc e.2 hacc r
              (Nat.lt_trans hr (hl e (List.mem_cons_self _ _) hk))
      show ((f.foldersById.foldl (destroyStep fuel) h).free p).deref r = h.deref r
      rw [Heap.deref_free_ne (Nat.ne_of_gt hr)]
      exact inner _ h ho (fun e he hk => ho p f hf e he hk)

/-- An object released by the destructor is the one it is run on, or its parent is
released as well. -/
theorem destroy_released : ∀ (fuel : Nat) (h : Heap) (p : Nat), Par h →
    ∀ r g, h.deref r = some g → (destroy fuel h p).deref r = none →
      r = p ∨ ∃ r1 g1, g.parentFolder = some r1 ∧ h.deref r1 = some g1 ∧
        (destroy fuel h p).deref r1 = none
  | 0, h, p, _, r, g, hg, hn => by
    rw [show destroy 0 h p = h from rfl, hg] at hn
    cases hn
  | fuel + 1, h, p, hpar, r, g, hg, hn => by
    rw [destroy_succ] at hn ⊢
    cases hf : h.deref p with
    | none =>
      rw [hf] at hn
      simp only at hn
      rw [hg] at hn
      cases hn
    | some f =>
      rw [hf] at hn
      simp only at hn ⊢
      by_cases hrp : r = p
      · exact Or.inl hrp
      · right
        rw [Heap.deref_free_ne (Ne.symm hrp)] at hn
        have inner : ∀ (l : List (Str × Nat)) (acc : Heap), FreesOnly h acc →
            (l.foldl (destroyStep fuel) acc).deref r = none →
            acc.deref r = none ∨ (∃ e ∈ l, e.1 ≠ parentKey ∧ e.2 = r) ∨
              ∃ r1 g1, g.parentFolder = some r1 ∧ h.deref r1 = some g1 ∧
                (l.foldl (destroyStep fuel) acc).deref r1 = none := by
          intro l
          induction l with
          | nil => intro acc _ hacc; exact Or.inl hacc
          | cons e l ih =>
            intro acc hfo hfin
            rw [List.foldl_cons] at hfin ⊢
            have hstep : FreesOnly acc (destroyStep fuel acc e) := by
              unfold destroyStep
              split
              · exact FreesOnly.refl acc
              · exact destroy_freesOnly fuel acc e.2
            rcases ih _ (hfo.trans hstep) hfin with h1 | ⟨e1, he1, hk1, hr1⟩ | h3
            · by_cases hacc : acc.deref r = none
              · exact Or.inl hacc
              · right
                have haccg : acc.deref r = some g := by
                  rcases hfo.2 r with h4 | h4
                  · rw [h4, hg]
                  · exact absurd h4 hacc
                by_cases hk : e.1 = parentKey
                · simp only [destroyStep, hk, if_true] at h1
                  exact absurd h1 hacc
                · simp only [destroyStep, hk, if_false] at h1
                  rcases destroy_released fuel acc e.2 (hpar.keep_freed hfo) r g haccg h1
                    with h5 | ⟨r1, g1, hp1, hl1, hn1⟩
                  · exact Or.inl ⟨e, List.mem_cons_self _ _, hk, h5.symm⟩
                  · refine Or.inr ⟨r1, g1, hp1, hfo.some hl1, ?_⟩
                    have h6 : (destroyStep fuel acc e).deref r1 = none := by
                      simp only [destroyStep, hk, if_false]
                      exact hn1
                    exact (foldl_freesOnly (fun a x => by
                      unfold destroyStep
                      split
                      · exact FreesOnly.refl a
                      · exact destroy_freesOnly fuel a x.2) l _).none h6
            · exact Or.inr (Or.inl ⟨e1, List.mem_cons_of_mem _ he1, hk1, hr1⟩)
            · exact Or.inr (Or.inr h3)
        rcases inner f.foldersById h (FreesOnly.refl h) hn with h1 | ⟨e, he, hk, hr1⟩ | ⟨r1, g1, hp1, hl1, hn1⟩
        · rw [hg] at h1
          cases h1
        · subst hr1
          exact ⟨p, f, hpar p f hf e he hk g hg, hf, Heap.deref_free_self _ p⟩
        · exact ⟨r1, g1, hp1, hl1, (FreesOnly.free _ p).none hn1⟩

/-- With fuel left, the destructor releases the object it is run on. -/
theorem destroy_self (fuel : Nat) (h : Heap) (p : Nat) {f : Folder} (hf : h.deref p = some f) :
    (destroy (fuel + 1) h p).deref p = none := by
  rw [destroy_succ, hf]
  exact Heap.deref_free_self _ p

/-- The bound on the nesting depth does not cut a run of the destructor short: in a heap in
which children are allocated after their parent, any two bounds of at least the number of
slots from the object on give the same result. -/
theorem destroy_fuel_irrelevant : ∀ (n : Nat) (h : Heap) (p : Nat), Ord h →
    h.length - p ≤ n → ∀ m, h.length - p ≤ m → destroy n h p = destroy m h p := by
  intro n
  induction n with
  | zero =>
    intro h p _ hn m _
    have hnone : h.deref p = none := by
      cases hd : h.deref p with
      | none => rfl
      | some f =>
        have := Heap.deref_lt hd
        omega
    cases m with
    | zero => rfl
    | succ m =>
      rw [destroy_succ, hnone]
      rfl
  | succ n ih =>
    intro h p ho hn m hm
    cases hd : h.deref p with
    | none =>
      cases m with
      | zero =>
        rw [destroy_succ, hd]
        rfl
      | succ m => rw [destroy_succ, destroy_succ, hd]
    | some f =>
      have hlt := Heap.deref_lt hd
      cases m with
      | zero => omega
      | succ m =>
        rw [destroy_succ, destroy_succ, hd]
        dsimp only
        have inner : ∀ (l : List (Str × Nat)) (acc : Heap), Ord acc → acc.length = h.length →
            (∀ e ∈ l, e.1 ≠ parentKey → p < e.2) →
            l.foldl (destroyStep n) acc = l.foldl (destroyStep m) acc := by
          intro l
          induction l with
          | nil => intro acc _ _ _; rfl
          | cons e l ihl =>
            intro acc hacc hlen hl
            have hstep : destroyStep n acc e = destroyStep m acc e := by
              unfold destroyStep
              split
              · rfl
              · rename_i hk
                have := hl e (List.mem_cons_self _ _) hk
                exact ih acc e.2 hacc (by omega) m (by omega)
            have hfo : FreesOnly acc (destroyStep m acc e) := by
              unfold destroyStep
              split
              · exact FreesOnly.refl acc
              · exact destroy_freesOnly m acc e.2
            rw [List.foldl_cons, List.foldl_cons, hstep]
            exact ihl _ (hacc.keep_released hfo) (hfo.1.trans hlen)
              (fun e1 he1 => hl e1 (List.mem_cons_of_mem _ he1))
        rw [inner f.foldersById h ho rfl (fun e he hk => ho p f hd e he hk)]

/-! ## The loop of `removeFolder` -/

theorem Ord.store_sub {h : Heap} {p : Nat} {f f1 : Folder} (ho : Ord h) (hf : h.deref p = some f)
    (hsub : ∀ e ∈ f1.foldersById, e ∈ f.foldersById) : Ord (h.store p f1) := by
  intro a x ha e he hk
  by_cases hap : p = a
  · subst hap
    rw [Heap.deref_store_self _ (Heap.deref_lt hf)] at ha
    cases ha
    exact ho p f hf e (hsub e he) hk
  · rw [Heap.deref_store_ne _ hap] at ha
    exact ho a x ha e he hk

theorem Par.store_same {h : Heap} {p : Nat} {f f1 : Folder} (hp : Par h) (hf : h.deref p = some f)
    (hsub : ∀ e ∈ f1.foldersById, e ∈ f.foldersById)
    (hparent : f1.parentFolder = f.parentFolder) : Par (h.store p f1) := by
  intro a x ha e he hk g hg
  have hg1 : ∃ g0, h.deref e.2 = some g0 ∧ g.parentFolder = g0.parentFolder := by
    by_cases hep : p = e.2
    · rw [← hep, Heap.deref_store_self _ (Heap.deref_lt hf)] at hg
      cases hg
      exact ⟨f, hep ▸ hf, hparent⟩
    · rw [Heap.deref_store_ne _ hep] at hg
      exact ⟨g, hg, rfl⟩
  obtain ⟨g0, hg0, hpg⟩ := hg1
  rw [hpg]
  by_cases hap : p = a
  · subst hap
    rw [Heap.deref_store_self _ (Heap.deref_lt hf)] at ha
    cases ha
    exact hp p f hf e (hsub e he) hk g0 hg0
  · rw [Heap.deref_store_ne _ hap] at ha
    exact hp a x ha e he hk g0 hg0

/-- The effect of the loop of `removeFolder` run on the folder `me` behind `self` over
child entries `l` with pairwise different pointers: it returns, the folder behind `self`
loses the ids read from the entries and nothing else, every other object is untouched or
released, the entries are released, and a released object is one of the entries or has a
released parent. -/
theorem removeFolderLoop_spec (self : Nat) : ∀ (l : List (Str × Nat)) (h : Heap) (me : Folder),
    Ord h → Par h → h.deref self = some me →
    (∀ e ∈ l, self < e.2 ∧ ∃ g, h.deref e.2 = some g ∧ g.parentFolder = some self) →
    (l.map Prod.snd).Nodup →
    ∃ h1, removeFolderLoop self l h = .ret h1 ∧ h1.length = h.length ∧
      h1.deref self =
        some { me with foldersById := (idsBehind h l).foldl mapErase me.foldersById } ∧
      (∀ r, r ≠ self → h1.deref r = h.deref r ∨ h1.deref r = none) ∧
      (∀ r g, h.deref r = some g → h1.deref r = none →
        (∃ e ∈ l, e.2 = r) ∨ ∃ r1 g1, g.parentFolder = some r1 ∧ h.deref r1 = some g1 ∧
          h1.deref r1 = none) ∧
      (∀ e ∈ l, h1.deref e.2 = none) := by
  intro l
  induction l with
  | nil =>
    intro h me _ _ hme _ _
    refine ⟨h, rfl, rfl, ?_, fun r _ => Or.inl rfl, ?_, ?_⟩
    · simpa [idsBehind] using hme
    · intro r g hg hn
      rw [hg] at hn
      cases hn
    · intro e he
      cases he
  | cons e l ih =>
    intro h me ho hp hme hl hnd
    obtain ⟨hlt, g, hg, hgp⟩ := hl e (List.mem_cons_self _ _)
    have hne : self ≠ e.2 := Nat.ne_of_lt hlt
    have hselflt : self < h.length := Heap.deref_lt hme
    -- the heap after the id of the entry is erased
    let me1 : Folder := { me with foldersById := mapErase me.foldersById g.metadata.folderId }
    have hsub : ∀ x ∈ me1.foldersById, x ∈ me.foldersById := fun x hx => (mem_mapErase.1 hx).1
    have ho1 : Ord (h.store self me1) := ho.store_sub hme hsub
    have hp1 : Par (h.store self me1) := hp.store_same hme hsub rfl
    have hme1 : (h.store self me1).deref self = some me1 := Heap.deref_store_self _ hselflt
    have hg1 : (h.store self me1).deref e.2 = some g := by
      rw [Heap.deref_store_ne _ hne, hg]
    -- the heap after the entry is deleted
    let h2 : Heap := destroy (h.store self me1).length (h.store self me1) e.2
    have hfo : FreesOnly (h.store self me1) h2 := destroy_freesOnly _ _ _
    have hme2 : h2.deref self = some me1 := by
      rw [destroy_below _ _ _ ho1 self hlt, hme1]
    have hfuel : (h.store self me1).length = (h.length - 1) + 1 := by
      rw [Heap.length_store]
      omega
    have he2 : h2.deref e.2 = none := by
      show (destroy (h.store self me1).length (h.store self me1) e.2).deref e.2 = none
      rw [hfuel]
      exact destroy_self _ _ _ hg1
    have hrel : ∀ r x, (h.store self me1).deref r = some x → h2.deref r = none →
        r = e.2 ∨ ∃ r1 x1, x.parentFolder = some r1 ∧ (h.store self me1).deref r1 = some x1 ∧
          h2.deref r1 = none :=
      fun r x hx hn => destroy_released _ _ _ hp1 r x hx hn
    have hnd1 : (l.map Prod.snd).Nodup := (List.nodup_cons.1 hnd).2
    have hnotin : e.2 ∉ l.map Prod.snd := (List.nodup_cons.1 hnd).1
    have hl2 : ∀ x ∈ l, self < x.2 ∧ ∃ gx, h2.deref x.2 = some gx ∧ gx.parentFolder = some self := by
      intro x hx
      obtain ⟨hxlt, gx, hgx, hgxp⟩ := hl x (List.mem_cons_of_mem _ hx)
      refine ⟨hxlt, gx, ?_, hgxp⟩
      have hgx1 : (h.store self me1).deref x.2 = some gx := by
        rw [Heap.deref_store_ne _ (Nat.ne_of_lt hxlt), hgx]
      rcases hfo.2 x.2 with h3 | h3
      · rw [h3, hgx1]
      · exfalso
        rcases hrel x.2 gx hgx1 h3 with h4 | ⟨r1, x1, hp4, _, hn4⟩
        · exact hnotin (h4 ▸ List.mem_map_of_mem Prod.snd hx)
        · rw [hgxp] at hp4
          cases hp4
          rw [hme2] at hn4
          cases hn4
    obtain ⟨h3, hrun, hlen, hself, hother, hreleased, hgone⟩ :=
      ih h2 me1 (ho1.keep_released hfo) (hp1.keep_freed hfo) hme2 hl2 hnd1
    have hids : idsBehind h2 l = idsBehind h l := by
      unfold idsBehind
      apply List.filterMap_congr
      intro x hx
      obtain ⟨hxlt, gx, hgx, _⟩ := hl2 x hx
      obtain ⟨_, gy, hgy, _⟩ := hl x (List.mem_cons_of_mem _ hx)
      have : h.deref x.2 = some gx := by
        have h5 := hfo.some hgx
        rwa [Heap.deref_store_ne _ (Nat.ne_of_lt hxlt)] at h5
      rw [hgx, this]
    refine ⟨h3, ?_, ?_, ?_, ?_, ?_, ?_⟩
    · show removeFolderLoop self (e :: l) h = .ret h3
      rw [removeFolderLoop, hg, hme]
      exact hrun
    · rw [hlen, hfo.1, Heap.length_store]
    · rw [hself, hids]
      simp [idsBehind, hg, me1]
    · intro r hr
      rcases hother r hr with h4 | h4
      · rw [h4]
        rcases hfo.2 r with h5 | h5
        · rw [h5, Heap.deref_store_ne _ (Ne.symm hr)]
          exact Or.inl rfl
        · exact Or.inr h5
      · exact Or.inr h4
    · intro r x hx hn
      have hrs : r ≠ self := by
        intro hrs
        rw [hrs, hself] at hn
        cases hn
      have hx1 : (h.store self me1).deref r = some x := by
        rw [Heap.deref_store_ne _ (Ne.symm hrs), hx]
      have keep : ∀ r1, h2.deref r1 = none → h3.deref r1 = none := by
        intro r1 hr1
        by_cases hr1s : r1 = self
        · rw [hr1s, hme2] at hr1
          cases hr1
        · rcases hother r1 hr1s with h4 | h4
          · rw [h4, hr1]
          · exact h4
      have back : ∀ r1 x1, (h.store self me1).deref r1 = some x1 → h2.deref r1 = none →
          h.deref r1 = some x1 := by
        intro r1 x1 hx1 hn1
        by_cases hr1s : r1 = self
        · rw [hr1s, hme2] at hn1
          cases hn1
        · rwa [Heap.deref_store_ne _ (Ne.symm hr1s)] at hx1
      rcases hfo.2 r with h4 | h4
      · rw [hx1] at h4
        rcases hreleased r x h4 hn with ⟨e1, he1, hr1⟩ | ⟨r1, x1, hp4, hl4, hn4⟩
        · exact Or.inl ⟨e1, List.mem_cons_of_mem _ he1, hr1⟩
        · refine Or.inr ⟨r1, x1, hp4, ?_, hn4⟩
          have h5 := hfo.some hl4
          by_cases hr1s : r1 = self
          · rw [hr1s, hself] at hn4
            cases hn4
          · rwa [Heap.deref_store_ne _ (Ne.symm hr1s)] at h5
      · rcases hrel r x hx1 h4 with h5 | ⟨r1, x1, hp5, hl5, hn5⟩
        · exact Or.inl ⟨e, List.mem_cons_self _ _, h5.symm⟩
        · exact Or.inr ⟨r1, x1, hp5, back r1 x1 hl5 hn5, keep r1 hn5⟩
    · intro x hx
      rcases List.mem_cons.1 hx with hxe | hxl
      · subst hxe
        rcases hother x.2 (Ne.symm hne) with h4 | h4
        · rw [h4, he2]
        · exact h4
      · exact hgone x hxl

/-! ## The derivation of identifiers -/

theorem stoi_to_string_count : ∀ n : Nat, n < 100 →
    stoi (to_string ((n : Int) + 1)) = .ret ((n : Int) + 1) := by
  decide

theorem count_string_padded : ∀ n : Nat, n < 99 →
    (if (to_string ((n : Int) + 1)).length = 1 then "0".toList ++ to_string ((n : Int) + 1)
      else to_string ((n : Int) + 1)) = pad2 (n + 1) := by
  decide

theorem bump_pad2 : ∀ i : Nat, i < 99 → getNewFolderOrFileVersion (pad2 i) = .ret (pad2 (i + 1)) := by
  decide

theorem pad2_length (n : Nat) : (pad2 n).length = 2 := rfl

/-- The id of the first child with a new name, for a counter between 0 and 99: an error
when the counter would reach 100, else parent id, padded counter and version `00`. -/
theorem getNewId_none (pid : Str) (n : Nat) (hn : n ≤ 99) :
    getNewId pid (n : Int) none =
      if n + 1 ≥ 100 then .throw "Folder can not be created"
      else .ret (pid ++ pad2 (n + 1) ++ "00".toList) := by
  have h1 := stoi_to_string_count n (by omega)
  simp only [getNewId, h1, Exec.ret_bind]
  by_cases h100 : n + 1 ≥ 100
  · have : (n : Int) + 1 ≥ 100 := by omega
    simp [this, h100]
  · have h2 : ¬ ((n : Int) + 1 ≥ 100) := by omega
    have h3 := count_string_padded n (by omega)
    simp only [h2, h100, if_false]
    rw [← h3]
    split <;> simp [List.append_assoc]

theorem getNewFolderOrFileVersion_length {v : Str} (hv : v.length = 2) :
    ∃ v1, getNewFolderOrFileVersion v = .ret v1 ∧ v1.length = 2 := by
  match v, hv with
  | [c0, c1], _ =>
    by_cases h9 : c1 = '9'
    · exact ⟨[charInc c0, '0'], by simp only [getNewFolderOrFileVersion, h9, if_true], rfl⟩
    · exact ⟨[c0, charInc c1], by simp only [getNewFolderOrFileVersion, h9, if_false], rfl⟩

theorem substr_tail4 (x g v : Str) (hg : g.length = 2) (hv : v.length = 2) :
    substr (x ++ g ++ v) (sizeSub (x ++ g ++ v).length 4) 2 = .ret g ∧
    substr (x ++ g ++ v) (sizeSub (x ++ g ++ v).length 2) 2 = .ret v := by
  have hlen : (x ++ g ++ v).length = x.length + 4 := by simp [hg, hv]
  have h4 : sizeSub (x ++ g ++ v).length 4 = x.length := by
    rw [hlen, sizeSub_of_le (by omega)]
    omega
  have h2 : sizeSub (x ++ g ++ v).length 2 = x.length + 2 := by
    rw [hlen, sizeSub_of_le (by omega)]
    omega
  rw [h4, h2]
  constructor
  · have : ¬ (x.length > (x ++ g ++ v).length) := by omega
    simp only [substr, this, if_false]
    rw [List.append_assoc, List.drop_left, List.take_left' hg]
  · have : ¬ (x.length + 2 > (x ++ g ++ v).length) := by omega
    simp only [substr, this, if_false]
    have hd : List.drop (x.length + 2) (x ++ g ++ v) = v := by
      have : x.length + 2 = (x ++ g).length := by simp [hg]
      rw [this, List.drop_left]
    rw [hd, List.take_of_length_le (by omega)]

/-- The id of a further child with a name already present, whose last entry has the id
`x ++ g ++ v` with a two-character group `g` and a two-character version `v`. -/
theorem getNewId_some (pid : Str) (c : Int) (x g v : Str) (hg : g.length = 2)
    (hv : v.length = 2) :
    getNewId pid c (some (x ++ g ++ v)) =
      (getNewFolderOrFileVersion v >>= fun v1 => Exec.ret (pid ++ g ++ v1)) := by
  obtain ⟨h4, h2⟩ := substr_tail4 x g v hg hv
  simp only [getNewId, h4, h2, Exec.ret_bind]

/-- The version stored on a new file: the last two characters of the id. -/
theorem substr_version (x v : Str) (hv : v.length = 2) :
    substr (x ++ v) (toSizeT (((x ++ v).length : Int) - 2)) 2 = .ret v := by
  have hlen : (x ++ v).length = x.length + 2 := by simp [hv]
  have h1 : toSizeT (((x ++ v).length : Int) - 2) = x.length := by
    rw [hlen]
    have : (0 : Int) ≤ ((x.length + 2 : Nat) : Int) - 2 := by omega
    simp only [toSizeT, this, if_true]
    omega
  have : ¬ (x.length > (x ++ v).length) := by omega
  rw [h1]
  simp only [substr, this, if_false]
  rw [List.drop_left, List.take_of_length_le (by omega)]

/-! ## Chains of versions -/

theorem verOf_length : ∀ i, (verOf i).length = 2
  | 0 => rfl
  | i + 1 => by
    obtain ⟨v1, hv1, hl1⟩ := getNewFolderOrFileVersion_length (verOf_length i)
    simp only [verOf, hv1]
    exact hl1

theorem verOf_succ (i : Nat) : getNewFolderOrFileVersion (verOf i) = .ret (verOf (i + 1)) := by
  obtain ⟨v1, hv1, _⟩ := getNewFolderOrFileVersion_length (verOf_length i)
  simp only [verOf, hv1]

theorem range_map_succ {α : Type} (f : Nat → α) (j : Nat) :
    (List.range (j + 1)).map f = (List.range j).map f ++ [f j] := by
  rw [List.range_succ, List.map_append]
  rfl

/-- The id derived for a name whose entries so far form a chain of `j` versions in the
group `g0`: the next version of that group, or for a new name the group of the counter. -/
theorem getNewId_chain (pid g0 : Str) (j n : Nat) (hg0 : g0.length = 2) (hn : n ≤ 99) :
    getNewId pid (n : Int) (((List.range j).map (fun i => pid ++ g0 ++ verOf i)).getLast?) =
      if j = 0 then
        (if n + 1 ≥ 100 then .throw "Folder can not be created"
          else .ret (pid ++ pad2 (n + 1) ++ verOf 0))
      else .ret (pid ++ g0 ++ verOf j) := by
  cases j with
  | zero =>
    simp only [List.range_zero, List.map_nil, List.getLast?_nil, if_true]
    exact getNewId_none pid n hn
  | succ j =>
    rw [range_map_succ, List.getLast?_concat, getNewId_some _ _ _ _ _ hg0 (verOf_length j),
      verOf_succ]
    simp

theorem idsBehind_append (h : Heap) (l1 l2 : List (Str × Nat)) :
    idsBehind h (l1 ++ l2) = idsBehind h l1 ++ idsBehind h l2 := by
  simp [idsBehind]

theorem idsBehind_congr {h h1 : Heap} {l : List (Str × Nat)}
    (hl : ∀ e ∈ l, ∃ g, h.deref e.2 = some g ∧
      ∃ g1, h1.deref e.2 = some g1 ∧ g1.metadata.folderId = g.metadata.folderId) :
    idsBehind h1 l = idsBehind h l := by
  unfold idsBehind
  apply List.filterMap_congr
  intro e he
  obtain ⟨g, hg, g1, hg1, hid⟩ := hl e he
  rw [hg, hg1]
  simp [hid]

theorem idsBehind_getLast? {h : Heap} {l : List (Str × Nat)} {e : Str × Nat} {g : Folder}
    (hl : l.getLast? = some e) (hg : h.deref e.2 = some g) :
    (idsBehind h l).getLast? = some g.metadata.folderId := by
  obtain ⟨l1, rfl⟩ : ∃ l1, l = l1 ++ [e] := by
    rcases List.eq_nil_or_concat l with h1 | ⟨l1, a, h1⟩
    · subst h1
      cases hl
    · subst h1
      rw [List.concat_eq_append, List.getLast?_concat] at hl
      cases hl
      exact ⟨l1, List.concat_eq_append _ _⟩
  rw [idsBehind_append]
  have : idsBehind h [e] = [g.metadata.folderId] := by
    simp [idsBehind, hg]
  rw [this, List.getLast?_concat]

section Containers

variable {β : Type}

theorem equal_range_multiErase_self (m : List (Str × β)) (k : Str) :
    equal_range (multiErase m k) k = [] := by
  simp only [equal_range, multiErase, List.filter_filter]
  rw [List.filter_eq_nil_iff]
  intro e _
  by_cases he : e.1 = k <;> simp [he]

theorem equal_range_multiErase_ne (m : List (Str × β)) {k k1 : Str} (hne : k1 ≠ k) :
    equal_range (multiErase m k) k1 = equal_range m k1 := by
  simp only [equal_range, multiErase, List.filter_filter]
  apply List.filter_congr
  intro e _
  by_cases he : e.1 = k1
  · simp [he, hne]
  · simp [he]

theorem equal_range_nil (k : Str) : equal_range ([] : List (Str × β)) k = [] := rfl

end Containers

/-! ## Counting distinct names -/

theorem dedup_length_cons (k : Str) (l : List Str) :
    (k :: l).dedup.length = if k ∈ l then l.dedup.length else l.dedup.length + 1 := by
  by_cases h : k ∈ l
  · simp [List.dedup_cons_of_mem h, h]
  · simp [List.dedup_cons_of_not_mem h, h]

theorem dedup_length_filter_ne {k : Str} {l : List Str} (h : k ∈ l) :
    (l.filter (fun x => x ≠ k)).dedup.length + 1 = l.dedup.length := by
  rw [← List.card_toFinset, ← List.card_toFinset, List.toFinset_filter]
  have h1 : Finset.filter (fun x => decide (x ≠ k) = true) l.toFinset = l.toFinset.erase k := by
    ext x
    simp [Finset.mem_erase]
    tauto
  rw [h1, Finset.card_erase_of_mem (List.mem_toFinset.2 h)]
  have : 0 < l.toFinset.card := Finset.card_pos.2 ⟨k, List.mem_toFinset.2 h⟩
  omega

section Containers

variable {β : Type}

theorem keys_multiInsert_perm (m : List (Str × β)) (k : Str) (v : β) :
    (keys (multiInsert m k v)).Perm (k :: keys m) :=
  (multiInsert_perm m k v).map Prod.fst

theorem keys_multiErase (m : List (Str × β)) (k : Str) :
    keys (multiErase m k) = (keys m).filter (fun x => x ≠ k) := by
  unfold keys multiErase
  rw [List.filter_map]
  rfl

theorem mem_keys {m : List (Str × β)} {k : Str} : k ∈ keys m ↔ ∃ e ∈ m, e.1 = k := by
  unfold keys
  rw [List.mem_map]

end Containers

theorem distinctFileNames_insert (m : List (Str × File)) (k : Str) (v : File) :
    (keys (multiInsert m k v)).dedup.length =
      if k ∈ keys m then (keys m).dedup.length else (keys m).dedup.length + 1 := by
  rw [(keys_multiInsert_perm m k v).dedup.length_eq, dedup_length_cons]

theorem distinctFolderNames_insert (m : List (Str × Nat)) {k : Str} (v : Nat)
    (hk : k ≠ dotdot) :
    ((keys (multiInsert m k v)).filter (fun x => x ≠ dotdot)).dedup.length =
      if k ∈ keys m then ((keys m).filter (fun x => x ≠ dotdot)).dedup.length
      else ((keys m).filter (fun x => x ≠ dotdot)).dedup.length + 1 := by
  have h1 := ((keys_multiInsert_perm m k v).filter (fun x => decide (x ≠ dotdot))).dedup.length_eq
  rw [h1, List.filter_cons]
  simp only [hk, ne_eq, not_false_eq_true, decide_True, if_true]
  rw [dedup_length_cons]
  have : k ∈ List.filter (fun x => decide (¬ x = dotdot)) (keys m) ↔ k ∈ keys m := by
    simp [List.mem_filter, hk]
  simp only [this]

theorem distinctFolderNames_erase (m : List (Str × Nat)) {k : Str} (hk : k ≠ dotdot)
    (hmem : k ∈ keys m) :
    ((keys (multiErase m k)).filter (fun x => x ≠ dotdot)).dedup.length + 1 =
      ((keys m).filter (fun x => x ≠ dotdot)).dedup.length := by
  rw [keys_multiErase, List.filter_comm]
  apply dedup_length_filter_ne
  simp [List.mem_filter, hk, hmem]

/-! ## The operations, case by case -/

theorem Outcome.failed_unchanged {op : Op} {s s1 : State} {w : String}
    (h : op.run s = .failed w s1) : s1 = s := by
  have hc : ∀ body, catchRuntimeError s body = .failed w s1 → s1 = s := by
    intro body hb
    unfold catchRuntimeError at hb
    split at hb <;> cases hb
    rfl
  cases op with
  | createFolder name => exact hc _ h
  | createFile name content => exact hc _ h
  | deleteFolder name => exact hc _ h
  | deleteFile name => exact hc _ h
  | changeDirectory target version relative =>
    simp only [Op.run, changeDirectory] at h
    repeat' split at h
    all_goals cases h
    all_goals rfl

theorem catchRuntimeError_ok {s s1 : State} {body : Exec State}
    (h : catchRuntimeError s body = .ok s1) : body = .ret s1 := by
  unfold catchRuntimeError at h
  split at h <;> cases h
  rfl

theorem getNewFileId_eq {s : State} {cur : Folder} (hcur : s.current = some cur) (name : Str) :
    getNewFileId s name = getNewId cur.metadata.folderId cur.metadata.uniqueFileCount
      (((equal_range cur.filesByName name).getLast?).map (fun e => e.2.metadata.fileId)) := by
  unfold getNewFileId
  rw [hcur]
  dsimp only
  cases (equal_range cur.filesByName name).getLast? <;> rfl

theorem createFile_ok_inv {s s1 : State} {name content : Str}
    (h : createFile s name content = .ok s1) :
    validName name ∧ ∃ cur id ext ver, s.current = some cur ∧
      getNewFileId s name = .ret id ∧ getFileExtension name = .ret ext ∧
      substr id (toSizeT ((id.length : Int) - 2)) 2 = .ret ver ∧
      s1 = { s with heap := (s.heap.store s.currentDirectoryPointer
        (cur.addFile (mkFile id (newPath s.currentDirectoryPath name) ext content name ver))) } := by
  have hb := catchRuntimeError_ok h
  by_cases hv : validName name
  · refine ⟨hv, ?_⟩
    rw [throwErrorifNameInvalid_valid hv] at hb
    simp only [Exec.ret_bind] at hb
    cases hid : getNewFileId s name with
    | throw w => rw [hid] at hb; cases hb
    | crash => rw [hid] at hb; cases hb
    | ret id =>
      rw [hid] at hb
      simp only [Exec.ret_bind] at hb
      cases hext : getFileExtension name with
      | throw w => rw [hext] at hb; cases hb
      | crash => rw [hext] at hb; cases hb
      | ret ext =>
        rw [hext] at hb
        simp only [Exec.ret_bind] at hb
        cases hver : substr id (toSizeT ((id.length : Int) - 2)) 2 with
        | throw w => rw [hver] at hb; cases hb
        | crash => rw [hver] at hb; cases hb
        | ret ver =>
          rw [hver] at hb
          simp only [Exec.ret_bind] at hb
          cases hcur : s.current with
          | none => rw [hcur] at hb; cases hb
          | some cur =>
            rw [hcur] at hb
            simp only [Exec.pure_eq] at hb
            exact ⟨cur, id, ext, ver, rfl, rfl, rfl, hver, (Exec.ret.inj hb).symm⟩
  · obtain ⟨w, hw⟩ := throwErrorifNameInvalid_invalid (not_not.1 hv)
    rw [hw] at hb
    cases hb

theorem createFile_eq_ok {s : State} {name content : Str} {cur : Folder} {id ext ver : Str}
    (hv : validName name) (hcur : s.current = some cur) (hid : getNewFileId s name = .ret id)
    (hext : getFileExtension name = .ret ext)
    (hver : substr id (toSizeT ((id.length : Int) - 2)) 2 = .ret ver) :
    createFile s name content = .ok { s with heap := (s.heap.store s.currentDirectoryPointer
        (cur.addFile (mkFile id (newPath s.currentDirectoryPath name) ext content name ver))) } := by
  simp only [createFile, throwErrorifNameInvalid_valid hv, hid, hext, hver, hcur, Exec.ret_bind,
    Exec.pure_eq, catchRuntimeError]

theorem getNewFolderId_current {s : State} {name id : Str} (h : getNewFolderId s name = .ret id) :
    ∃ cur, s.current = some cur := by
  unfold getNewFolderId at h
  cases hcur : s.current with
  | none => rw [hcur] at h; cases h
  | some cur => exact ⟨cur, rfl⟩

theorem createFolder_body {s : State} {name id : Str} {cur : Folder}
    (hcur : s.current = some cur) :
    addFolder (s.heap ++ [some (mkFolder id (newPath s.currentDirectoryPath name)
        (some s.currentDirectoryPointer) name)]) s.currentDirectoryPointer s.heap.length =
      .ret ((s.heap ++ [some (mkFolder id (newPath s.currentDirectoryPath name)
        (some s.currentDirectoryPointer) name)]).store s.currentDirectoryPointer
          (cur.addFolder s.heap.length id name)) := by
  unfold addFolder
  rw [Heap.deref_append_length, Heap.deref_append_some _ hcur]
  simp [mkFolder]

theorem createFolder_ok_inv {s s1 : State} {name : Str} (h : createFolder s name = .ok s1) :
    validName name ∧ ∃ cur id, s.current = some cur ∧ getNewFolderId s name = .ret id ∧
      s1 = { s with heap := ((s.heap ++ [some (mkFolder id (newPath s.currentDirectoryPath name)
        (some s.currentDirectoryPointer) name)]).store s.currentDirectoryPointer
          (cur.addFolder s.heap.length id name)) } := by
  have hb := catchRuntimeError_ok h
  by_cases hv : validName name
  · refine ⟨hv, ?_⟩
    rw [throwErrorifNameInvalid_valid hv] at hb
    simp only [Exec.ret_bind] at hb
    cases hid : getNewFolderId s name with
    | throw w => rw [hid] at hb; cases hb
    | crash => rw [hid] at hb; cases hb
    | ret id =>
      obtain ⟨cur, hcur⟩ := getNewFolderId_current hid
      rw [hid] at hb
      simp only [Exec.ret_bind, Heap.alloc] at hb
      rw [createFolder_body hcur] at hb
      simp only [Exec.ret_bind, Exec.pure_eq] at hb
      exact ⟨cur, id, hcur, rfl, (Exec.ret.inj hb).symm⟩
  · obtain ⟨w, hw⟩ := throwErrorifNameInvalid_invalid (not_not.1 hv)
    rw [hw] at hb
    cases hb

theorem createFolder_eq_ok {s : State} {name id : Str} {cur : Folder}
    (hv : validName name) (hcur : s.current = some cur)
    (hid : getNewFolderId s name = .ret id) :
    createFolder s name = .ok { s with heap :=
      ((s.heap ++ [some (mkFolder id (newPath s.currentDirectoryPath name)
        (some s.currentDirectoryPointer) name)]).store s.currentDirectoryPointer
          (cur.addFolder s.heap.length id name)) } := by
  simp only [createFolder, throwErrorifNameInvalid_valid hv, hid, Exec.ret_bind, Heap.alloc,
    createFolder_body hcur, Exec.pure_eq, catchRuntimeError]

theorem deleteFile_ok_inv {s s1 : State} {name : Str} (h : deleteFile s name = .ok s1) :
    validName name ∧ ∃ cur, s.current = some cur ∧ multiCount cur.filesByName name ≠ 0 ∧
      s1 = { s with heap := s.heap.store s.currentDirectoryPointer (cur.removeFile name) } := by
  have hb := catchRuntimeError_ok h
  by_cases hv : validName name
  · refine ⟨hv, ?_⟩
    rw [throwErrorifNameInvalid_valid hv] at hb
    simp only [Exec.ret_bind] at hb
    cases hcur : s.current with
    | none => rw [hcur] at hb; cases hb
    | some cur =>
      rw [hcur] at hb
      simp only at hb
      by_cases hc : multiCount cur.filesByName name = 0
      · rw [if_pos hc] at hb
        cases hb
      · rw [if_neg hc] at hb
        exact ⟨cur, rfl, hc, (Exec.ret.inj hb).symm⟩
  · obtain ⟨w, hw⟩ := throwErrorifNameInvalid_invalid (not_not.1 hv)
    rw [hw] at hb
    cases hb

theorem deleteFile_eq_ok {s : State} {name : Str} {cur : Folder} (hv : validName name)
    (hcur : s.current = some cur) (hc : multiCount cur.filesByName name ≠ 0) :
    deleteFile s name =
      .ok { s with heap := s.heap.store s.currentDirectoryPointer (cur.removeFile name) } := by
  simp only [deleteFile, throwErrorifNameInvalid_valid hv, hcur, Exec.ret_bind, if_neg hc,
    Exec.pure_eq, catchRuntimeError]

theorem deleteFolder_ok_inv {s s1 : State} {name : Str} (h : deleteFolder s name = .ok s1) :
    validName name ∧ ∃ cur h1, s.current = some cur ∧ multiCount cur.foldersByName name ≠ 0 ∧
      removeFolder s.heap s.currentDirectoryPointer name = .ret h1 ∧
      s1 = { s with heap := h1 } := by
  have hb := catchRuntimeError_ok h
  by_cases hv : validName name
  · refine ⟨hv, ?_⟩
    rw [throwErrorifNameInvalid_valid hv] at hb
    simp only [Exec.ret_bind] at hb
    cases hcur : s.current with
    | none => rw [hcur] at hb; cases hb
    | some cur =>
      rw [hcur] at hb
      simp only at hb
      by_cases hc : multiCount cur.foldersByName name = 0
      · rw [if_pos hc] at hb
        cases hb
      · rw [if_neg hc] at hb
        cases hrem : removeFolder s.heap s.currentDirectoryPointer name with
        | throw w => rw [hrem] at hb; cases hb
        | crash => rw [hrem] at hb; cases hb
        | ret h1 =>
          rw [hrem] at hb
          simp only [Exec.ret_bind, Exec.pure_eq] at hb
          exact ⟨cur, h1, rfl, hc, rfl, (Exec.ret.inj hb).symm⟩
  · obtain ⟨w, hw⟩ := throwErrorifNameInvalid_invalid (not_not.1 hv)
    rw [hw] at hb
    cases hb

theorem deleteFolder_eq_ok {s : State} {name : Str} {cur : Folder} {h1 : Heap}
    (hv : validName name) (hcur : s.current = some cur)
    (hc : multiCount cur.foldersByName name ≠ 0)
    (hrem : removeFolder s.heap s.currentDirectoryPointer name = .ret h1) :
    deleteFolder s name = .ok { s with heap := h1 } := by
  simp only [deleteFolder, throwErrorifNameInvalid_valid hv, hcur, Exec.ret_bind, if_neg hc, hrem,
    Exec.pure_eq, catchRuntimeError]

theorem changeDirectory_ok_inv {s s1 : State} {target : Str} {version : Int} {relative : Bool}
    (h : changeDirectory s target version relative = .ok s1) :
    ∃ q g, s.heap.deref q = some g ∧
      s1 = { s with currentDirectoryPointer := q,
                    currentDirectoryPath := g.metadata.folderPath } := by
  simp only [changeDirectory] at h
  repeat' split at h
  all_goals cases h
  all_goals refine ⟨_, _, ?_, rfl⟩
  all_goals assumption

/-! ## Preservation of the invariant: generic steps -/

theorem validName_ne_dotdot {name : Str} (hv : validName name) : name ≠ dotdot := by
  intro h
  subst h
  revert hv
  decide

theorem validName_ne_parentKey_len {id w x : Str} (hw : w.length = 4) (hid : id = x ++ w) :
    id ≠ parentKey := by
  intro h
  have h1 : id.length = 2 := by rw [h]; rfl
  rw [hid, List.length_append, hw] at h1
  omega

/-- The header of a folder object: the fields that other objects rely on. -/
theorem FolderPart.transfer {h h1 : Heap} {p : Nat} {f : Folder} (hn : FolderPart h p f)
    (hpres : ∀ q g, h.deref q = some g → g.parentFolder = some p →
      ∃ g1, h1.deref q = some g1 ∧ g1.parentFolder = g.parentFolder ∧
        g1.metadata.folderId = g.metadata.folderId ∧
        g1.metadata.folderName = g.metadata.folderName) :
    FolderPart h1 p f where
  folderCount := hn.folderCount
  folderCount_le := hn.folderCount_le
  folderNames := hn.folderNames
  children := by
    intro e he hk
    obtain ⟨hlt, g, hg, hgp, hgn, w, hw, hid⟩ := hn.children e he hk
    obtain ⟨g1, hg1, hp1, hi1, hn1⟩ := hpres e.2 g hg hgp
    exact ⟨hlt, g1, hg1, hp1.trans hgp, hn1.trans hgn, w, hw, hi1.trans hid⟩
  childIds := by
    intro e he hk
    obtain ⟨hlt, g, hg, hgp, hid⟩ := hn.childIds e he hk
    obtain ⟨g1, hg1, hp1, hi1, _⟩ := hpres e.2 g hg hgp
    exact ⟨hlt, g1, hg1, hp1.trans hgp, hi1.trans hid⟩
  parentEntry := hn.parentEntry
  dotdotEntry := hn.dotdotEntry
  nodup := hn.nodup
  chain := by
    intro name hname
    obtain ⟨g, hg, hch⟩ := hn.chain name hname
    refine ⟨g, hg, ?_⟩
    rw [← hch]
    apply idsBehind_congr
    intro e he
    obtain ⟨hmem, hkey⟩ := mem_equal_range.1 he
    obtain ⟨_, x, hx, hxp, _⟩ := hn.children e hmem (hkey ▸ hname)
    obtain ⟨x1, hx1, _, hi1, _⟩ := hpres e.2 x hx hxp
    exact ⟨x, hx, x1, hx1, hi1⟩

theorem FolderPart.of_same_folders {h : Heap} {p : Nat} {f f1 : Folder} (hn : FolderPart h p f)
    (h1 : f1.foldersByName = f.foldersByName) (h2 : f1.foldersById = f.foldersById)
    (h3 : f1.metadata.uniqueFolderCount = f.metadata.uniqueFolderCount)
    (h4 : f1.metadata.folderId = f.metadata.folderId) : FolderPart h p f1 where
  folderCount := by
    rw [h3, hn.folderCount]
    simp only [distinctFolderNames, h1]
  folderCount_le := by rw [h3]; exact hn.folderCount_le
  folderNames := by rw [h1]; exact hn.folderNames
  children := by rw [h1, h4]; exact hn.children
  childIds := by rw [h2]; exact hn.childIds
  parentEntry := by rw [h2]; exact hn.parentEntry
  dotdotEntry := by rw [h1]; exact hn.dotdotEntry
  nodup := by rw [h1]; exact hn.nodup
  chain := by rw [h1, h4]; exact hn.chain

theorem FilePart.of_same_files {f f1 : Folder} (hn : FilePart f)
    (h1 : f1.filesByName = f.filesByName) (h2 : f1.filesById = f.filesById)
    (h3 : f1.metadata.uniqueFileCount = f.metadata.uniqueFileCount)
    (h4 : f1.metadata.folderId = f.metadata.folderId) : FilePart f1 where
  fileCount := by
    rw [h3, hn.fileCount]
    simp only [distinctFileNames, h1]
  fileCount_le := by rw [h3]; exact hn.fileCount_le
  fileNames := by rw [h1]; exact hn.fileNames
  fileIds := by rw [h1, h2]; exact hn.fileIds
  chain := by rw [h1, h4]; exact hn.chain

/-- Objects keep their header when the object behind `c` is replaced by one with the same
header. -/
theorem store_preserves {h : Heap} {c : Nat} {cur f1 : Folder} (hcur : h.deref c = some cur)
    (hp : f1.parentFolder = cur.parentFolder)
    (hi : f1.metadata.folderId = cur.metadata.folderId)
    (hn : f1.metadata.folderName = cur.metadata.folderName) :
    ∀ q g, h.deref q = some g →
      ∃ g1, (h.store c f1).deref q = some g1 ∧ g1.parentFolder = g.parentFolder ∧
        g1.metadata.folderId = g.metadata.folderId ∧
        g1.metadata.folderName = g.metadata.folderName := by
  intro q g hg
  by_cases hq : c = q
  · subst hq
    rw [hcur] at hg
    cases hg
    exact ⟨f1, Heap.deref_store_self _ (Heap.deref_lt hcur), hp, hi, hn⟩
  · exact ⟨g, by rw [Heap.deref_store_ne _ hq, hg], rfl, rfl, rfl⟩

/-! ## Preservation by the file operations -/

section Containers

variable {β : Type}

theorem mem_foldl_mapErase {x : Str × β} :
    ∀ (ks : List Str) (m : List (Str × β)), x ∈ ks.foldl mapErase m ↔ x ∈ m ∧ x.1 ∉ ks
  | [], m => by simp
  | k :: ks, m => by
    rw [List.foldl_cons, mem_foldl_mapErase ks, mem_mapErase, List.mem_cons]
    constructor
    · rintro ⟨⟨h1, h2⟩, h3⟩
      exact ⟨h1, fun h => h.elim h2 h3⟩
    · rintro ⟨h1, h2⟩
      exact ⟨⟨h1, fun h => h2 (Or.inl h)⟩, fun h => h2 (Or.inr h)⟩

end Containers

theorem Folder.removeFile_filesById (f : Folder) (name : Str) :
    (f.removeFile name).filesById =
      ((equal_range f.filesByName name).map (fun e => e.2.metadata.fileId)).foldl
        mapErase f.filesById := by
  simp only [Folder.removeFile, List.foldl_map]

theorem Folder.addFile_count (f : Folder) (file : File) :
    (f.addFile file).metadata.uniqueFileCount =
      if file.metadata.fileName ∈ keys f.filesByName then f.metadata.uniqueFileCount
      else f.metadata.uniqueFileCount + 1 := by
  simp only [Folder.addFile, multiCount_multiInsert_self]
  by_cases hk : file.metadata.fileName ∈ keys f.filesByName
  · have : multiCount f.filesByName file.metadata.fileName ≠ 0 := fun h =>
      (multiCount_eq_zero.1 h) hk
    simp [hk, this]
  · have : multiCount f.filesByName file.metadata.fileName = 0 := multiCount_eq_zero.2 hk
    simp [hk, this]

theorem FilePart.addFile {f : Folder} (hn : FilePart f) {file : File}
    (hv : validName file.metadata.fileName)
    (hcount : file.metadata.fileName ∉ keys f.filesByName → f.metadata.uniqueFileCount + 1 ≤ 99)
    (hnew : ∃ g : Str, g.length = 2 ∧
      (equal_range f.filesByName file.metadata.fileName).map
          (fun e => (e.2.metadata.fileId, e.2.metadata.fileVersion)) =
        (List.range (multiCount f.filesByName file.metadata.fileName)).map
          (fun i => (f.metadata.folderId ++ g ++ verOf i, verOf i)) ∧
      file.metadata.fileId =
        f.metadata.folderId ++ g ++ verOf (multiCount f.filesByName file.metadata.fileName) ∧
      file.metadata.fileVersion = verOf (multiCount f.filesByName file.metadata.fileName)) :
    FilePart (f.addFile file) where
  fileCount := by
    rw [Folder.addFile_count, hn.fileCount]
    have h1 := distinctFileNames_insert f.filesByName file.metadata.fileName file
    simp only [distinctFileNames, Folder.addFile]
    rw [h1]
    split <;> simp
  fileCount_le := by
    rw [Folder.addFile_count]
    split
    · exact hn.fileCount_le
    · rename_i hk
      exact hcount hk
  fileNames := by
    intro e he
    simp only [Folder.addFile] at he
    rcases mem_multiInsert.1 he with h1 | h1
    · subst h1
      exact ⟨hv, rfl⟩
    · exact hn.fileNames e h1
  fileIds := by
    intro e he
    simp only [Folder.addFile] at he ⊢
    rcases mem_mapAssign.1 he with h1 | ⟨h1, _⟩
    · subst h1
      exact ⟨rfl, mem_multiInsert.2 (Or.inl rfl)⟩
    · obtain ⟨h2, h3⟩ := hn.fileIds e h1
      exact ⟨h2, mem_multiInsert.2 (Or.inr h3)⟩
  chain := by
    intro name
    by_cases hname : name = file.metadata.fileName
    · subst hname
      obtain ⟨g, hg, hch, hid, hver⟩ := hnew
      refine ⟨g, hg, ?_⟩
      simp only [Folder.addFile, equal_range_multiInsert_self, multiCount_multiInsert_self,
        List.map_append, List.map_cons, List.map_nil]
      rw [range_map_succ, hch, hid, hver]
    · obtain ⟨g, hg, hch⟩ := hn.chain name
      refine ⟨g, hg, ?_⟩
      simp only [Folder.addFile, multiCount, equal_range_multiInsert_ne _ _ hname]
      exact hch

theorem FilePart.removeFile {f : Folder} (hn : FilePart f) {name : Str}
    (hk : name ∈ keys f.filesByName) : FilePart (f.removeFile name) where
  fileCount := by
    have h1 := dedup_length_filter_ne hk
    have h2 : distinctFileNames (f.removeFile name) + 1 = distinctFileNames f := by
      simp only [distinctFileNames, Folder.removeFile, keys_multiErase]
      exact h1
    have h3 : (f.removeFile name).metadata.uniqueFileCount = f.metadata.uniqueFileCount - 1 := rfl
    rw [h3, hn.fileCount, ← h2]
    push_cast
    omega
  fileCount_le := by
    have h3 : (f.removeFile name).metadata.uniqueFileCount = f.metadata.uniqueFileCount - 1 := rfl
    have := hn.fileCount_le
    omega
  fileNames := by
    intro e he
    exact hn.fileNames e (mem_multiErase.1 he).1
  fileIds := by
    intro e he
    rw [Folder.removeFile_filesById, mem_foldl_mapErase] at he
    obtain ⟨h1, h2⟩ := he
    obtain ⟨h3, h4⟩ := hn.fileIds e h1
    refine ⟨h3, mem_multiErase.2 ⟨h4, fun h5 => h2 ?_⟩⟩
    rw [List.mem_map]
    exact ⟨(e.2.metadata.fileName, e.2), mem_equal_range.2 ⟨h4, h5⟩, h3⟩
  chain := by
    intro name1
    by_cases hname : name1 = name
    · subst hname
      refine ⟨"00".toList, rfl, ?_⟩
      simp [Folder.removeFile, multiCount, equal_range_multiErase_self]
    · obtain ⟨g, hg, hch⟩ := hn.chain name1
      refine ⟨g, hg, ?_⟩
      simp only [Folder.removeFile, multiCount, equal_range_multiErase_ne _ hname]
      exact hch

/-- The heap of a state is replaced by an update of the folder behind the cursor that keeps
the folder part: the invariant is kept when the file part is well formed again. -/
theorem WF.store_files {s : State} {cur f1 : Folder} (hwf : WF s) (hcur : s.current = some cur)
    (h1 : f1.foldersByName = cur.foldersByName) (h2 : f1.foldersById = cur.foldersById)
    (h3 : f1.metadata.uniqueFolderCount = cur.metadata.uniqueFolderCount)
    (h4 : f1.metadata.folderId = cur.metadata.folderId)
    (h5 : f1.metadata.folderName = cur.metadata.folderName)
    (h6 : f1.parentFolder = cur.parentFolder)
    (h7 : f1.metadata.folderPath = cur.metadata.folderPath)
    (hfiles : FilePart f1) :
    WF { s with heap := (s.heap.store s.currentDirectoryPointer f1) } where
  nodes := by
    intro p x hx
    have hpres := store_preserves hcur h6 h4 h5
    by_cases hp : s.currentDirectoryPointer = p
    · subst hp
      simp only at hx
      rw [Heap.deref_store_self _ (Heap.deref_lt hcur)] at hx
      cases hx
      exact ⟨((hwf.nodes _ cur hcur).folders.transfer (fun q g hg _ => hpres q g hg)).of_same_folders
        h1 h2 h3 h4, hfiles⟩
    · simp only at hx
      rw [Heap.deref_store_ne _ hp] at hx
      exact ⟨(hwf.nodes p x hx).folders.transfer (fun q g hg _ => hpres q g hg),
        (hwf.nodes p x hx).files⟩
  cursor := by
    obtain ⟨f, hf, hpath⟩ := hwf.cursor
    rw [hcur] at hf
    cases hf
    refine ⟨f1, Heap.deref_store_self _ (Heap.deref_lt hcur), ?_⟩
    rw [h7]
    exact hpath

theorem getNewId_none_ret {pid id : Str} {c : Int} {n : Nat} (hc : c = (n : Int)) (hn : n ≤ 99)
    (h : getNewId pid c none = .ret id) :
    n + 1 ≤ 99 ∧ id = pid ++ pad2 (n + 1) ++ "00".toList := by
  rw [hc, getNewId_none pid n hn] at h
  by_cases h100 : n + 1 ≥ 100
  · rw [if_pos h100] at h
    cases h
  · rw [if_neg h100] at h
    exact ⟨by omega, (Exec.ret.inj h).symm⟩

section Containers

variable {β : Type}

theorem equal_range_eq_nil {m : List (Str × β)} {k : Str} (hk : k ∉ keys m) :
    equal_range m k = [] :=
  List.length_eq_zero.1 (multiCount_eq_zero.2 hk)

theorem getLast?_equal_range_mem {m : List (Str × β)} {k : Str} {e : Str × β}
    (h : (equal_range m k).getLast? = some e) : e ∈ m ∧ e.1 = k :=
  mem_equal_range.1 (List.mem_of_getLast?_eq_some h)

end Containers

theorem FilePart.distinctFiles_le {f : Folder} (hfp : FilePart f) : distinctFileNames f ≤ 99 := by
  have h1 := hfp.fileCount_le
  have h2 := hfp.fileCount
  omega

/-- What `getNewFileId` returns in a well-formed current directory: for a name with `j`
versions so far the next version in the group of that name, for a new name the group of the
counter, or an error when that counter would reach 100. -/
theorem getNewFileId_chain {s : State} {cur : Folder} (hfp : FilePart cur)
    (hcur : s.current = some cur) (name : Str) :
    ∃ g : Str, g.length = 2 ∧
      (equal_range cur.filesByName name).map
          (fun e => (e.2.metadata.fileId, e.2.metadata.fileVersion)) =
        (List.range (multiCount cur.filesByName name)).map
          (fun i => (cur.metadata.folderId ++ g ++ verOf i, verOf i)) ∧
      getNewFileId s name =
        (if multiCount cur.filesByName name = 0 then
          (if distinctFileNames cur + 1 ≥ 100 then .throw "Folder can not be created"
            else .ret (cur.metadata.folderId ++ g ++ verOf 0))
         else .ret (cur.metadata.folderId ++ g ++ verOf (multiCount cur.filesByName name))) ∧
      (multiCount cur.filesByName name = 0 → g = pad2 (distinctFileNames cur + 1)) := by
  obtain ⟨g0, hg0, hch⟩ := hfp.chain name
  have hlast : ((equal_range cur.filesByName name).getLast?).map (fun e => e.2.metadata.fileId) =
      ((List.range (multiCount cur.filesByName name)).map
        (fun i => cur.metadata.folderId ++ g0 ++ verOf i)).getLast? := by
    have h1 := congrArg (List.map Prod.fst) hch
    simp only [List.map_map] at h1
    rw [← List.getLast?_map]
    exact congrArg List.getLast? h1
  have hid := getNewId_chain cur.metadata.folderId g0 (multiCount cur.filesByName name)
    (distinctFileNames cur) hg0 hfp.distinctFiles_le
  rw [← hlast, ← hfp.fileCount, ← getNewFileId_eq hcur] at hid
  by_cases hj : multiCount cur.filesByName name = 0
  · refine ⟨pad2 (distinctFileNames cur + 1), rfl, ?_, ?_, fun _ => rfl⟩
    · rw [hj] at hch ⊢
      rw [hch]
      rfl
    · rw [hid]
      simp only [hj, if_true]
  · refine ⟨g0, hg0, hch, ?_, fun h => absurd h hj⟩
    rw [hid]
    simp only [hj, if_false]

theorem WF.createFile {s s1 : State} {name content : Str} (hwf : WF s)
    (h : createFile s name content = .ok s1) : WF s1 := by
  obtain ⟨hv, cur, id, ext, ver, hcur, hid, _, hver, hs1⟩ := createFile_ok_inv h
  subst hs1
  have hfp := (hwf.nodes _ cur hcur).files
  obtain ⟨g, hg, hch, hret, _⟩ := getNewFileId_chain hfp hcur name
  rw [hid] at hret
  have hidj : id = cur.metadata.folderId ++ g ++ verOf (multiCount cur.filesByName name) ∧
      (multiCount cur.filesByName name = 0 → distinctFileNames cur + 1 ≤ 99) := by
    by_cases hj : multiCount cur.filesByName name = 0
    · rw [if_pos hj] at hret
      by_cases h100 : distinctFileNames cur + 1 ≥ 100
      · rw [if_pos h100] at hret
        cases hret
      · rw [if_neg h100] at hret
        rw [hj]
        exact ⟨Exec.ret.inj hret, fun _ => by omega⟩
    · rw [if_neg hj] at hret
      exact ⟨Exec.ret.inj hret, fun h0 => absurd h0 hj⟩
  have hverj : ver = verOf (multiCount cur.filesByName name) := by
    rw [hidj.1, substr_version _ _ (verOf_length _)] at hver
    exact (Exec.ret.inj hver).symm
  refine hwf.store_files hcur rfl rfl rfl rfl rfl rfl rfl (hfp.addFile hv ?_ ?_)
  · intro hk
    have hk1 : name ∉ keys cur.filesByName := hk
    have := hidj.2 (multiCount_eq_zero.2 hk1)
    rw [hfp.fileCount]
    omega
  · exact ⟨g, hg, hch, hidj.1, hverj⟩

theorem WF.deleteFile {s s1 : State} {name : Str} (hwf : WF s)
    (h : deleteFile s name = .ok s1) : WF s1 := by
  obtain ⟨_, cur, hcur, hc, hs1⟩ := deleteFile_ok_inv h
  subst hs1
  have hfp := (hwf.nodes _ cur hcur).files
  refine hwf.store_files hcur rfl rfl rfl rfl rfl rfl rfl (hfp.removeFile ?_)
  by_contra hk
  exact hc (multiCount_eq_zero.2 hk)

theorem WF.changeDirectory {s s1 : State} {target : Str} {version : Int} {relative : Bool}
    (hwf : WF s) (h : changeDirectory s target version relative = .ok s1) : WF s1 := by
  obtain ⟨q, g, hg, hs1⟩ := changeDirectory_ok_inv h
  subst hs1
  exact ⟨hwf.nodes, g, hg, rfl⟩

/-! ## Preservation by `createFolder` -/

theorem FolderPart.distinctFolders_le {h : Heap} {p : Nat} {f : Folder} (hfp : FolderPart h p f) :
    distinctFolderNames f ≤ 99 := by
  have h1 := hfp.folderCount_le
  have h2 := hfp.folderCount
  omega

/-- What `getNewFolderId` returns in a well-formed state: for a name with `j` versions so
far the next version in the group of that name, for a new name the group of the counter, or
an error when that counter would reach 100. -/
theorem getNewFolderId_chain {s : State} (hwf : WF s) {cur : Folder}
    (hcur : s.current = some cur) {name : Str} (hv : validName name) :
    ∃ g : Str, g.length = 2 ∧
      idsBehind s.heap (equal_range cur.foldersByName name) =
        (List.range (multiCount cur.foldersByName name)).map
          (fun i => cur.metadata.folderId ++ g ++ verOf i) ∧
      getNewFolderId s name =
        (if multiCount cur.foldersByName name = 0 then
          (if distinctFolderNames cur + 1 ≥ 100 then .throw "Folder can not be created"
            else .ret (cur.metadata.folderId ++ g ++ verOf 0))
         else .ret (cur.metadata.folderId ++ g ++ verOf (multiCount cur.foldersByName name))) ∧
      (multiCount cur.foldersByName name = 0 → g = pad2 (distinctFolderNames cur + 1)) := by
  have hfp := (hwf.nodes _ cur hcur).folders
  have hnd : name ≠ dotdot := validName_ne_dotdot hv
  obtain ⟨g0, hg0, hch⟩ := hfp.chain name hnd
  have heq : getNewFolderId s name =
      getNewId cur.metadata.folderId cur.metadata.uniqueFolderCount
        (idsBehind s.heap (equal_range cur.foldersByName name)).getLast? := by
    unfold getNewFolderId
    rw [hcur]
    dsimp only
    cases hlast : (equal_range cur.foldersByName name).getLast? with
    | none =>
      rw [List.getLast?_eq_none_iff.1 hlast]
      rfl
    | some lastFolder =>
      obtain ⟨hmem, hkey⟩ := getLast?_equal_range_mem hlast
      obtain ⟨_, x, hx, _⟩ := hfp.children lastFolder hmem (hkey ▸ hnd)
      rw [idsBehind_getLast? hlast hx]
      dsimp only
      rw [hx]
  have hid := getNewId_chain cur.metadata.folderId g0 (multiCount cur.foldersByName name)
    (distinctFolderNames cur) hg0 hfp.distinctFolders_le
  rw [← hch, ← hfp.folderCount, ← heq] at hid
  by_cases hj : multiCount cur.foldersByName name = 0
  · refine ⟨pad2 (distinctFolderNames cur + 1), rfl, ?_, ?_, fun _ => rfl⟩
    · rw [hj] at hch ⊢
      rw [hch]
      rfl
    · rw [hid]
      simp only [hj, if_true]
  · refine ⟨g0, hg0, hch, ?_, fun h => absurd h hj⟩
    rw [hid]
    simp only [hj, if_false]

theorem Folder.addFolder_count (f : Folder) (q : Nat) (id name : Str) :
    (f.addFolder q id name).metadata.uniqueFolderCount =
      if name ∈ keys f.foldersByName then f.metadata.uniqueFolderCount
      else f.metadata.uniqueFolderCount + 1 := by
  simp only [Folder.addFolder, multiCount_multiInsert_self]
  by_cases hk : name ∈ keys f.foldersByName
  · have : multiCount f.foldersByName name ≠ 0 := fun h => (multiCount_eq_zero.1 h) hk
    simp [hk, this]
  · have : multiCount f.foldersByName name = 0 := multiCount_eq_zero.2 hk
    simp [hk, this]

/-- The folder part of the current directory after a child is attached. -/
theorem FolderPart.addFolder {h h1 : Heap} {c q : Nat} {cur : Folder} (hn : FolderPart h c cur)
    {id name : Str} (hv : validName name)
    (hnew : ∃ g : Str, g.length = 2 ∧
      idsBehind h (equal_range cur.foldersByName name) =
        (List.range (multiCount cur.foldersByName name)).map
          (fun i => cur.metadata.folderId ++ g ++ verOf i) ∧
      id = cur.metadata.folderId ++ g ++ verOf (multiCount cur.foldersByName name))
    (hcount : name ∉ keys cur.foldersByName → cur.metadata.uniqueFolderCount + 1 ≤ 99)
    (hq : ∀ e ∈ cur.foldersByName, e.2 < q) (hcq : c < q)
    (hg : ∃ g, h1.deref q = some g ∧ g.parentFolder = some c ∧ g.metadata.folderName = name ∧
      g.metadata.folderId = id)
    (hpres : ∀ r g, h.deref r = some g → g.parentFolder = some c →
      ∃ g1, h1.deref r = some g1 ∧ g1.parentFolder = g.parentFolder ∧
        g1.metadata.folderId = g.metadata.folderId ∧
        g1.metadata.folderName = g.metadata.folderName) :
    FolderPart h1 c (cur.addFolder q id name) := by
  have hn1 := hn.transfer hpres
  have hnd : name ≠ dotdot := validName_ne_dotdot hv
  obtain ⟨gr, hgr, hch, hidc⟩ := hnew
  have hw : (gr ++ verOf (multiCount cur.foldersByName name)).length = 4 := by
    rw [List.length_append, hgr, verOf_length]
  have hid : id = cur.metadata.folderId ++ (gr ++ verOf (multiCount cur.foldersByName name)) := by
    rw [hidc, List.append_assoc]
  have hidk : id ≠ parentKey := validName_ne_parentKey_len hw hid
  refine
    { folderCount := ?_, folderCount_le := ?_, folderNames := ?_, children := ?_, childIds := ?_,
      parentEntry := ?_, dotdotEntry := ?_, nodup := ?_, chain := ?_ }
  · rw [Folder.addFolder_count, hn.folderCount]
    have h2 := distinctFolderNames_insert cur.foldersByName q hnd
    simp only [distinctFolderNames, Folder.addFolder]
    rw [h2]
    split <;> simp
  · rw [Folder.addFolder_count]
    split
    · exact hn.folderCount_le
    · rename_i hk
      exact hcount hk
  · intro e he hk
    simp only [Folder.addFolder] at he
    rcases mem_multiInsert.1 he with h2 | h2
    · subst h2
      exact hv
    · exact hn.folderNames e h2 hk
  · intro e he hk
    simp only [Folder.addFolder] at he ⊢
    rcases mem_multiInsert.1 he with h2 | h2
    · subst h2
      obtain ⟨g, hg1, hg2, hg3, hg4⟩ := hg
      exact ⟨hcq, g, hg1, hg2, hg3, _, hw, hg4.trans hid⟩
    · exact hn1.children e h2 hk
  · intro e he hk
    simp only [Folder.addFolder] at he
    rcases mem_mapAssign.1 he with h2 | ⟨h2, _⟩
    · subst h2
      obtain ⟨g, hg1, hg2, _, hg4⟩ := hg
      exact ⟨hcq, g, hg1, hg2, hg4⟩
    · exact hn1.childIds e h2 hk
  · intro e he hk
    simp only [Folder.addFolder] at he
    rcases mem_mapAssign.1 he with h2 | ⟨h2, _⟩
    · subst h2
      exact absurd hk hidk
    · exact hn.parentEntry e h2 hk
  · intro e he hk
    simp only [Folder.addFolder] at he
    rcases mem_multiInsert.1 he with h2 | h2
    · subst h2
      exact absurd hk hnd
    · exact hn.dotdotEntry e h2 hk
  · simp only [Folder.addFolder]
    have hperm := (multiInsert_perm cur.foldersByName name q).map Prod.snd
    rw [hperm.nodup_iff, List.map_cons, List.nodup_cons]
    refine ⟨fun hmem => ?_, hn.nodup⟩
    obtain ⟨e, he, heq⟩ := List.mem_map.1 hmem
    have := hq e he
    simp only at heq
    omega
  · intro name1 hname1
    by_cases hname : name1 = name
    · subst hname
      refine ⟨gr, hgr, ?_⟩
      obtain ⟨g, hg1, _, _, hg4⟩ := hg
      have hold : idsBehind h1 (equal_range cur.foldersByName name1) =
          idsBehind h (equal_range cur.foldersByName name1) := by
        apply idsBehind_congr
        intro e he
        obtain ⟨hmem, hkey⟩ := mem_equal_range.1 he
        obtain ⟨_, x, hx, hxp, _⟩ := hn.children e hmem (hkey ▸ hname1)
        obtain ⟨x1, hx1, _, hi1, _⟩ := hpres e.2 x hx hxp
        exact ⟨x, hx, x1, hx1, hi1⟩
      have hlast : idsBehind h1 [(name1, q)] = [id] := by
        simp [idsBehind, hg1, hg4]
      simp only [Folder.addFolder, equal_range_multiInsert_self, multiCount_multiInsert_self]
      rw [idsBehind_append, hold, hlast, range_map_succ, hch, hidc]
    · obtain ⟨g0, hg0, hch0⟩ := hn1.chain name1 hname1
      refine ⟨g0, hg0, ?_⟩
      simp only [Folder.addFolder, multiCount, equal_range_multiInsert_ne _ _ hname]
      exact hch0

/-- A folder object fresh from its constructor is well formed. -/
theorem Node.mkFolder (h : Heap) {c q : Nat} (hcq : c < q) (id path name : Str) :
    Node h q (FileSystem.mkFolder id path (some c) name) := by
  have hfiles : FilePart (FileSystem.mkFolder id path (some c) name) := by
    refine
      { fileCount := ?_, fileCount_le := ?_, fileNames := ?_, fileIds := ?_, chain := ?_ }
    · simp [FileSystem.mkFolder, distinctFileNames, keys]
    · simp [FileSystem.mkFolder]
    · intro e he
      simp [FileSystem.mkFolder] at he
    · intro e he
      simp [FileSystem.mkFolder] at he
    · intro name1
      exact ⟨"00".toList, rfl, rfl⟩
  refine ⟨?_, hfiles⟩
  refine
    { folderCount := ?_, folderCount_le := ?_, folderNames := ?_, children := ?_, childIds := ?_,
      parentEntry := ?_, dotdotEntry := ?_, nodup := ?_, chain := ?_ }
  · simp [FileSystem.mkFolder, distinctFolderNames, keys, multiInsert]
  · simp [FileSystem.mkFolder]
  · intro e he hk
    simp [FileSystem.mkFolder, multiInsert] at he
    exact absurd (by rw [he]) hk
  · intro e he hk
    simp [FileSystem.mkFolder, multiInsert] at he
    exact absurd (by rw [he]) hk
  · intro e he hk
    simp [FileSystem.mkFolder, mapAssign] at he
    exact absurd (by rw [he]) hk
  · intro e he _
    simp [FileSystem.mkFolder, mapAssign] at he
    rw [he]
    exact hcq
  · intro e he _
    simp [FileSystem.mkFolder, multiInsert] at he
    rw [he]
    exact hcq
  · simp [FileSystem.mkFolder, multiInsert]
  · intro name1 hname1
    refine ⟨"00".toList, rfl, ?_⟩
    have : equal_range (multiInsert ([] : List (Str × Nat)) dotdot c) name1 = [] := by
      rw [equal_range_multiInsert_ne _ _ hname1]
      rfl
    simp only [FileSystem.mkFolder, multiCount, this]
    rfl

theorem WF.createFolder {s s1 : State} {name : Str} (hwf : WF s)
    (h : createFolder s name = .ok s1) : WF s1 := by
  obtain ⟨hv, cur, id, hcur, hid, hs1⟩ := createFolder_ok_inv h
  subst hs1
  obtain ⟨gr, hgr, hch, hret, _⟩ := getNewFolderId_chain hwf hcur hv
  rw [hid] at hret
  have hidj : id = cur.metadata.folderId ++ gr ++ verOf (multiCount cur.foldersByName name) ∧
      (multiCount cur.foldersByName name = 0 → distinctFolderNames cur + 1 ≤ 99) := by
    by_cases hj : multiCount cur.foldersByName name = 0
    · rw [if_pos hj] at hret
      by_cases h100 : distinctFolderNames cur + 1 ≥ 100
      · rw [if_pos h100] at hret
        cases hret
      · rw [if_neg h100] at hret
        rw [hj]
        exact ⟨Exec.ret.inj hret, fun _ => by omega⟩
    · rw [if_neg hj] at hret
      exact ⟨Exec.ret.inj hret, fun h0 => absurd h0 hj⟩
  have hcount : name ∉ keys cur.foldersByName → cur.metadata.uniqueFolderCount + 1 ≤ 99 := by
    intro hk
    have := hidj.2 (multiCount_eq_zero.2 hk)
    rw [(hwf.nodes _ cur hcur).folders.folderCount]
    omega
  have hc : s.heap.deref s.currentDirectoryPointer = some cur := hcur
  have hclt : s.currentDirectoryPointer < s.heap.length := Heap.deref_lt hc
  have hnode := hwf.nodes _ cur hc
  -- the new object and the heap it is put in
  generalize hgdef : mkFolder id (newPath s.currentDirectoryPath name)
    (some s.currentDirectoryPointer) name = g
  have hgp : g.parentFolder = some s.currentDirectoryPointer := by rw [← hgdef]; rfl
  have hgn : g.metadata.folderName = name := by rw [← hgdef]; rfl
  have hgi : g.metadata.folderId = id := by rw [← hgdef]; rfl
  have hclt1 : s.currentDirectoryPointer < (s.heap ++ [some g]).length := by
    rw [List.length_append]
    exact Nat.lt_succ_of_lt hclt
  have hnew : ((s.heap ++ [some g]).store s.currentDirectoryPointer
      (cur.addFolder s.heap.length id name)).deref s.heap.length = some g := by
    rw [Heap.deref_store_ne _ (Nat.ne_of_lt hclt), Heap.deref_append_length]
  have hpres : ∀ r x, s.heap.deref r = some x →
      ∃ x1, ((s.heap ++ [some g]).store s.currentDirectoryPointer
        (cur.addFolder s.heap.length id name)).deref r = some x1 ∧
        x1.parentFolder = x.parentFolder ∧ x1.metadata.folderId = x.metadata.folderId ∧
        x1.metadata.folderName = x.metadata.folderName := by
    intro r x hx
    by_cases hr : s.currentDirectoryPointer = r
    · subst hr
      rw [hc] at hx
      cases hx
      exact ⟨_, Heap.deref_store_self _ hclt1, rfl, rfl, rfl⟩
    · exact ⟨x, by rw [Heap.deref_store_ne _ hr, Heap.deref_append_some _ hx], rfl, rfl, rfl⟩
  have hq : ∀ e ∈ cur.foldersByName, e.2 < s.heap.length := by
    intro e he
    by_cases hk : e.1 = dotdot
    · exact Nat.lt_trans (hnode.folders.dotdotEntry e he hk) hclt
    · obtain ⟨_, x, hx, _⟩ := hnode.folders.children e he hk
      exact Heap.deref_lt hx
  refine ⟨?_, ?_⟩
  · intro p x hx
    simp only at hx
    by_cases hp : s.currentDirectoryPointer = p
    · subst hp
      rw [Heap.deref_store_self _ hclt1] at hx
      cases hx
      refine ⟨hnode.folders.addFolder hv ⟨gr, hgr, hch, hidj.1⟩ hcount hq hclt
        ⟨g, hnew, hgp, hgn, hgi⟩ (fun r x hx _ => hpres r x hx), ?_⟩
      exact hnode.files.of_same_files rfl rfl rfl rfl
    · by_cases hlt : p < s.heap.length
      · have hx0 := hx
        rw [Heap.deref_store_ne _ hp, Heap.deref_append_of_lt _ hlt] at hx0
        have hnp := hwf.nodes p x hx0
        exact ⟨hnp.folders.transfer (fun r y hy _ => hpres r y hy), hnp.files⟩
      · have hlen := Heap.deref_lt hx
        rw [Heap.length_store, List.length_append, List.length_singleton] at hlen
        have hpe : p = s.heap.length := by omega
        subst hpe
        rw [hnew] at hx
        cases hx
        rw [← hgdef]
        exact Node.mkFolder _ hclt _ _ _
  · obtain ⟨f, hf, hpath⟩ := hwf.cursor
    rw [hcur] at hf
    cases hf
    exact ⟨_, Heap.deref_store_self _ hclt1, hpath⟩

/-! ## Preservation by `deleteFolder` -/

theorem Ord.from_nodes {h : Heap} (hn : ∀ p f, h.deref p = some f → Node h p f) : Ord h :=
  fun a f ha e he hk => ((hn a f ha).folders.childIds e he hk).1

theorem Par.by_nodes {h : Heap} (hn : ∀ p f, h.deref p = some f → Node h p f) : Par h := by
  intro a f ha e he hk g hg
  obtain ⟨_, g0, hg0, hp, _⟩ := (hn a f ha).folders.childIds e he hk
  rw [hg0] at hg
  cases hg
  exact hp

/-- The folder that `removeFolder` leaves behind `self`. -/
theorem removeFolder_spec {h : Heap} {c : Nat} {cur : Folder}
    (hn : ∀ p f, h.deref p = some f → Node h p f) (hcur : h.deref c = some cur) {name : Str}
    (hnd : name ≠ dotdot) :
    ∃ h1 : Heap, h1.length = h.length ∧
      removeFolder h c name = .ret (h1.store c
        { cur with
          foldersById :=
            (idsBehind h (equal_range cur.foldersByName name)).foldl mapErase cur.foldersById,
          foldersByName := multiErase cur.foldersByName name,
          metadata :=
            { cur.metadata with uniqueFolderCount := cur.metadata.uniqueFolderCount - 1 } }) ∧
      (∃ me, h1.deref c = some me) ∧
      (∀ r, r ≠ c → h1.deref r = h.deref r ∨ h1.deref r = none) ∧
      (∀ r g, h.deref r = some g → h1.deref r = none →
        (∃ e ∈ equal_range cur.foldersByName name, e.2 = r) ∨
          ∃ r1 g1, g.parentFolder = some r1 ∧ h.deref r1 = some g1 ∧ h1.deref r1 = none) ∧
      (∀ e ∈ equal_range cur.foldersByName name, h1.deref e.2 = none) := by
  have hfp := (hn c cur hcur).folders
  have hl : ∀ e ∈ equal_range cur.foldersByName name,
      c < e.2 ∧ ∃ g, h.deref e.2 = some g ∧ g.parentFolder = some c := by
    intro e he
    obtain ⟨hmem, hkey⟩ := mem_equal_range.1 he
    obtain ⟨hlt, g, hg, hp, _⟩ := hfp.children e hmem (hkey ▸ hnd)
    exact ⟨hlt, g, hg, hp⟩
  have hnodup : ((equal_range cur.foldersByName name).map Prod.snd).Nodup :=
    hfp.nodup.sublist ((List.filter_sublist _).map _)
  obtain ⟨h1, hrun, hlen, hself, hother, hrel, hgone⟩ :=
    removeFolderLoop_spec c _ h cur (Ord.from_nodes hn) (Par.by_nodes hn) hcur hl hnodup
  refine ⟨h1, hlen, ?_, ⟨_, hself⟩, hother, hrel, hgone⟩
  unfold removeFolder
  rw [hcur]
  dsimp only
  rw [hrun]
  dsimp only
  rw [hself]

theorem mem_idsBehind {h : Heap} {l : List (Str × Nat)} {e : Str × Nat} {g : Folder}
    (he : e ∈ l) (hg : h.deref e.2 = some g) : g.metadata.folderId ∈ idsBehind h l := by
  unfold idsBehind
  rw [List.mem_filterMap]
  exact ⟨e, he, by rw [hg]; rfl⟩

theorem WF.deleteFolder {s s1 : State} {name : Str} (hwf : WF s)
    (h : deleteFolder s name = .ok s1) : WF s1 := by
  obtain ⟨hv, cur, h2, hcur, hcount, hrem, hs1⟩ := deleteFolder_ok_inv h
  subst hs1
  have hnd : name ≠ dotdot := validName_ne_dotdot hv
  have hc : s.heap.deref s.currentDirectoryPointer = some cur := hcur
  obtain ⟨h1, hlen, hrun, ⟨me, hme⟩, hother, hrel, _⟩ := removeFolder_spec hwf.nodes hc hnd
  rw [hrun] at hrem
  have hh2 := (Exec.ret.inj hrem).symm
  subst hh2
  have hnode := hwf.nodes _ cur hc
  have hfp := hnode.folders
  have hclt : s.currentDirectoryPointer < h1.length := Heap.deref_lt hme
  have hkmem : name ∈ keys cur.foldersByName := by
    by_contra hk
    exact hcount (multiCount_eq_zero.2 hk)
  generalize hcur1 : ({ cur with
      foldersById :=
        (idsBehind s.heap (equal_range cur.foldersByName name)).foldl mapErase cur.foldersById,
      foldersByName := multiErase cur.foldersByName name,
      metadata :=
        { cur.metadata with uniqueFolderCount := cur.metadata.uniqueFolderCount - 1 } } : Folder)
    = cur1
  have e1 : cur1.foldersByName = multiErase cur.foldersByName name := by rw [← hcur1]
  have e2 : cur1.foldersById =
      (idsBehind s.heap (equal_range cur.foldersByName name)).foldl mapErase cur.foldersById := by
    rw [← hcur1]
  have e3 : cur1.metadata.uniqueFolderCount = cur.metadata.uniqueFolderCount - 1 := by
    rw [← hcur1]
  have e4 : cur1.metadata.folderId = cur.metadata.folderId := by rw [← hcur1]
  have e5 : cur1.metadata.folderName = cur.metadata.folderName := by rw [← hcur1]
  have e6 : cur1.parentFolder = cur.parentFolder := by rw [← hcur1]
  have e7 : cur1.metadata.folderPath = cur.metadata.folderPath := by rw [← hcur1]
  -- a live object whose parent survives and that is not a removed entry survives
  have hkeep : ∀ q g p, h1.deref p ≠ none → s.heap.deref q = some g → g.parentFolder = some p →
      (∀ e ∈ equal_range cur.foldersByName name, e.2 ≠ q) →
      ∃ g1, (h1.store s.currentDirectoryPointer cur1).deref q = some g1 ∧
        g1.parentFolder = g.parentFolder ∧ g1.metadata.folderId = g.metadata.folderId ∧
        g1.metadata.folderName = g.metadata.folderName := by
    intro q g p hp hg hgp hnot
    by_cases hq : s.currentDirectoryPointer = q
    · subst hq
      rw [hc] at hg
      cases hg
      exact ⟨cur1, Heap.deref_store_self _ hclt, e6, e4, e5⟩
    · refine ⟨g, ?_, rfl, rfl, rfl⟩
      rw [Heap.deref_store_ne _ hq]
      rcases hother q (Ne.symm hq) with h3 | h3
      · rw [h3, hg]
      · exfalso
        rcases hrel q g hg h3 with ⟨e, he, heq⟩ | ⟨r1, g1, hp1, _, hn1⟩
        · exact hnot e he heq
        · rw [hgp] at hp1
          cases hp1
          exact hp hn1
  refine ⟨?_, ?_⟩
  · intro p x hx
    simp only at hx
    by_cases hp : s.currentDirectoryPointer = p
    · subst hp
      rw [Heap.deref_store_self _ hclt] at hx
      cases hx
      refine ⟨?_, hnode.files.of_same_files (by rw [← hcur1]) (by rw [← hcur1]) (by rw [← hcur1])
        (by rw [← hcur1])⟩
      have hmeNe : h1.deref s.currentDirectoryPointer ≠ none := by rw [hme]; simp
      refine
        { folderCount := ?_, folderCount_le := ?_, folderNames := ?_, children := ?_,
          childIds := ?_, parentEntry := ?_, dotdotEntry := ?_, nodup := ?_, chain := ?_ }
      · have h3 := distinctFolderNames_erase cur.foldersByName hnd hkmem
        have h4 : distinctFolderNames cur1 + 1 = distinctFolderNames cur := by
          simp only [distinctFolderNames, e1]
          exact h3
        rw [e3, hfp.folderCount, ← h4]
        push_cast
        omega
      · have := hfp.folderCount_le
        rw [e3]
        omega
      · intro e he hk
        rw [e1] at he
        exact hfp.folderNames e (mem_multiErase.1 he).1 hk
      · intro e he hk
        rw [e1] at he
        obtain ⟨hmem, hne⟩ := mem_multiErase.1 he
        obtain ⟨hlt, g, hg, hgp, hgn, w, hw, hid⟩ := hfp.children e hmem hk
        obtain ⟨g1, hg1, hp1, hi1, hn1⟩ := hkeep e.2 g _ hmeNe hg hgp (by
          intro e0 he0 heq
          obtain ⟨hmem0, hkey0⟩ := mem_equal_range.1 he0
          have := List.inj_on_of_nodup_map hfp.nodup hmem0 hmem heq
          exact hne (this ▸ hkey0))
        exact ⟨hlt, g1, hg1, hp1.trans hgp, hn1.trans hgn, w, hw, by rw [hi1, hid, e4]⟩
      · intro e he hk
        rw [e2, mem_foldl_mapErase] at he
        obtain ⟨hmem, hnotid⟩ := he
        obtain ⟨hlt, g, hg, hgp, hid⟩ := hfp.childIds e hmem hk
        obtain ⟨g1, hg1, hp1, hi1, _⟩ := hkeep e.2 g _ hmeNe hg hgp (by
          intro e0 he0 heq
          apply hnotid
          rw [← hid]
          exact mem_idsBehind he0 (heq ▸ hg))
        exact ⟨hlt, g1, hg1, hp1.trans hgp, hi1.trans hid⟩
      · intro e he hk
        rw [e2, mem_foldl_mapErase] at he
        exact hfp.parentEntry e he.1 hk
      · intro e he hk
        rw [e1] at he
        exact hfp.dotdotEntry e (mem_multiErase.1 he).1 hk
      · rw [e1]
        exact hfp.nodup.sublist ((List.filter_sublist _).map _)
      · intro name1 hname1
        by_cases hname : name1 = name
        · subst hname
          refine ⟨"00".toList, rfl, ?_⟩
          simp only [e1, multiCount, equal_range_multiErase_self]
          rfl
        · obtain ⟨g0, hg0, hch0⟩ := hfp.chain name1 hname1
          refine ⟨g0, hg0, ?_⟩
          have her : equal_range cur1.foldersByName name1 =
              equal_range cur.foldersByName name1 := by
            rw [e1, equal_range_multiErase_ne _ hname]
          have hmc : multiCount cur1.foldersByName name1 =
              multiCount cur.foldersByName name1 := by
            unfold multiCount
            rw [her]
          rw [her, hmc, e4, ← hch0]
          apply idsBehind_congr
          intro e he
          obtain ⟨hmem, hkey⟩ := mem_equal_range.1 he
          obtain ⟨_, g, hg, hgp, _⟩ := hfp.children e hmem (hkey ▸ hname1)
          obtain ⟨g1, hg1, _, hi1, _⟩ := hkeep e.2 g _ hmeNe hg hgp (by
            intro e0 he0 heq
            obtain ⟨hmem0, hkey0⟩ := mem_equal_range.1 he0
            have := List.inj_on_of_nodup_map hfp.nodup hmem0 hmem heq
            exact hname (hkey.symm.trans (this ▸ hkey0)))
          exact ⟨g, hg, g1, hg1, hi1⟩
    · rw [Heap.deref_store_ne _ hp] at hx
      have hx0 : s.heap.deref p = some x := by
        rcases hother p (Ne.symm hp) with h3 | h3
        · rw [← h3, hx]
        · rw [h3] at hx
          cases hx
      have hnp := hwf.nodes p x hx0
      refine ⟨hnp.folders.transfer (fun q g hg hgp => ?_), hnp.files⟩
      refine hkeep q g p (by rw [hx]; simp) hg hgp ?_
      intro e he heq
      obtain ⟨hmem, hkey⟩ := mem_equal_range.1 he
      obtain ⟨_, g0, hg0, hp0, _⟩ := hfp.children e hmem (hkey ▸ hnd)
      rw [heq, hg] at hg0
      cases hg0
      rw [hgp] at hp0
      exact hp (Option.some.inj hp0).symm
  · obtain ⟨f, hf, hpath⟩ := hwf.cursor
    rw [hcur] at hf
    cases hf
    refine ⟨cur1, Heap.deref_store_self _ hclt, ?_⟩
    rw [e7]
    exact hpath

/-- Every state the program can be in is well formed. -/
theorem Reachable.wf {s : State} (hr : Reachable s) : WF s := by
  induction hr with
  | init =>
    refine ⟨?_, ⟨_, rfl, rfl⟩⟩
    intro p f hf
    have hp : p = 0 := by
      have := Heap.deref_lt hf
      simp [State.init] at this
      exact this
    subst hp
    simp [State.init, Heap.deref] at hf
    subst hf
    have hfiles : FilePart (mkFolder "0".toList "/".toList none "root".toList) := by
      refine
        { fileCount := ?_, fileCount_le := ?_, fileNames := ?_, fileIds := ?_, chain := ?_ }
      · decide
      · decide
      · intro e he
        cases he
      · intro e he
        cases he
      · intro name1
        exact ⟨"00".toList, rfl, rfl⟩
    refine ⟨?_, hfiles⟩
    refine
      { folderCount := ?_, folderCount_le := ?_, folderNames := ?_, children := ?_,
        childIds := ?_, parentEntry := ?_, dotdotEntry := ?_, nodup := ?_, chain := ?_ }
    · decide
    · decide
    · intro e he; cases he
    · intro e he; cases he
    · intro e he; cases he
    · intro e he; cases he
    · intro e he; cases he
    · exact List.nodup_nil
    · intro name1 _
      exact ⟨"00".toList, rfl, rfl⟩
  | @step s0 s2 op _ hstep ih =>
    cases hout : op.run s0 with
    | crash =>
      rw [hout] at hstep
      cases hstep
    | failed w s3 =>
      rw [hout] at hstep
      have h3 : s3 = s2 := Option.some.inj hstep
      have := Outcome.failed_unchanged hout
      rw [← h3, this]
      exact ih
    | ok s3 =>
      rw [hout] at hstep
      have h3 : s3 = s2 := Option.some.inj hstep
      subst h3
      cases op with
      | createFolder name => exact ih.createFolder hout
      | createFile name content => exact ih.createFile hout
      | deleteFolder name => exact ih.deleteFolder hout
      | deleteFile name => exact ih.deleteFile hout
      | changeDirectory target version relative => exact ih.changeDirectory hout

/-! ## Runs -/

theorem Reachable.runOps {s : State} (hr : Reachable s) :
    ∀ (ops : List Op) {s1 : State}, runOps s ops = some s1 → Reachable s1 := by
  intro ops
  induction ops generalizing s with
  | nil =>
    intro s1 h
    cases h
    exact hr
  | cons op ops ih =>
    intro s1 h
    unfold FileSystem.runOps at h
    cases hstep : (op.run s).state? with
    | none =>
      rw [hstep] at h
      cases h
    | some s2 =>
      rw [hstep] at h
      exact ih (Reachable.step op hr hstep) h

theorem reachable_after (ops : List Op) : Reachable (after ops) := by
  unfold after
  cases h : runOps State.init ops with
  | none => exact Reachable.init
  | some s1 => exact Reachable.init.runOps ops h

theorem Reachable.ok {s s1 : State} (hr : Reachable s) (op : Op) (h : op.run s = .ok s1) :
    Reachable s1 :=
  Reachable.step op hr (by rw [h]; rfl)

/-! ## C1: the counters of distinct names -/

theorem dedup_replicate (a : Str) : ∀ N, (List.replicate (N + 1) a).dedup = [a]
  | 0 => by simp [List.replicate]
  | N + 1 => by
    have hmem : a ∈ List.replicate (N + 1) a := by simp
    rw [List.replicate_succ, List.dedup_cons_of_mem hmem]
    exact dedup_replicate a N

/-- C1. In every reachable state every live folder has `uniqueFolderCount` equal to the
number of distinct names among its child folders (the entry of the parent not counted) and
`uniqueFileCount` equal to the number of distinct names among its child files; in
particular a folder whose files are `N ≥ 1` files of one name has `uniqueFileCount = 1`, and
a folder whose files have pairwise distinct names has as many distinct names as files. -/
theorem unique_counts_invariant {s : State} (hr : Reachable s) {p : Nat} {f : Folder}
    (hf : s.heap.deref p = some f) :
    f.metadata.uniqueFolderCount = (distinctFolderNames f : Int) ∧
    f.metadata.uniqueFileCount = (distinctFileNames f : Int) ∧
    (∀ (a : Str) (N : Nat), 1 ≤ N → keys f.filesByName = List.replicate N a →
      f.metadata.uniqueFileCount = 1) ∧
    ((keys f.filesByName).Nodup →
      f.metadata.uniqueFileCount = ((keys f.filesByName).length : Int)) := by
  have hn := hr.wf.nodes p f hf
  refine ⟨hn.folders.folderCount, hn.files.fileCount, ?_, ?_⟩
  · intro a N hN hkeys
    rw [hn.files.fileCount]
    obtain ⟨M, rfl⟩ : ∃ M, N = M + 1 := ⟨N - 1, by omega⟩
    simp only [distinctFileNames, hkeys, dedup_replicate]
    rfl
  · intro hnd
    rw [hn.files.fileCount]
    simp only [distinctFileNames, hnd.dedup]

/-- Three files named `a.txt` in the root give the counter 1, three files of different names
give the counter 3. -/
theorem unique_counts_invariant_witness :
    (folderAt (after sameNameOps) 0).metadata.uniqueFileCount = 1 ∧
    (folderAt (after distinctNameOps) 0).metadata.uniqueFileCount = 3 :=
  ⟨(unique_counts_invariant (reachable_after sameNameOps)
      (show (after sameNameOps).heap.deref 0 = some (folderAt (after sameNameOps) 0) by
        decide)).2.2.1 "a.txt".toList 3 (by decide) (by decide),
   ((unique_counts_invariant (reachable_after distinctNameOps)
      (show (after distinctNameOps).heap.deref 0 = some (folderAt (after distinctNameOps) 0) by
        decide)).2.2.2 (by decide)).trans (by decide)⟩

/-! ## C10: the extension stored on a file -/

theorem current_store {s : State} {cur f1 : Folder} (hcur : s.current = some cur) :
    State.current { s with heap := (s.heap.store s.currentDirectoryPointer f1) } = some f1 :=
  Heap.deref_store_self _ (Heap.deref_lt hcur)

/-- C10. For a file name with at least one dot `getFileExtension` returns what follows the
last dot: the result contains no dot and the name is `pre ++ "." ++ ext`; and a file that
`createFile` stores under that name carries this extension. -/
theorem extension_after_last_dot {name : Str} (hdot : '.' ∈ name) :
    ∃ pre ext, getFileExtension name = .ret ext ∧ name = pre ++ '.' :: ext ∧ '.' ∉ ext ∧
      ∀ (s s1 : State) (content : Str), createFile s name content = .ok s1 →
        ∃ cur1 e, s1.current = some cur1 ∧
          (equal_range cur1.filesByName name).getLast? = some e ∧
          e.2.metadata.fileName = name ∧ e.2.fileContent = content ∧
          e.2.metadata.fileExtension = ext := by
  obtain ⟨pre, ext, hext, hsplit, hno⟩ := getFileExtension_of_dot hdot
  refine ⟨pre, ext, hext, hsplit, hno, ?_⟩
  intro s s1 content h
  obtain ⟨_, cur, id, ext1, ver, hcur, _, hext1, _, hs1⟩ := createFile_ok_inv h
  rw [hext] at hext1
  cases hext1
  subst hs1
  refine ⟨_, (name, mkFile id (newPath s.currentDirectoryPath name) ext content name ver),
    current_store hcur, ?_, rfl, rfl, rfl⟩
  simp only [Folder.addFile, mkFile, equal_range_multiInsert_self, List.getLast?_concat]

/-- The extension of `report.tar.gz` is `gz`, the extension of `notes.` is empty. -/
theorem extension_after_last_dot_witness :
    '.' ∈ "report.tar.gz".toList ∧
    getFileExtension "report.tar.gz".toList = .ret "gz".toList ∧
    getFileExtension "notes.".toList = .ret [] ∧
    ∃ pre ext, getFileExtension "report.tar.gz".toList = .ret ext ∧
      "report.tar.gz".toList = pre ++ '.' :: ext ∧ '.' ∉ ext ∧
      ∀ (s s1 : State) (content : Str),
        createFile s "report.tar.gz".toList content = .ok s1 →
        ∃ cur1 e, s1.current = some cur1 ∧
          (equal_range cur1.filesByName "report.tar.gz".toList).getLast? = some e ∧
          e.2.metadata.fileName = "report.tar.gz".toList ∧ e.2.fileContent = content ∧
          e.2.metadata.fileExtension = ext :=
  ⟨by decide, by decide, by decide, extension_after_last_dot (by decide)⟩

/-! ## C4: deletion removes every version -/

theorem mem_keys_of_mem {β : Type} {m : List (Str × β)} {e : Str × β} (he : e ∈ m) :
    e.1 ∈ keys m :=
  mem_keys.2 ⟨e, he, rfl⟩

/-- C4. In a reachable state, for a name that a child file (resp. child folder) of the
current directory has, `deleteFile` (resp. `deleteFolder`) returns normally and removes
every child of that kind with that name from the name index and from the id index (the
folder objects are released), and lowers the counter of distinct names by exactly one. -/
theorem delete_removes_all_versions {s : State} (hr : Reachable s) {cur : Folder}
    (hcur : s.current = some cur) (name : Str) :
    ((∃ e ∈ cur.filesByName, e.1 = name) →
      ∃ s1 cur1, deleteFile s name = .ok s1 ∧ s1.current = some cur1 ∧
        s1.currentDirectoryPointer = s.currentDirectoryPointer ∧
        (∀ e ∈ cur1.filesByName, e.1 ≠ name) ∧
        (∀ e ∈ cur1.filesById, e.2.metadata.fileName ≠ name) ∧
        (∀ e ∈ equal_range cur.filesByName name, e.2.metadata.fileId ∉ keys cur1.filesById) ∧
        cur1.metadata.uniqueFileCount = cur.metadata.uniqueFileCount - 1) ∧
    ((∃ e ∈ cur.foldersByName, e.1 = name ∧ name ≠ dotdot) →
      ∃ s1 cur1, deleteFolder s name = .ok s1 ∧ s1.current = some cur1 ∧
        s1.currentDirectoryPointer = s.currentDirectoryPointer ∧
        (∀ e ∈ cur1.foldersByName, e.1 ≠ name) ∧
        (∀ e ∈ equal_range cur.foldersByName name,
          (∀ x ∈ cur1.foldersByName, x.2 ≠ e.2) ∧ (∀ x ∈ cur1.foldersById, x.2 ≠ e.2) ∧
          s1.heap.deref e.2 = none) ∧
        cur1.metadata.uniqueFolderCount = cur.metadata.uniqueFolderCount - 1) := by
  have hwf := hr.wf
  have hnode := hwf.nodes _ cur hcur
  constructor
  · rintro ⟨e0, he0, hk0⟩
    have hv : validName name := hk0 ▸ (hnode.files.fileNames e0 he0).1
    have hc : multiCount cur.filesByName name ≠ 0 := fun h =>
      (multiCount_eq_zero.1 h) (mem_keys.2 ⟨e0, he0, hk0⟩)
    have hok := deleteFile_eq_ok hv hcur hc
    have hr1 := hr.ok (.deleteFile name) hok
    have hcur1 := @current_store s cur (cur.removeFile name) hcur
    have hfp1 := (hr1.wf.nodes _ _ hcur1).files
    refine ⟨_, _, hok, hcur1, rfl, ?_, ?_, ?_, rfl⟩
    · intro e he
      exact (mem_multiErase.1 he).2
    · intro e he hname
      have h1 := (hfp1.fileIds e he).2
      exact (mem_multiErase.1 h1).2 hname
    · intro e he hmem
      obtain ⟨x, hx, hxk⟩ := mem_keys.1 hmem
      rw [Folder.removeFile_filesById, mem_foldl_mapErase] at hx
      apply hx.2
      rw [hxk]
      exact List.mem_map_of_mem _ he
  · rintro ⟨e0, he0, hk0, hnd⟩
    have hv : validName name := hk0 ▸ hnode.folders.folderNames e0 he0 (hk0 ▸ hnd)
    have hc : multiCount cur.foldersByName name ≠ 0 := fun h =>
      (multiCount_eq_zero.1 h) (mem_keys.2 ⟨e0, he0, hk0⟩)
    obtain ⟨h1, _, hrun, ⟨me, hme⟩, _, _, hgone⟩ := removeFolder_spec hwf.nodes hcur hnd
    have hok := deleteFolder_eq_ok hv hcur hc hrun
    have hr1 := hr.ok (.deleteFolder name) hok
    have hclt : s.currentDirectoryPointer < h1.length := Heap.deref_lt hme
    have hcur1 : State.current { s with heap := (h1.store s.currentDirectoryPointer
        { cur with
          foldersById :=
            (idsBehind s.heap (equal_range cur.foldersByName name)).foldl mapErase cur.foldersById,
          foldersByName := multiErase cur.foldersByName name,
          metadata :=
            { cur.metadata with uniqueFolderCount := cur.metadata.uniqueFolderCount - 1 } }) }
        = some _ := Heap.deref_store_self _ hclt
    have hfp1 := (hr1.wf.nodes _ _ hcur1).folders
    refine ⟨_, _, hok, hcur1, rfl, ?_, ?_, rfl⟩
    · intro e he
      exact (mem_multiErase.1 he).2
    · intro e he
      obtain ⟨hmem, hkey⟩ := mem_equal_range.1 he
      obtain ⟨hlt, _⟩ := hnode.folders.children e hmem (hkey ▸ hnd)
      have hfreed : Heap.deref (h1.store s.currentDirectoryPointer
          { cur with
            foldersById :=
              (idsBehind s.heap (equal_range cur.foldersByName name)).foldl mapErase
                cur.foldersById,
            foldersByName := multiErase cur.foldersByName name,
            metadata :=
              { cur.metadata with uniqueFolderCount := cur.metadata.uniqueFolderCount - 1 } })
          e.2 = none := by
        rw [Heap.deref_store_ne _ (Nat.ne_of_lt hlt)]
        exact hgone e he
      refine ⟨?_, ?_, hfreed⟩
      · intro x hx heq
        obtain ⟨hxm, hxk⟩ := mem_multiErase.1 hx
        have := List.inj_on_of_nodup_map hnode.folders.nodup hxm hmem heq
        exact hxk (this ▸ hkey)
      · intro x hx heq
        by_cases hxk : x.1 = parentKey
        · have hpe : x.2 < s.currentDirectoryPointer := hfp1.parentEntry x hx hxk
          rw [heq] at hpe
          omega
        · obtain ⟨_, g, hg, _⟩ := hfp1.childIds x hx hxk
          rw [heq] at hg
          have : Heap.deref (h1.store s.currentDirectoryPointer _) e.2 = some g := hg
          rw [hfreed] at this
          cases this

/-- After `a.txt` and the folder `b` have been created twice each in the root, deleting
either name removes both versions and lowers the counter by one. -/
theorem delete_removes_all_versions_witness :
    ((after twoVersionsOps).current = some (folderAt (after twoVersionsOps) 0) ∧
      multiCount (folderAt (after twoVersionsOps) 0).filesByName "a.txt".toList = 2 ∧
      ∃ s1 cur1, deleteFile (after twoVersionsOps) "a.txt".toList = .ok s1 ∧
        s1.current = some cur1 ∧
        s1.currentDirectoryPointer = (after twoVersionsOps).currentDirectoryPointer ∧
        (∀ e ∈ cur1.filesByName, e.1 ≠ "a.txt".toList) ∧
        (∀ e ∈ cur1.filesById, e.2.metadata.fileName ≠ "a.txt".toList) ∧
        (∀ e ∈ equal_range (folderAt (after twoVersionsOps) 0).filesByName "a.txt".toList,
          e.2.metadata.fileId ∉ keys cur1.filesById) ∧
        cur1.metadata.uniqueFileCount =
          (folderAt (after twoVersionsOps) 0).metadata.uniqueFileCount - 1) ∧
    (multiCount (folderAt (after twoVersionsOps) 0).foldersByName "b".toList = 2 ∧
      ∃ s1 cur1, deleteFolder (after twoVersionsOps) "b".toList = .ok s1 ∧
        s1.current = some cur1 ∧
        s1.currentDirectoryPointer = (after twoVersionsOps).currentDirectoryPointer ∧
        (∀ e ∈ cur1.foldersByName, e.1 ≠ "b".toList) ∧
        (∀ e ∈ equal_range (folderAt (after twoVersionsOps) 0).foldersByName "b".toList,
          (∀ x ∈ cur1.foldersByName, x.2 ≠ e.2) ∧ (∀ x ∈ cur1.foldersById, x.2 ≠ e.2) ∧
          s1.heap.deref e.2 = none) ∧
        cur1.metadata.uniqueFolderCount =
          (folderAt (after twoVersionsOps) 0).metadata.uniqueFolderCount - 1) :=
  ⟨⟨by decide, by decide,
      (delete_removes_all_versions (reachable_after twoVersionsOps)
        (show (after twoVersionsOps).current = some (folderAt (after twoVersionsOps) 0) by
          decide) "a.txt".toList).1 (by decide)⟩,
    ⟨by decide,
      (delete_removes_all_versions (reachable_after twoVersionsOps)
        (show (after twoVersionsOps).current = some (folderAt (after twoVersionsOps) 0) by
          decide) "b".toList).2 (by decide)⟩⟩

/-! ## C7: descending and coming back -/

theorem toDigitsCore_ne_nil (b : Nat) : ∀ (fuel n : Nat) (acc : List Char), acc ≠ [] →
    Nat.toDigitsCore b fuel n acc ≠ []
  | 0, _, acc, h => by simpa [Nat.toDigitsCore] using h
  | fuel + 1, n, acc, _ => by
    simp only [Nat.toDigitsCore]
    split
    · simp
    · exact toDigitsCore_ne_nil b fuel _ _ (by simp)

theorem natToString_ne_nil (n : Nat) : natToString n ≠ [] := by
  simp only [natToString, Nat.toDigits, Nat.toDigitsCore]
  split
  · simp
  · exact toDigitsCore_ne_nil 10 _ _ _ (by simp)

theorem versionString_ne_nil (version : Int) : versionString version ≠ [] := by
  simp only [versionString]
  split
  · simp
  · simp only [to_string]
    split
    · simp
    · exact natToString_ne_nil _

/-- What a successful `changeDirectory` into a named folder, relative to the current
directory, has done. -/
theorem changeDirectory_child_inv {s s1 : State} {name : Str} {version : Int}
    (hname : name ≠ dotdot) (h : changeDirectory s name version true = .ok s1) :
    ∃ cur first ff idHead q tf, s.current = some cur ∧
      (equal_range cur.foldersByName name).head? = some first ∧
      s.heap.deref first.2 = some ff ∧
      substr ff.metadata.folderId 0 (toSizeT ((ff.metadata.folderId.length : Int) - 2)) =
        .ret idHead ∧
      mapFind cur.foldersById (idHead ++ versionString version) = some q ∧
      s.heap.deref q = some tf ∧
      s1 = { s with currentDirectoryPointer := q,
                    currentDirectoryPath := tf.metadata.folderPath } := by
  simp only [changeDirectory, if_neg hname, Bool.true_eq_false, if_false] at h
  cases hcur : s.heap.deref s.currentDirectoryPointer with
  | none => rw [hcur] at h; cases h
  | some cur =>
    rw [hcur] at h
    dsimp only at h
    by_cases hc : multiCount cur.foldersByName name = 0
    · rw [if_pos hc] at h
      cases h
    · rw [if_neg hc] at h
      cases hfirst : (equal_range cur.foldersByName name).head? with
      | none => rw [hfirst] at h; cases h
      | some first =>
        rw [hfirst] at h
        dsimp only at h
        cases hff : s.heap.deref first.2 with
        | none => rw [hff] at h; cases h
        | some ff =>
          rw [hff] at h
          dsimp only at h
          cases hsub : substr ff.metadata.folderId 0
              (toSizeT ((ff.metadata.folderId.length : Int) - 2)) with
          | throw w => rw [hsub] at h; cases h
          | crash => rw [hsub] at h; cases h
          | ret idHead =>
            rw [hsub] at h
            dsimp only at h
            cases hq : mapFind cur.foldersById (idHead ++ versionString version) with
            | none => rw [hq] at h; cases h
            | some q =>
              rw [hq] at h
              dsimp only at h
              cases htf : s.heap.deref q with
              | none => rw [htf] at h; cases h
              | some tf =>
                rw [htf] at h
                dsimp only at h
                exact ⟨cur, first, ff, idHead, q, tf, hcur, hfirst, hff, hsub, hq, htf,
                  (Outcome.ok.inj h).symm⟩

/-- C7. In a reachable state with current directory `D`, after a `changeDirectory` into a
named folder relative to `D` has returned normally, `changeDirectory("..")` with any version
and any mode returns into exactly the state before descending: the cursor is `D` again with
its path, and the heap is unchanged. The folder entered is a child of `D`. -/
theorem navigation_round_trip {s s1 : State} (hr : Reachable s) {name : Str} {version : Int}
    (hname : name ≠ dotdot) (hdown : changeDirectory s name version true = .ok s1)
    (version1 : Int) (relative1 : Bool) :
    changeDirectory s1 dotdot version1 relative1 = .ok s ∧
    s1.heap = s.heap ∧
    ∃ child, s1.current = some child ∧ child.parentFolder = some s.currentDirectoryPointer := by
  obtain ⟨cur, first, ff, idHead, q, tf, hcur, hfirst, hff, hsub, hq, htf, hs1⟩ :=
    changeDirectory_child_inv hname hdown
  have hwf := hr.wf
  have hnode := (hwf.nodes _ cur hcur).folders
  -- the key looked up is not the key of the parent entry
  have hfm := mem_equal_range.1 (List.mem_of_mem_head? (by rw [hfirst]; exact rfl))
  obtain ⟨_, ff1, hff1, _, _, w, hw, hid⟩ := hnode.children first hfm.1 (hfm.2 ▸ hname)
  rw [hff] at hff1
  cases hff1
  have hkey : idHead ++ versionString version ≠ parentKey := by
    intro hk
    have hlen : ff.metadata.folderId.length = cur.metadata.folderId.length + 4 := by
      rw [hid, List.length_append, hw]
    have h1 : toSizeT ((ff.metadata.folderId.length : Int) - 2) =
        cur.metadata.folderId.length + 2 := by
      have : (0 : Int) ≤ (ff.metadata.folderId.length : Int) - 2 := by omega
      simp only [toSizeT, this, if_true]
      omega
    rw [h1] at hsub
    simp only [substr] at hsub
    split at hsub
    · cases hsub
    · have h2 := Exec.ret.inj hsub
      have h3 : idHead.length = cur.metadata.folderId.length + 2 := by
        rw [← h2, List.drop_zero, List.length_take]
        omega
      have h4 := congrArg List.length hk
      rw [List.length_append, h3] at h4
      have h5 : (versionString version).length ≠ 0 := fun h0 =>
        versionString_ne_nil version (List.length_eq_zero.1 h0)
      have h6 : parentKey.length = 2 := rfl
      omega
  obtain ⟨_, tf1, htf1, hparent, _⟩ := hnode.childIds _ (mapFind_mem hq) hkey
  rw [htf] at htf1
  cases htf1
  obtain ⟨f0, hf0, hpath⟩ := hwf.cursor
  rw [hcur] at hf0
  cases hf0
  subst hs1
  refine ⟨?_, rfl, tf, htf, hparent⟩
  have hcur1 : State.current
      { s with currentDirectoryPointer := q, currentDirectoryPath := tf.metadata.folderPath } =
      some tf := htf
  have hpar : Heap.deref s.heap s.currentDirectoryPointer = some cur := hcur
  simp only [changeDirectory, if_true, hcur1, hparent, hpar]
  rw [← hpath]

/-- From the root, after `createFolder("x")`, entering `x` and going up again ends in the
root with path `/`. -/
theorem navigation_round_trip_witness :
    "x".toList ≠ dotdot ∧
    changeDirectory (after [.createFolder "x".toList]) "x".toList 1 true = .ok (after descendOps) ∧
    (after descendOps).currentDirectoryPath = "/x".toList ∧
    (after [.createFolder "x".toList]).currentDirectoryPath = "/".toList ∧
    (after [.createFolder "x".toList]).currentDirectoryPointer = 0 ∧
    (changeDirectory (after descendOps) dotdot 7 false = .ok (after [.createFolder "x".toList]) ∧
      (after descendOps).heap = (after [.createFolder "x".toList]).heap ∧
      ∃ child, (after descendOps).current = some child ∧
        child.parentFolder = some (after [.createFolder "x".toList]).currentDirectoryPointer) :=
  ⟨by decide, by decide, by decide, by decide, by decide,
    @navigation_round_trip (after [.createFolder "x".toList]) (after descendOps)
      (reachable_after [.createFolder "x".toList]) "x".toList 1 (by decide) (by decide) 7 false⟩

/-! ## C2 and C9: chains of versions -/

/-- In a reachable state `createFile` with a valid name that contains a dot returns normally
whenever the name is already present or fewer than 99 distinct names are: it attaches a file
whose id is the id of the current directory, the group of the name and the next version. -/
theorem createFile_next {s : State} (hr : Reachable s) {cur : Folder}
    (hcur : s.current = some cur) {name : Str} (hv : validName name) (hdot : '.' ∈ name)
    (content : Str)
    (hroom : multiCount cur.filesByName name = 0 → distinctFileNames cur + 1 < 100) :
    ∃ (g ext : Str), g.length = 2 ∧
      (multiCount cur.filesByName name = 0 → g = pad2 (distinctFileNames cur + 1)) ∧
      (equal_range cur.filesByName name).map
          (fun e => (e.2.metadata.fileId, e.2.metadata.fileVersion)) =
        (List.range (multiCount cur.filesByName name)).map
          (fun i => (cur.metadata.folderId ++ g ++ verOf i, verOf i)) ∧
      createFile s name content = .ok { s with heap := (s.heap.store s.currentDirectoryPointer
        (cur.addFile (mkFile
          (cur.metadata.folderId ++ g ++ verOf (multiCount cur.filesByName name))
          (newPath s.currentDirectoryPath name) ext content name
          (verOf (multiCount cur.filesByName name))))) } := by
  have hfp := (hr.wf.nodes _ cur hcur).files
  obtain ⟨g, hg, hch, hret, hg0⟩ := getNewFileId_chain hfp hcur name
  obtain ⟨_, ext, hext, _, _⟩ := getFileExtension_of_dot hdot
  have hid : getNewFileId s name =
      .ret (cur.metadata.folderId ++ g ++ verOf (multiCount cur.filesByName name)) := by
    rw [hret]
    by_cases hj : multiCount cur.filesByName name = 0
    · have : ¬ (distinctFileNames cur + 1 ≥ 100) := by
        have := hroom hj
        omega
      rw [if_pos hj, if_neg this, hj]
    · rw [if_neg hj]
  exact ⟨g, ext, hg, hg0, hch,
    createFile_eq_ok hv hcur hid hext (substr_version _ _ (verOf_length _))⟩

/-- The same for `createFolder`, with any valid name: the new folder object is allocated at
the end of the heap. -/
theorem createFolder_next {s : State} (hr : Reachable s) {cur : Folder}
    (hcur : s.current = some cur) {name : Str} (hv : validName name)
    (hroom : multiCount cur.foldersByName name = 0 → distinctFolderNames cur + 1 < 100) :
    ∃ g : Str, g.length = 2 ∧
      (multiCount cur.foldersByName name = 0 → g = pad2 (distinctFolderNames cur + 1)) ∧
      idsBehind s.heap (equal_range cur.foldersByName name) =
        (List.range (multiCount cur.foldersByName name)).map
          (fun i => cur.metadata.folderId ++ g ++ verOf i) ∧
      createFolder s name = .ok { s with heap :=
        ((s.heap ++ [some (mkFolder
          (cur.metadata.folderId ++ g ++ verOf (multiCount cur.foldersByName name))
          (newPath s.currentDirectoryPath name) (some s.currentDirectoryPointer) name)]).store
            s.currentDirectoryPointer
            (cur.addFolder s.heap.length
              (cur.metadata.folderId ++ g ++ verOf (multiCount cur.foldersByName name)) name)) } := by
  obtain ⟨g, hg, hch, hret, hg0⟩ := getNewFolderId_chain hr.wf hcur hv
  have hid : getNewFolderId s name =
      .ret (cur.metadata.folderId ++ g ++ verOf (multiCount cur.foldersByName name)) := by
    rw [hret]
    by_cases hj : multiCount cur.foldersByName name = 0
    · have : ¬ (distinctFolderNames cur + 1 ≥ 100) := by
        have := hroom hj
        omega
      rw [if_pos hj, if_neg this, hj]
    · rw [if_neg hj]
  exact ⟨g, hg, hg0, hch, createFolder_eq_ok hv hcur hid⟩

theorem createFolder_failed {s : State} {name : Str} {w : String} (hv : validName name)
    (h : getNewFolderId s name = .throw w) : createFolder s name = .failed w s := by
  simp only [createFolder, throwErrorifNameInvalid_valid hv, h, Exec.ret_bind, Exec.throw_bind,
    catchRuntimeError]

theorem createFile_failed {s : State} {name content : Str} {w : String} (hv : validName name)
    (h : getNewFileId s name = .throw w) : createFile s name content = .failed w s := by
  simp only [createFile, throwErrorifNameInvalid_valid hv, h, Exec.ret_bind, Exec.throw_bind,
    catchRuntimeError]

/-- The part of C3 that the code satisfies: in a reachable state, for a valid name that no
child folder of the current directory has, `createFolder` fails without any change when the
counter `c` of distinct folder names satisfies `c + 1 ≥ 100`, and otherwise returns normally
with a new folder whose id is the id of the directory, `pad2 (c + 1)` and `00`. The same
holds for `createFile` when the name contains a dot. -/
theorem create_new_name {s : State} (hr : Reachable s) {cur : Folder}
    (hcur : s.current = some cur) {name : Str} (hv : validName name) :
    (name ∉ keys cur.foldersByName →
      (cur.metadata.uniqueFolderCount + 1 ≥ 100 →
        createFolder s name = .failed "Folder can not be created" s) ∧
      (cur.metadata.uniqueFolderCount + 1 < 100 →
        ∃ (s1 : State) (child : Folder), createFolder s name = .ok s1 ∧
          s1.heap.deref s.heap.length = some child ∧ child.metadata.folderName = name ∧
          child.metadata.folderId = cur.metadata.folderId ++
            pad2 (cur.metadata.uniqueFolderCount + 1).toNat ++ "00".toList)) ∧
    (name ∉ keys cur.filesByName →
      (cur.metadata.uniqueFileCount + 1 ≥ 100 → ∀ content : Str,
        createFile s name content = .failed "Folder can not be created" s) ∧
      (cur.metadata.uniqueFileCount + 1 < 100 → '.' ∈ name → ∀ content : Str,
        ∃ (s1 : State) (cur1 : Folder), createFile s name content = .ok s1 ∧
          s1.current = some cur1 ∧
          ((equal_range cur1.filesByName name).getLast?).map (fun e => e.2.metadata.fileId) =
            some (cur.metadata.folderId ++
              pad2 (cur.metadata.uniqueFileCount + 1).toNat ++ "00".toList))) := by
  have hnode := hr.wf.nodes _ cur hcur
  constructor
  · intro hnew
    have hzero : multiCount cur.foldersByName name = 0 := multiCount_eq_zero.2 hnew
    have hc := hnode.folders.folderCount
    constructor
    · intro hfull
      obtain ⟨g, _, _, hret, _⟩ := getNewFolderId_chain hr.wf hcur hv
      have h100 : distinctFolderNames cur + 1 ≥ 100 := by omega
      rw [if_pos hzero, if_pos h100] at hret
      exact createFolder_failed hv hret
    · intro hroom
      obtain ⟨g, _, hg0, _, hok⟩ := createFolder_next hr hcur hv (fun _ => by omega)
      have hc1 : s.heap.deref s.currentDirectoryPointer = some cur := hcur
      have hclt : s.currentDirectoryPointer < s.heap.length := Heap.deref_lt hc1
      refine ⟨_, mkFolder (cur.metadata.folderId ++ g ++ verOf (multiCount cur.foldersByName name))
        (newPath s.currentDirectoryPath name) (some s.currentDirectoryPointer) name, hok, ?_,
        rfl, ?_⟩
      · simp only
        rw [Heap.deref_store_ne _ (Nat.ne_of_lt hclt), Heap.deref_append_length]
      · have h1 : (cur.metadata.uniqueFolderCount + 1).toNat = distinctFolderNames cur + 1 := by
          omega
        rw [hg0 hzero, hzero, h1]
        rfl
  · intro hnew
    have hzero : multiCount cur.filesByName name = 0 := multiCount_eq_zero.2 hnew
    have hc := hnode.files.fileCount
    constructor
    · intro hfull content
      obtain ⟨g, _, _, hret, _⟩ := getNewFileId_chain hnode.files hcur name
      have h100 : distinctFileNames cur + 1 ≥ 100 := by omega
      rw [if_pos hzero, if_pos h100] at hret
      exact createFile_failed hv hret
    · intro hroom hdot content
      obtain ⟨g, ext, _, hg0, _, hok⟩ :=
        createFile_next hr hcur hv hdot content (fun _ => by omega)
      refine ⟨_, _, hok, current_store hcur, ?_⟩
      have h1 : (cur.metadata.uniqueFileCount + 1).toNat = distinctFileNames cur + 1 := by
        omega
      simp only [Folder.addFile, mkFile, equal_range_multiInsert_self, List.getLast?_concat,
        Option.map_some']
      rw [hg0 hzero, hzero, h1]
      rfl

/-- C3 fails on the code for a file name without a dot: in the initial state `README` is a
valid new name and the counter is 0, `getNewFileId` derives the id `00100`, but
`getFileExtension` then reads the name out of bounds and `createFile` does not return. -/
theorem create_file_without_dot_crashes :
    validName "README".toList ∧
    "README".toList ∉ keys (folderAt State.init 0).filesByName ∧
    (folderAt State.init 0).metadata.uniqueFileCount + 1 < 100 ∧
    getNewFileId State.init "README".toList = .ret "00100".toList ∧
    getFileExtension "README".toList = .crash ∧
    createFile State.init "README".toList "x".toList = .crash := by
  decide

/-! ## C6 and C8: navigation by version -/

/-- C6 fails on the code after an id has been derived twice: with folders `a`, `b` created,
`a` deleted and `c` created, the root has the child folders `b` and `c`, both with the id
`00200`; `changeDirectory("b", 1, true)` returns normally but the current directory is then
the folder named `c` with path `/c`. -/
theorem change_directory_lands_in_other_folder :
    describeEntries (after collisionOps)
        (equal_range (folderAt (after collisionOps) 0).foldersByName "b".toList) =
      [("b".toList, "00200".toList)] ∧
    describeEntries (after collisionOps)
        (equal_range (folderAt (after collisionOps) 0).foldersByName "c".toList) =
      [("c".toList, "00200".toList)] ∧
    (changeDirectory (after collisionOps) "b".toList 1 true).isOk = true ∧
    ((changeDirectory (after collisionOps) "b".toList 1 true).state?.bind State.current).map
        (fun f => (f.metadata.folderName, f.metadata.folderPath)) =
      some ("c".toList, "/c".toList) ∧
    ((changeDirectory (after collisionOps) "b".toList 1 true).state?.map
        (fun s => s.currentDirectoryPath)) = some "/c".toList := by
  decide

/-- C8 fails on the code: with two versions of the folder `b` in the root (ids `00100` and
`00101`), the id `00104` of a fifth version is absent from the id index, and
`changeDirectory("b", 5, _)` does not report a failure: the lookup yields a null pointer,
which is dereferenced. -/
theorem change_directory_missing_version_crashes :
    describeEntries (after twoFoldersOps)
        (equal_range (folderAt (after twoFoldersOps) 0).foldersByName "b".toList) =
      [("b".toList, "00100".toList), ("b".toList, "00101".toList)] ∧
    mapFind (folderAt (after twoFoldersOps) 0).foldersById "00104".toList = none ∧
    changeDirectory (after twoFoldersOps) "b".toList 5 true = .crash ∧
    changeDirectory (after twoFoldersOps) "b".toList 5 false = .crash := by
  decide

/-! ## C11: names without a dot -/

theorem getFileExtensionScan_no_dot (fileName : Str) (hdot : '.' ∉ fileName) :
    ∀ i, getFileExtensionScan fileName i = .crash := by
  have hne : ∀ (k : Nat) (c : Char), fileName[k]? = some c → c ≠ '.' := by
    intro k c hk hc
    subst hc
    exact hdot (List.getElem?_mem hk)
  intro i
  induction i with
  | zero =>
    unfold getFileExtensionScan
    cases h : fileName[0]? with
    | none => rfl
    | some c => simp [hne 0 c h]
  | succ i ih =>
    unfold getFileExtensionScan
    cases h : fileName[i + 1]? with
    | none => rfl
    | some c => simp [hne (i + 1) c h, ih]

/-- The scan of `getFileExtension` never ends normally on a name without a dot, empty or
not: it reads `fileName[-1]`, or position `2^64 - 1` of the empty name. -/
theorem getFileExtension_no_dot (fileName : Str) (hdot : '.' ∉ fileName) :
    getFileExtension fileName = .crash :=
  getFileExtensionScan_no_dot fileName hdot _

/-- C11 fails on the code: `README` is not empty and has no dot, the scan of
`getFileExtension` passes position 0 without finding a dot and reads the name out of
bounds, so no extension is returned and `createFile("README", c)` does not return, for
any content `c`. -/
theorem readme_extension_out_of_bounds (c : Str) :
    "README".toList ≠ [] ∧ '.' ∉ "README".toList ∧
    getFileExtensionScan "README".toList 0 = .crash ∧
    getFileExtension "README".toList = .crash ∧
    getFileExtension "README".toList ≠ .ret [] ∧
    createFile State.init "README".toList c = .crash ∧
    (createFile State.init "README".toList c).isOk = false := by
  have h1 : getFileExtension "README".toList = .crash :=
    getFileExtension_no_dot _ (by decide)
  have h2 : createFile State.init "README".toList c = .crash := by
    have hid : getNewFileId State.init "README".toList = .ret "00100".toList := by decide
    have hn : throwErrorifNameInvalid "README".toList = .ret () := by decide
    simp only [createFile, hn, hid, h1, Exec.ret_bind, Exec.crash_bind, catchRuntimeError]
  refine ⟨by decide, by decide, by decide, h1, ?_, h2, ?_⟩
  · rw [h1]
    exact fun h => Exec.noConfusion h
  · rw [h2]
    rfl

/-! ## C17: the next version -/

/-- C17: for a two-digit version `v = pad2 n` with `n ≤ 98`, `getNewFolderOrFileVersion`
returns the two-digit form of `n + 1`; when the second character is `9` the first is
incremented and the second becomes `0`, otherwise only the second is incremented; the
result has two characters and differs from `v`. -/
theorem next_version_two_digits (n : Nat) (hn : n ≤ 98) :
    getNewFolderOrFileVersion (pad2 n) = .ret (pad2 (n + 1)) ∧
    (n % 10 = 9 →
      getNewFolderOrFileVersion (pad2 n) = .ret [Char.ofNat (48 + n / 10 + 1), '0']) ∧
    (n % 10 ≠ 9 →
      getNewFolderOrFileVersion (pad2 n) =
        .ret [Char.ofNat (48 + n / 10), Char.ofNat (48 + n % 10 + 1)]) ∧
    (pad2 (n + 1)).length = 2 ∧ pad2 (n + 1) ≠ pad2 n := by
  revert n
  decide

/-- The versions `08`, `09` and `98` are followed by `09`, `10` and `99`. -/
theorem next_version_two_digits_witness :
    getNewFolderOrFileVersion "09".toList = .ret "10".toList ∧
    getNewFolderOrFileVersion "98".toList = .ret "99".toList ∧
    "10".toList ≠ "09".toList :=
  ⟨(next_version_two_digits 9 (by decide)).1, (next_version_two_digits 98 (by decide)).1,
    (next_version_two_digits 9 (by decide)).2.2.2.2⟩

/-! ## C19: the parent of the root -/

/-- C19 fails on the code: the root has no parent, and `changeDirectory("..", v, r)` in
the initial state makes the null pointer the current directory and reads its path, so the
operation does not return, whatever `v` and `r` are. -/
theorem change_directory_above_root_crashes (version : Int) (relative : Bool) :
    (State.init.current.map (fun f => f.parentFolder)) = some none ∧
    changeDirectory State.init dotdot version relative = .crash ∧
    (Op.run State.init (.changeDirectory dotdot version relative)).state? = none ∧
    runOps State.init [.changeDirectory dotdot version relative] = none := by
  have h : changeDirectory State.init dotdot version relative = .crash := rfl
  refine ⟨rfl, h, ?_, ?_⟩
  · show (changeDirectory State.init dotdot version relative).state? = none
    rw [h]
    rfl
  · show (match (changeDirectory State.init dotdot version relative).state? with
      | some s1 => runOps s1 []
      | none => none) = none
    rw [h]
    rfl

/-! ## C13 and C14: ids derived twice -/

/-- C13 fails on the code: with `a`, `b` created and `a` deleted, `createFolder("c")`
derives the id `00200`, which is the key of `b` in the id index, and returns normally;
afterwards the children `b` and `c` are two live folders with the id `00200`, and the id
index holds `c` under that key and `b` under none. The same happens with files `a.t`,
`b.t`, `c.t`. -/
theorem derived_id_already_in_use :
    getNewFolderId (after beforeCollisionOps) "c".toList = .ret "00200".toList ∧
    "00200".toList ∈ keys (folderAt (after beforeCollisionOps) 0).foldersById ∧
    (createFolder (after beforeCollisionOps) "c".toList).isOk = true ∧
    createdFolderId (after beforeCollisionOps) "c".toList = some "00200".toList ∧
    childFolders (after collisionOps) (folderAt (after collisionOps) 0) =
      [("b".toList, "00200".toList), ("c".toList, "00200".toList)] ∧
    describeEntries (after collisionOps)
        ((folderAt (after collisionOps) 0).foldersById.filter (fun e => e.1 ≠ parentKey)) =
      [("c".toList, "00200".toList)] ∧
    getNewFileId (after beforeFileCollisionOps) "c.t".toList = .ret "00200".toList ∧
    "00200".toList ∈ keys (folderAt (after beforeFileCollisionOps) 0).filesById ∧
    createdFileId (after beforeFileCollisionOps) "c.t".toList [] = some "00200".toList ∧
    ((createFile (after beforeFileCollisionOps) "c.t".toList []).state?.map
        (fun s => ((folderAt s 0).filesByName.map
            (fun e => (e.1, e.2.metadata.fileId)),
          (folderAt s 0).filesById.map (fun e => (e.1, e.2.metadata.fileName))))) =
      some ([("b.t".toList, "00200".toList), ("c.t".toList, "00200".toList)],
        [("00200".toList, "c.t".toList)]) := by
  decide

/-- C14 fails on the code: the folder `a` created in the empty root gets the id `00100`;
after `deleteFolder("a")` the folder `b` created in the same root gets `00100` again, and
so does `a` itself when it is created again. The same happens with the files `a.t` and
`b.t`. -/
theorem id_assigned_again_after_delete :
    createdFolderId State.init "a".toList = some "00100".toList ∧
    (after recycleFolderOps).currentDirectoryPointer = State.init.currentDirectoryPointer ∧
    keys (folderAt (after recycleFolderOps) 0).foldersById = [] ∧
    createdFolderId (after recycleFolderOps) "b".toList = some "00100".toList ∧
    createdFolderId (after recycleFolderOps) "a".toList = some "00100".toList ∧
    createdFileId State.init "a.t".toList [] = some "00100".toList ∧
    keys (folderAt (after recycleFileOps) 0).filesById = [] ∧
    createdFileId (after recycleFileOps) "b.t".toList [] = some "00100".toList ∧
    createdFileId (after recycleFileOps) "a.t".toList [] = some "00100".toList := by
  decide

/-! ## C12: the characters of an id -/

set_option maxRecDepth 100000 in
/-- C12 fails on the code at the 101st version of a name: after 101 creations of `a.t` in
the root, all of which return normally, the last file has the id `001:0`, whose fourth
character is a colon and not a decimal digit; the hundredth file has the id `00199`. -/
theorem id_with_colon_after_101_versions :
    (runOps State.init overflowOps).isSome = true ∧
    multiCount (folderAt (after overflowOps) 0).filesByName "a.t".toList = 101 ∧
    ((equal_range (folderAt (after overflowOps) 0).filesByName "a.t".toList).getLast?.map
        (fun e => e.2.metadata.fileId)) = some "001:0".toList ∧
    ((equal_range (folderAt (after overflowOps) 0).filesByName "a.t".toList)[99]?.map
        (fun e => e.2.metadata.fileId)) = some "00199".toList ∧
    "001:0".toList ∈ keys (folderAt (after overflowOps) 0).filesById ∧
    (folderAt (after overflowOps) 0).metadata.folderId = "0".toList ∧
    "001:0".toList.all Char.isDigit = false := by
  decide!

/-! ## The order of the id indexes -/

theorem strLt_trans : ∀ a b c : Str, strLt a b = true → strLt b c = true → strLt a c = true
  | [], [], _, h, _ => by simp [strLt] at h
  | [], _ :: _, [], _, h => by simp [strLt] at h
  | [], _ :: _, _ :: _, _, _ => rfl
  | _ :: _, [], _, h, _ => by simp [strLt] at h
  | _ :: _, _ :: _, [], _, h => by simp [strLt] at h
  | a :: as, b :: bs, c :: cs, h1, h2 => by
    simp only [strLt] at h1 h2 ⊢
    by_cases hab : a.toNat < b.toNat
    · by_cases hbc : b.toNat < c.toNat
      · rw [if_pos (by omega)]
      · rw [if_neg hbc] at h2
        by_cases hcb : c.toNat < b.toNat
        · rw [if_pos hcb] at h2
          cases h2
        · rw [if_pos (by omega)]
    · rw [if_neg hab] at h1
      by_cases hba : b.toNat < a.toNat
      · rw [if_pos hba] at h1
        cases h1
      · rw [if_neg hba] at h1
        by_cases hbc : b.toNat < c.toNat
        · rw [if_pos (by omega)]
        · rw [if_neg hbc] at h2
          by_cases hcb : c.toNat < b.toNat
          · rw [if_pos hcb] at h2
            cases h2
          · rw [if_neg hcb] at h2
            rw [if_neg (by omega), if_neg (by omega)]
            exact strLt_trans as bs cs h1 h2

section Order

variable {β : Type}

theorem mapAssign_sorted {m : List (Str × β)} (k : Str) (v : β)
    (hm : m.Pairwise (fun a b => strLt a.1 b.1 = true)) :
    (mapAssign m k v).Pairwise (fun a b => strLt a.1 b.1 = true) := by
  unfold mapAssign
  rw [List.pairwise_append]
  refine ⟨hm.filter _, ?_, ?_⟩
  · rw [List.pairwise_cons]
    refine ⟨?_, hm.filter _⟩
    intro b hb
    exact (List.mem_filter.1 hb).2
  · intro a ha b hb
    have ha1 : strLt a.1 k = true := (List.mem_filter.1 ha).2
    rcases List.mem_cons.1 hb with hb1 | hb1
    · rw [hb1]
      exact ha1
    · exact strLt_trans _ _ _ ha1 (List.mem_filter.1 hb1).2

theorem mapErase_sorted {m : List (Str × β)} (k : Str)
    (hm : m.Pairwise (fun a b => strLt a.1 b.1 = true)) :
    (mapErase m k).Pairwise (fun a b => strLt a.1 b.1 = true) :=
  hm.filter _

theorem foldl_mapErase_sorted : ∀ (ks : List Str) (m : List (Str × β)),
    m.Pairwise (fun a b => strLt a.1 b.1 = true) →
    (ks.foldl mapErase m).Pairwise (fun a b => strLt a.1 b.1 = true)
  | [], _, hm => hm
  | k :: ks, m, hm => foldl_mapErase_sorted ks (mapErase m k) (mapErase_sorted k hm)

end Order

/-! ## Paths -/

theorem validName_ne_nil {name : Str} (hv : validName name) : name ≠ [] := by
  intro h
  subst h
  revert hv
  decide

theorem validName_no_slash {name : Str} (hv : validName name) : '/' ∉ name := by
  intro h
  exact hv (Or.inl h)

theorem renderPath_cons (n : Str) (rest : List Str) :
    renderPath (n :: rest) = '/' :: n ++ (rest.map (fun n => '/' :: n)).flatten := by
  simp [renderPath]

theorem newPath_renderPath {names : List Str} (hn : ∀ n ∈ names, validName n) (name : Str) :
    newPath (renderPath names) name = renderPath (names ++ [name]) := by
  cases names with
  | nil => simp [renderPath, newPath]
  | cons n rest =>
    have hne : n ≠ [] := validName_ne_nil (hn n (List.mem_cons_self _ _))
    have h1 : renderPath (n :: rest) ≠ "/".toList := by
      rw [renderPath_cons]
      intro h
      have h2 := congrArg List.length h
      simp at h2
      exact hne h2.1
    unfold newPath
    rw [if_neg h1]
    simp [renderPath]

theorem renderPath_eq_slash {names : List Str} (hn : ∀ n ∈ names, validName n) :
    renderPath names = "/".toList ↔ names = [] := by
  constructor
  · intro h
    cases names with
    | nil => rfl
    | cons n rest =>
      exfalso
      have hne : n ≠ [] := validName_ne_nil (hn n (List.mem_cons_self _ _))
      rw [renderPath_cons] at h
      have h2 := congrArg List.length h
      simp at h2
      exact hne h2.1
  · intro h
    subst h
    rfl

theorem doubleSlash_append_no_slash : ∀ (m R : Str), '/' ∉ m → doubleSlash R = false →
    doubleSlash (m ++ R) = false
  | [], R, _, hR => hR
  | [c], R, hm, hR => by
    have hc : c ≠ '/' := fun h => hm (by simp [h])
    cases R with
    | nil => rfl
    | cons r R1 =>
      show doubleSlash (c :: r :: R1) = false
      unfold doubleSlash
      simp [hc, hR]
  | c :: d :: m, R, hm, hR => by
    have hc : c ≠ '/' := fun h => hm (by simp [h])
    have hm1 : '/' ∉ d :: m := fun h => hm (List.mem_cons_of_mem _ h)
    have ih := doubleSlash_append_no_slash (d :: m) R hm1 hR
    show doubleSlash (c :: d :: (m ++ R)) = false
    unfold doubleSlash
    simp only [List.cons_append] at ih
    simp [hc, ih]

theorem doubleSlash_join : ∀ names : List Str, (∀ n ∈ names, validName n) →
    doubleSlash ((names.map (fun n => '/' :: n)).flatten) = false
  | [], _ => rfl
  | n :: rest, hn => by
    have hv := hn n (List.mem_cons_self _ _)
    have ih := doubleSlash_join rest (fun x hx => hn x (List.mem_cons_of_mem _ hx))
    have h1 := doubleSlash_append_no_slash n _ (validName_no_slash hv) ih
    cases n with
    | nil => exact absurd rfl (validName_ne_nil hv)
    | cons c n1 =>
      have hc : c ≠ '/' := fun h => validName_no_slash hv (by simp [h])
      simp only [List.map_cons, List.flatten_cons, List.cons_append] at h1 ⊢
      unfold doubleSlash
      simp [hc, h1]

theorem doubleSlash_renderPath {names : List Str} (hn : ∀ n ∈ names, validName n) :
    doubleSlash (renderPath names) = false := by
  unfold renderPath
  split
  · rfl
  · exact doubleSlash_join names hn

/-! ## The effect of one operation -/

theorem Updated.header {s : State} {cur cur1 : Folder} (h : Updated s cur cur1) :
    cur1.parentFolder = cur.parentFolder ∧
    cur1.metadata.folderPath = cur.metadata.folderPath ∧
    cur1.metadata.folderName = cur.metadata.folderName ∧
    cur1.metadata.folderId = cur.metadata.folderId := by
  cases h <;> exact ⟨rfl, rfl, rfl, rfl⟩

/-- The loop of `removeFolder` leaves the objects older than `self` alone. -/
theorem removeFolderLoop_below (self : Nat) : ∀ (l : List (Str × Nat)) (h h1 : Heap), Ord h →
    (∀ e ∈ l, self < e.2) → removeFolderLoop self l h = .ret h1 →
    ∀ r, r < self → h1.deref r = h.deref r := by
  intro l
  induction l with
  | nil =>
    intro h h1 _ _ hrun r _
    cases hrun
    rfl
  | cons e l ih =>
    intro h h1 ho hl hrun r hr
    unfold removeFolderLoop at hrun
    cases hg : h.deref e.2 with
    | none => rw [hg] at hrun; cases hrun
    | some g =>
      cases hme : h.deref self with
      | none => rw [hg, hme] at hrun; cases hrun
      | some me =>
        rw [hg, hme] at hrun
        dsimp only at hrun
        have hsub : ∀ x ∈ ({ me with
            foldersById := mapErase me.foldersById g.metadata.folderId } : Folder).foldersById,
            x ∈ me.foldersById := fun x hx => (mem_mapErase.1 hx).1
        have ho1 := ho.store_sub hme hsub
        have hlt : self < e.2 := hl e (List.mem_cons_self _ _)
        have h2 := ih _ h1 (ho1.keep_released (destroy_freesOnly _ _ _))
          (fun x hx => hl x (List.mem_cons_of_mem _ hx)) hrun r hr
        rw [h2, destroy_below _ _ _ ho1 r (by omega), Heap.deref_store_ne _ (by omega)]

theorem removeFolder_below {h h1 : Heap} {c : Nat} {name : Str}
    (hn : ∀ p f, h.deref p = some f → Node h p f) (hnd : name ≠ dotdot)
    (hrun : removeFolder h c name = .ret h1) : ∀ r, r < c → h1.deref r = h.deref r := by
  intro r hr
  unfold removeFolder at hrun
  cases hcur : h.deref c with
  | none => rw [hcur] at hrun; cases hrun
  | some cur =>
    rw [hcur] at hrun
    dsimp only at hrun
    cases hloop : removeFolderLoop c (equal_range cur.foldersByName name) h with
    | throw w => rw [hloop] at hrun; cases hrun
    | crash => rw [hloop] at hrun; cases hrun
    | ret h2 =>
      rw [hloop] at hrun
      dsimp only at hrun
      have hl : ∀ e ∈ equal_range cur.foldersByName name, c < e.2 := by
        intro e he
        obtain ⟨hmem, hkey⟩ := mem_equal_range.1 he
        exact ((hn c cur hcur).folders.children e hmem (hkey ▸ hnd)).1
      have hb := removeFolderLoop_below c _ h h2 (Ord.from_nodes hn) hl hloop r hr
      cases hme : h2.deref c with
      | none => rw [hme] at hrun; cases hrun
      | some me =>
        rw [hme] at hrun
        have := Exec.ret.inj hrun
        rw [← this, Heap.deref_store_ne _ (by omega), hb]

/-- Where a successful `changeDirectory` leaves the cursor: at the parent of the current
directory, or at a child entry of the root or of the current directory. -/
theorem changeDirectory_target {s s1 : State} (hwf : WF s) {target : Str} {version : Int}
    {relative : Bool} (h : changeDirectory s target version relative = .ok s1) :
    s1.heap = s.heap ∧ s1.rootFolder = s.rootFolder ∧
    ∃ tf, s.heap.deref s1.currentDirectoryPointer = some tf ∧
      s1.currentDirectoryPath = tf.metadata.folderPath ∧
      ((∃ cur, s.current = some cur ∧ cur.parentFolder = some s1.currentDirectoryPointer) ∨
        ∃ t tmp e, (t = s.rootFolder ∨ t = s.currentDirectoryPointer) ∧
          s.heap.deref t = some tmp ∧ e ∈ tmp.foldersById ∧ e.1 ≠ parentKey ∧
          e.2 = s1.currentDirectoryPointer ∧ t < e.2 ∧ tf.parentFolder = some t) := by
  by_cases hname : target = dotdot
  · simp only [changeDirectory, if_pos hname] at h
    cases hcur : s.current with
    | none => rw [hcur] at h; cases h
    | some cur =>
      rw [hcur] at h
      dsimp only at h
      cases hpar : cur.parentFolder with
      | none => rw [hpar] at h; cases h
      | some parent =>
        rw [hpar] at h
        dsimp only at h
        cases hpf : s.heap.deref parent with
        | none => rw [hpf] at h; cases h
        | some pf =>
          rw [hpf] at h
          have hs1 := (Outcome.ok.inj h).symm
          subst hs1
          exact ⟨rfl, rfl, pf, hpf, rfl, Or.inl ⟨cur, rfl, hpar⟩⟩
  · simp only [changeDirectory, if_neg hname] at h
    generalize ht : (if relative = false then s.rootFolder else s.currentDirectoryPointer) = t
      at h
    have htor : t = s.rootFolder ∨ t = s.currentDirectoryPointer := by
      rw [← ht]
      split
      · exact Or.inl rfl
      · exact Or.inr rfl
    cases htmp : s.heap.deref t with
    | none => rw [htmp] at h; cases h
    | some tmp =>
      rw [htmp] at h
      dsimp only at h
      by_cases hc : multiCount tmp.foldersByName target = 0
      · rw [if_pos hc] at h
        cases h
      · rw [if_neg hc] at h
        cases hfirst : (equal_range tmp.foldersByName target).head? with
        | none => rw [hfirst] at h; cases h
        | some first =>
          rw [hfirst] at h
          dsimp only at h
          cases hff : s.heap.deref first.2 with
          | none => rw [hff] at h; cases h
          | some ff =>
            rw [hff] at h
            dsimp only at h
            cases hsub : substr ff.metadata.folderId 0
                (toSizeT ((ff.metadata.folderId.length : Int) - 2)) with
            | throw w => rw [hsub] at h; cases h
            | crash => rw [hsub] at h; cases h
            | ret idHead =>
              rw [hsub] at h
              dsimp only at h
              cases hq : mapFind tmp.foldersById (idHead ++ versionString version) with
              | none => rw [hq] at h; cases h
              | some q =>
                rw [hq] at h
                dsimp only at h
                cases htf : s.heap.deref q with
                | none => rw [htf] at h; cases h
                | some tf =>
                  rw [htf] at h
                  dsimp only at h
                  have hs1 := (Outcome.ok.inj h).symm
                  subst hs1
                  have hnode := (hwf.nodes _ tmp htmp).folders
                  have hfm := mem_equal_range.1
                    (List.mem_of_mem_head? (by rw [hfirst]; exact rfl))
                  obtain ⟨_, ff1, hff1, _, _, w, hw, hid⟩ :=
                    hnode.children first hfm.1 (hfm.2 ▸ hname)
                  rw [hff] at hff1
                  cases hff1
                  have hkey : idHead ++ versionString version ≠ parentKey := by
                    intro hk
                    have hlen : ff.metadata.folderId.length =
                        tmp.metadata.folderId.length + 4 := by
                      rw [hid, List.length_append, hw]
                    have h1 : toSizeT ((ff.metadata.folderId.length : Int) - 2) =
                        tmp.metadata.folderId.length + 2 := by
                      have : (0 : Int) ≤ (ff.metadata.folderId.length : Int) - 2 := by omega
                      simp only [toSizeT, this, if_true]
                      omega
                    rw [h1] at hsub
                    simp only [substr] at hsub
                    split at hsub
                    · cases hsub
                    · have h2 := Exec.ret.inj hsub
                      have h3 : idHead.length = tmp.metadata.folderId.length + 2 := by
                        rw [← h2, List.drop_zero, List.length_take]
                        omega
                      have h4 := congrArg List.length hk
                      rw [List.length_append, h3] at h4
                      have h5 : (versionString version).length ≠ 0 := fun h0 =>
                        versionString_ne_nil version (List.length_eq_zero.1 h0)
                      have h6 : parentKey.length = 2 := rfl
                      omega
                  obtain ⟨hlt, tf1, htf1, hparent, _⟩ :=
                    hnode.childIds _ (mapFind_mem hq) hkey
                  rw [htf] at htf1
                  cases htf1
                  exact ⟨rfl, rfl, tf, htf, rfl,
                    Or.inr ⟨t, tmp, _, htor, htmp, mapFind_mem hq, hkey, rfl, hlt, hparent⟩⟩

/-- What an operation that returns normally does to the heap when it is not
`changeDirectory`: the objects older than the current directory are untouched, the
current directory is updated by one of the four methods of `Folder`, and every other
live object was there before or is the object just allocated, a child of the current
directory. -/
theorem step_effect {s s1 : State} (hwf : WF s) {op : Op} (h : op.run s = .ok s1) :
    (s1.heap = s.heap ∧ ∃ target version relative,
      changeDirectory s target version relative = .ok s1) ∨
    (s1.currentDirectoryPointer = s.currentDirectoryPointer ∧
      s1.currentDirectoryPath = s.currentDirectoryPath ∧ s1.rootFolder = s.rootFolder ∧
      (∀ r, r < s.currentDirectoryPointer → s1.heap.deref r = s.heap.deref r) ∧
      (∃ cur cur1, s.heap.deref s.currentDirectoryPointer = some cur ∧
        s1.heap.deref s.currentDirectoryPointer = some cur1 ∧ Updated s cur cur1 ∧
        ∀ p f1, s1.heap.deref p = some f1 → p ≠ s.currentDirectoryPointer →
          s.heap.deref p = some f1 ∨
          (p = s.heap.length ∧ ∃ id name w, validName name ∧ w.length = 4 ∧
            id = cur.metadata.folderId ++ w ∧
            f1 = mkFolder id (newPath s.currentDirectoryPath name)
              (some s.currentDirectoryPointer) name))) := by
  cases op with
  | changeDirectory target version relative =>
    exact Or.inl ⟨(changeDirectory_target hwf h).1, target, version, relative, h⟩
  | createFile name content =>
    right
    obtain ⟨hv, cur, id, ext, ver, hcur, _, _, _, hs1⟩ := createFile_ok_inv h
    subst hs1
    have hc : s.heap.deref s.currentDirectoryPointer = some cur := hcur
    refine ⟨rfl, rfl, rfl, fun r hr => Heap.deref_store_ne _ (by omega), cur, _, hc,
      Heap.deref_store_self _ (Heap.deref_lt hc), Updated.addFile id ext content name ver hv, ?_⟩
    intro p f1 hf1 hp
    left
    rw [← hf1]
    exact (Heap.deref_store_ne _ (Ne.symm hp)).symm
  | deleteFile name =>
    right
    obtain ⟨hv, cur, hcur, _, hs1⟩ := deleteFile_ok_inv h
    subst hs1
    have hc : s.heap.deref s.currentDirectoryPointer = some cur := hcur
    refine ⟨rfl, rfl, rfl, fun r hr => Heap.deref_store_ne _ (by omega), cur, _, hc,
      Heap.deref_store_self _ (Heap.deref_lt hc), Updated.removeFile name, ?_⟩
    intro p f1 hf1 hp
    left
    rw [← hf1]
    exact (Heap.deref_store_ne _ (Ne.symm hp)).symm
  | createFolder name =>
    right
    obtain ⟨hv, cur, id, hcur, hid, hs1⟩ := createFolder_ok_inv h
    subst hs1
    have hc : s.heap.deref s.currentDirectoryPointer = some cur := hcur
    have hclt := Heap.deref_lt hc
    obtain ⟨gr, hgr, _, hret, _⟩ := getNewFolderId_chain hwf hcur hv
    rw [hid] at hret
    have hidw : ∃ w : Str, w.length = 4 ∧ id = cur.metadata.folderId ++ w := by
      refine ⟨gr ++ verOf (multiCount cur.foldersByName name), ?_, ?_⟩
      · rw [List.length_append, hgr, verOf_length]
      · rw [← List.append_assoc]
        by_cases hj : multiCount cur.foldersByName name = 0
        · rw [if_pos hj] at hret
          by_cases h100 : distinctFolderNames cur + 1 ≥ 100
          · rw [if_pos h100] at hret
            cases hret
          · rw [if_neg h100] at hret
            rw [hj]
            exact Exec.ret.inj hret
        · rw [if_neg hj] at hret
          exact Exec.ret.inj hret
    obtain ⟨w, hw, hidw⟩ := hidw
    refine ⟨rfl, rfl, rfl, ?_, cur, _, hc, ?_, Updated.addFolder id name w hv hw hidw, ?_⟩
    · intro r hr
      show ((s.heap ++ [_]).store s.currentDirectoryPointer _).deref r = _
      rw [Heap.deref_store_ne _ (by omega), Heap.deref_append_of_lt _ (by omega)]
    · show ((s.heap ++ [_]).store s.currentDirectoryPointer _).deref _ = _
      exact Heap.deref_store_self _ (by rw [List.length_append]; omega)
    · intro p f1 hf1 hp
      have hf2 : Heap.deref (s.heap ++ [some (mkFolder id (newPath s.currentDirectoryPath name)
          (some s.currentDirectoryPointer) name)]) p = some f1 := by
        rw [← hf1]
        exact (Heap.deref_store_ne _ (Ne.symm hp)).symm
      by_cases hpl : p < s.heap.length
      · left
        rw [← hf2, Heap.deref_append_of_lt _ hpl]
      · right
        have hpl2 : p < (s.heap ++ [some (mkFolder id (newPath s.currentDirectoryPath name)
            (some s.currentDirectoryPointer) name)]).length := Heap.deref_lt hf2
        rw [List.length_append, List.length_singleton] at hpl2
        have hpe : p = s.heap.length := by omega
        subst hpe
        rw [Heap.deref_append_length] at hf2
        exact ⟨rfl, id, name, w, hv, hw, hidw, (Option.some.inj hf2).symm⟩
  | deleteFolder name =>
    right
    obtain ⟨hv, cur, h2, hcur, hcount, hrem, hs1⟩ := deleteFolder_ok_inv h
    subst hs1
    have hnd : name ≠ dotdot := validName_ne_dotdot hv
    have hc : s.heap.deref s.currentDirectoryPointer = some cur := hcur
    have hbelow := removeFolder_below hwf.nodes hnd hrem
    obtain ⟨h1, hlen, hrun, ⟨me, hme⟩, hother, _, _⟩ := removeFolder_spec hwf.nodes hc hnd
    rw [hrun] at hrem
    have hh2 := (Exec.ret.inj hrem).symm
    subst hh2
    have hclt : s.currentDirectoryPointer < h1.length := Heap.deref_lt hme
    refine ⟨rfl, rfl, rfl, hbelow, cur, _, hc, Heap.deref_store_self _ hclt,
      Updated.removeFolder name hv, ?_⟩
    intro p f1 hf1 hp
    left
    have hf2 : h1.deref p = some f1 := by
      rw [← hf1]
      exact (Heap.deref_store_ne _ (Ne.symm hp)).symm
    rcases hother p hp with h3 | h3
    · rw [← h3, hf2]
    · rw [h3] at hf2
      cases hf2

/-! ## The second invariant -/

theorem Rooted.older {h h1 : Heap} {root q : Nat} (hr : Rooted h root q)
    (hsame : ∀ r, r ≤ q → h1.deref r = h.deref r) : Rooted h1 root q := by
  induction hr with
  | root hf hp => exact Rooted.root (by rw [hsame _ (Nat.le_refl _)]; exact hf) hp
  | child _ hpf he hk he2 hf hp hlt ih =>
    refine Rooted.child (ih (fun r hr => hsame r (by omega))) ?_ he hk he2 ?_ hp hlt
    · rw [hsame _ (by omega)]
      exact hpf
    · rw [hsame _ (Nat.le_refl _)]
      exact hf

theorem Rooted.top {h h1 : Heap} {root p : Nat} (hr : Rooted h root p)
    (hsame : ∀ r, r < p → h1.deref r = h.deref r)
    (htop : ∀ f, h.deref p = some f →
      ∃ f1, h1.deref p = some f1 ∧ f1.parentFolder = f.parentFolder) :
    Rooted h1 root p := by
  cases hr with
  | root hf hp =>
    obtain ⟨f1, hf1, hp1⟩ := htop _ hf
    exact Rooted.root hf1 (hp1.trans hp)
  | child hq hpf he hk he2 hf hp hlt =>
    obtain ⟨f1, hf1, hp1⟩ := htop _ hf
    refine Rooted.child (hq.older (fun r hr => hsame r (by omega))) ?_ he hk he2 hf1
      (hp1.trans hp) hlt
    rw [hsame _ hlt]
    exact hpf

theorem Rooted.parent {h : Heap} {root p q : Nat} {f : Folder} (hr : Rooted h root p)
    (hf : h.deref p = some f) (hp : f.parentFolder = some q) : Rooted h root q := by
  cases hr with
  | root hf1 hp1 =>
    rw [hf] at hf1
    cases hf1
    rw [hp] at hp1
    cases hp1
  | child hq _ _ _ _ hf1 hp1 _ =>
    rw [hf] at hf1
    cases hf1
    rw [hp] at hp1
    cases hp1
    exact hq

theorem Rooted.root_live {h : Heap} {root p : Nat} (hr : Rooted h root p) :
    Rooted h root root := by
  induction hr with
  | root hf hp => exact Rooted.root hf hp
  | child _ _ _ _ _ _ _ _ ih => exact ih

theorem Rooted.live {h : Heap} {root p : Nat} (hr : Rooted h root p) :
    ∃ f, h.deref p = some f := by
  cases hr with
  | root hf _ => exact ⟨_, hf⟩
  | child _ _ _ _ _ hf _ _ => exact ⟨_, hf⟩

/-- The shape of a folder object carries over to another heap and to another state of
the indexes when the header is the same, the parent has the same path, and the facts on
the indexes hold again. -/
theorem Shape.carry {h h1 : Heap} {p : Nat} {f f1 : Folder} (hs : Shape h p f)
    (hparent : f1.parentFolder = f.parentFolder)
    (hpath : f1.metadata.folderPath = f.metadata.folderPath)
    (hname : f1.metadata.folderName = f.metadata.folderName)
    (hid : f1.metadata.folderId = f.metadata.folderId)
    (hpar : ∀ q pf1, f.parentFolder = some q → h1.deref q = some pf1 →
      ∃ pf, h.deref q = some pf ∧ pf.metadata.folderPath = pf1.metadata.folderPath)
    (hfiles : ∀ e ∈ f1.filesByName, e.2.metadata.filePath = newPath f.metadata.folderPath e.1)
    (hsf : f1.foldersById.Pairwise (fun a b => strLt a.1 b.1 = true))
    (hsg : f1.filesById.Pairwise (fun a b => strLt a.1 b.1 = true))
    (hke : ∀ e ∈ f1.foldersById, e.1 = parentKey → f.parentFolder = some e.2)
    (hkp : ∀ q, f.parentFolder = some q → (parentKey, q) ∈ f1.foldersById)
    (hlink : ∀ e ∈ f1.foldersById, e.1 ≠ parentKey →
      ∃ k, k ≠ dotdot ∧ (k, e.2) ∈ f1.foldersByName) :
    Shape h1 p f1 where
  parent_lt := by
    rw [hparent]
    exact hs.parent_lt
  header := by
    rw [hparent, hname, hid]
    exact hs.header
  idHead := by
    rw [hid]
    exact hs.idHead
  path := by
    obtain ⟨names, hv, hp, hnone, hlast, hpp⟩ := hs.path
    refine ⟨names, hv, ?_, ?_, ?_, ?_⟩
    · rw [hpath]
      exact hp
    · rw [hparent]
      exact hnone
    · rw [hparent, hname]
      exact hlast
    · intro q pf1 hq hpf1
      rw [hparent] at hq
      obtain ⟨pf, hpf, hsame⟩ := hpar q pf1 hq hpf1
      rw [← hsame]
      exact hpp q pf hq hpf
  parentPath := by
    intro q pf1 hq hpf1
    rw [hparent] at hq
    obtain ⟨pf, hpf, hsame⟩ := hpar q pf1 hq hpf1
    rw [hpath, hname, ← hsame]
    exact hs.parentPath q pf hq hpf
  filePaths := by
    rw [hpath]
    exact hfiles
  sortedFolders := hsf
  sortedFiles := hsg
  parentKeyEntry := by
    rw [hparent]
    exact hke
  parentKeyPresent := by
    rw [hparent]
    exact hkp
  idLink := hlink

theorem Shape.same {h h1 : Heap} {p : Nat} {f : Folder} (hs : Shape h p f)
    (hpar : ∀ q pf1, f.parentFolder = some q → h1.deref q = some pf1 →
      ∃ pf, h.deref q = some pf ∧ pf.metadata.folderPath = pf1.metadata.folderPath) :
    Shape h1 p f :=
  hs.carry rfl rfl rfl rfl hpar hs.filePaths hs.sortedFolders hs.sortedFiles
    hs.parentKeyEntry hs.parentKeyPresent hs.idLink

theorem foldl_erase_files_sorted (l : List (Str × File)) :
    ∀ m : List (Str × File), m.Pairwise (fun a b => strLt a.1 b.1 = true) →
    (l.foldl (fun acc file => mapErase acc file.2.metadata.fileId) m).Pairwise
      (fun a b => strLt a.1 b.1 = true) := by
  induction l with
  | nil => intro m hm; exact hm
  | cons x l ih => intro m hm; exact ih _ (mapErase_sorted _ hm)

/-- The shape of the current directory after one of the four updates. -/
theorem Shape.updated {s : State} {h1 : Heap} {cur cur1 : Folder}
    (hnode : Node s.heap s.currentDirectoryPointer cur)
    (hs : Shape s.heap s.currentDirectoryPointer cur)
    (hpath : s.currentDirectoryPath = cur.metadata.folderPath) (hupd : Updated s cur cur1)
    (hpar : ∀ q pf1, cur.parentFolder = some q → h1.deref q = some pf1 →
      ∃ pf, s.heap.deref q = some pf ∧ pf.metadata.folderPath = pf1.metadata.folderPath) :
    Shape h1 s.currentDirectoryPointer cur1 := by
  cases hupd with
  | addFile id ext content name ver hv =>
    refine hs.carry rfl rfl rfl rfl hpar ?_ hs.sortedFolders ?_ hs.parentKeyEntry
      hs.parentKeyPresent hs.idLink
    · intro e he
      rcases mem_multiInsert.1 he with h1 | h1
      · rw [h1, ← hpath]
        rfl
      · exact hs.filePaths e h1
    · exact mapAssign_sorted _ _ hs.sortedFiles
  | removeFile name =>
    refine hs.carry rfl rfl rfl rfl hpar ?_ hs.sortedFolders ?_ hs.parentKeyEntry
      hs.parentKeyPresent hs.idLink
    · intro e he
      exact hs.filePaths e (mem_multiErase.1 he).1
    · exact foldl_erase_files_sorted _ _ hs.sortedFiles
  | addFolder id name w hv hw hid =>
    have hidk : id ≠ parentKey := validName_ne_parentKey_len hw hid
    refine hs.carry rfl rfl rfl rfl hpar hs.filePaths ?_ hs.sortedFiles ?_ ?_ ?_
    · exact mapAssign_sorted _ _ hs.sortedFolders
    · intro e he hk
      rcases mem_mapAssign.1 he with h1 | h1
      · rw [h1] at hk
        exact absurd hk hidk
      · exact hs.parentKeyEntry e h1.1 hk
    · intro q hq
      exact mem_mapAssign.2 (Or.inr ⟨hs.parentKeyPresent q hq, fun hk => hidk hk.symm⟩)
    · intro e he hk
      rcases mem_mapAssign.1 he with h1 | h1
      · rw [h1]
        exact ⟨name, validName_ne_dotdot hv, mem_multiInsert.2 (Or.inl rfl)⟩
      · obtain ⟨k, hkd, hmem⟩ := hs.idLink e h1.1 hk
        exact ⟨k, hkd, mem_multiInsert.2 (Or.inr hmem)⟩
  | removeFolder name hv =>
    have hnd : name ≠ dotdot := validName_ne_dotdot hv
    have hids : ∀ x ∈ idsBehind s.heap (equal_range cur.foldersByName name),
        ∃ e g, e ∈ cur.foldersByName ∧ e.1 = name ∧ s.heap.deref e.2 = some g ∧
          g.metadata.folderId = x := by
      intro x hx
      unfold idsBehind at hx
      rw [List.mem_filterMap] at hx
      obtain ⟨e, he, hxe⟩ := hx
      obtain ⟨hmem, hkey⟩ := mem_equal_range.1 he
      cases hg : s.heap.deref e.2 with
      | none => rw [hg] at hxe; cases hxe
      | some g =>
        rw [hg] at hxe
        exact ⟨e, g, hmem, hkey, hg, Option.some.inj hxe⟩
    have hnotkey : parentKey ∉ idsBehind s.heap (equal_range cur.foldersByName name) := by
      intro hx
      obtain ⟨e, g, hmem, hkey, hg, hgid⟩ := hids _ hx
      obtain ⟨_, g1, hg1, _, _, w, hw, hidw⟩ := hnode.folders.children e hmem (hkey ▸ hnd)
      rw [hg] at hg1
      cases hg1
      exact validName_ne_parentKey_len hw hidw hgid
    refine hs.carry rfl rfl rfl rfl hpar hs.filePaths ?_ hs.sortedFiles ?_ ?_ ?_
    · exact foldl_mapErase_sorted _ _ hs.sortedFolders
    · intro e he hk
      exact hs.parentKeyEntry e ((mem_foldl_mapErase _ _).1 he).1 hk
    · intro q hq
      exact (mem_foldl_mapErase _ _).2 ⟨hs.parentKeyPresent q hq, hnotkey⟩
    · intro e he hk
      obtain ⟨hmem, hnot⟩ := (mem_foldl_mapErase _ _).1 he
      obtain ⟨k, hkd, hkm⟩ := hs.idLink e hmem hk
      refine ⟨k, hkd, mem_multiErase.2 ⟨hkm, ?_⟩⟩
      intro hkn
      apply hnot
      have hkn1 : (k, e.2).1 = name := hkn
      obtain ⟨_, g, hg, _, _, _⟩ := hnode.folders.children (k, e.2) hkm hkd
      obtain ⟨_, g1, hg1, _, hgid⟩ := hnode.folders.childIds e hmem hk
      have hg2 : s.heap.deref e.2 = some g := hg
      rw [hg2] at hg1
      cases hg1
      rw [← hgid]
      exact mem_idsBehind (mem_equal_range.2 ⟨hkm, hkn1⟩) hg2

theorem Shape.fresh {s : State} {h1 : Heap} {cur cur1 : Folder} {id name w : Str}
    (hs : Shape s.heap s.currentDirectoryPointer cur)
    (hc : s.heap.deref s.currentDirectoryPointer = some cur)
    (hpath : s.currentDirectoryPath = cur.metadata.folderPath)
    (hc1 : h1.deref s.currentDirectoryPointer = some cur1)
    (hp1 : cur1.metadata.folderPath = cur.metadata.folderPath)
    (hv : validName name) (hid : id = cur.metadata.folderId ++ w) :
    Shape h1 s.heap.length
      (mkFolder id (newPath s.currentDirectoryPath name) (some s.currentDirectoryPointer)
        name) := by
  have hclt := Heap.deref_lt hc
  obtain ⟨names, hnv, hnp, _, _, _⟩ := hs.path
  have hnew : newPath s.currentDirectoryPath name = renderPath (names ++ [name]) := by
    rw [hpath, hnp]
    exact newPath_renderPath hnv name
  refine
    { parent_lt := ?_, header := ?_, idHead := ?_, path := ?_, parentPath := ?_,
      filePaths := ?_, sortedFolders := ?_, sortedFiles := ?_, parentKeyEntry := ?_,
      parentKeyPresent := ?_, idLink := ?_ }
  · intro q hq
    cases hq
    exact hclt
  · exact Or.inr ⟨fun hx => Option.noConfusion hx, hv⟩
  · show id.head? = some '0'
    rw [hid]
    have := hs.idHead
    cases hx : cur.metadata.folderId with
    | nil => rw [hx] at this; cases this
    | cons a rest =>
      rw [hx] at this
      exact this
  · refine ⟨names ++ [name], ?_, hnew, ?_, ?_, ?_⟩
    · intro n hn
      rcases List.mem_append.1 hn with h2 | h2
      · exact hnv n h2
      · rw [List.mem_singleton.1 h2]
        exact hv
    · constructor
      · intro hx
        exact Option.noConfusion hx
      · intro hx
        simp at hx
    · intro _
      simp [mkFolder]
    · intro q pf hq hpf
      have hq1 : s.currentDirectoryPointer = q := Option.some.inj hq
      subst hq1
      have hpe : cur1 = pf := Option.some.inj (hc1.symm.trans hpf)
      rw [← hpe, List.dropLast_concat, hp1, hnp]
  · intro q pf hq hpf
    have hq1 : s.currentDirectoryPointer = q := Option.some.inj hq
    subst hq1
    have hpe : cur1 = pf := Option.some.inj (hc1.symm.trans hpf)
    show newPath s.currentDirectoryPath name = newPath pf.metadata.folderPath name
    rw [← hpe, hp1, hpath]
  · intro e he
    cases he
  · simp [mkFolder, mapAssign]
  · exact List.Pairwise.nil
  · intro e he hk
    have he1 : e ∈ mapAssign ([] : List (Str × Nat)) parentKey s.currentDirectoryPointer := he
    rcases mem_mapAssign.1 he1 with h2 | h2
    · rw [h2]
      rfl
    · cases h2.1
  · intro q hq
    have hq1 : s.currentDirectoryPointer = q := Option.some.inj hq
    subst hq1
    exact mem_mapAssign.2 (Or.inl rfl)
  · intro e he hk
    have he1 : e ∈ mapAssign ([] : List (Str × Nat)) parentKey s.currentDirectoryPointer := he
    rcases mem_mapAssign.1 he1 with h2 | h2
    · rw [h2] at hk
      exact absurd rfl hk
    · cases h2.1

/-- An operation that returns normally keeps the second invariant. -/
theorem Layout.step {s s1 : State} (hwf : WF s) (hl : Layout s) {op : Op}
    (h : op.run s = .ok s1) : Layout s1 := by
  rcases step_effect hwf h with
    ⟨hheap, target, version, relative, hcd⟩ |
    ⟨hptr, hpath, hroot, hbelow, cur, cur1, hc, hc1, hupd, hother⟩
  · obtain ⟨_, hroot, tf, htf, _, hcase⟩ := changeDirectory_target hwf hcd
    refine ⟨?_, hroot.trans hl.root, ?_⟩
    · intro p f hf
      rw [hheap] at hf ⊢
      exact hl.shapes p f hf
    · rw [hheap, hroot]
      rcases hcase with ⟨cur, hcur, hpar⟩ | ⟨t, tmp, e, ht, htmp, he, hk, he2, hlt, hpar⟩
      · exact hl.rooted.parent hcur hpar
      · have hrt : Rooted s.heap s.rootFolder t := by
          rcases ht with ht | ht
          · rw [ht]
            exact hl.rooted.root_live
          · rw [ht]
            exact hl.rooted
        exact Rooted.child hrt htmp he hk he2 htf hpar (he2 ▸ hlt)
  · have hhead := hupd.header
    have hclt := Heap.deref_lt hc
    obtain ⟨f0, hf0, hcpath⟩ := hwf.cursor
    have hf0c : s.heap.deref s.currentDirectoryPointer = some f0 := hf0
    rw [hc] at hf0c
    cases hf0c
    -- a live object at an old address has a predecessor with the same path
    have hpred : ∀ q g1, s1.heap.deref q = some g1 → q < s.heap.length →
        ∃ g, s.heap.deref q = some g ∧ g.metadata.folderPath = g1.metadata.folderPath := by
      intro q g1 hg1 hq
      by_cases hqc : q = s.currentDirectoryPointer
      · subst hqc
        rw [hc1] at hg1
        cases hg1
        exact ⟨cur, hc, hhead.2.1.symm⟩
      · rcases hother q g1 hg1 hqc with h2 | ⟨h2, _⟩
        · exact ⟨g1, h2, rfl⟩
        · omega
    refine ⟨?_, hroot.trans hl.root, ?_⟩
    · intro p f hf
      by_cases hpc : p = s.currentDirectoryPointer
      · subst hpc
        rw [hc1] at hf
        cases hf
        refine Shape.updated (hwf.nodes _ cur hc) (hl.shapes _ cur hc) hcpath hupd ?_
        intro q pf1 hq hpf1
        exact hpred q pf1 hpf1 (by have := (hl.shapes _ cur hc).parent_lt q hq; omega)
      · rcases hother p f hf hpc with h2 | ⟨h2, id, name, w, hv, hw, hid, hfm⟩
        · refine (hl.shapes p f h2).same ?_
          intro q pf1 hq hpf1
          have hplt := Heap.deref_lt h2
          exact hpred q pf1 hpf1 (by have := (hl.shapes p f h2).parent_lt q hq; omega)
        · subst h2
          rw [hfm]
          exact Shape.fresh (hl.shapes _ cur hc) hc hcpath hc1 hhead.2.1 hv hid
    · rw [hptr, hroot]
      exact hl.rooted.top hbelow (fun f hf => by
        rw [hc] at hf
        cases hf
        exact ⟨cur1, hc1, hhead.1⟩)

theorem Layout.initial : Layout State.init := by
  refine ⟨?_, rfl, Rooted.root (f := mkFolder "0".toList "/".toList none "root".toList) rfl rfl⟩
  intro p f hf
  have hp : p = 0 := by
    have := Heap.deref_lt hf
    simp [State.init] at this
    exact this
  subst hp
  simp [State.init, Heap.deref] at hf
  subst hf
  refine
    { parent_lt := ?_, header := ?_, idHead := ?_, path := ?_, parentPath := ?_,
      filePaths := ?_, sortedFolders := ?_, sortedFiles := ?_, parentKeyEntry := ?_,
      parentKeyPresent := ?_, idLink := ?_ }
  · intro q hq
    cases hq
  · exact Or.inl ⟨rfl, rfl, rfl, rfl⟩
  · rfl
  · refine ⟨[], ?_, rfl, ?_, ?_, ?_⟩
    · intro n hn
      cases hn
    · exact ⟨fun _ => rfl, fun _ => rfl⟩
    · intro hx
      exact absurd rfl hx
    · intro q pf hq
      cases hq
  · intro q pf hq
    cases hq
  · intro e he
    cases he
  · exact List.Pairwise.nil
  · exact List.Pairwise.nil
  · intro e he
    cases he
  · intro q hq
    cases hq
  · intro e he
    cases he

/-- Every reachable state has the second invariant. -/
theorem Reachable.layout {s : State} (hr : Reachable s) : Layout s := by
  induction hr with
  | init => exact Layout.initial
  | @step s0 s1 op hr0 hstep ih =>
    cases hrun : op.run s0 with
    | ok s2 =>
      rw [hrun] at hstep
      have : s2 = s1 := Option.some.inj hstep
      subst this
      exact Layout.step hr0.wf ih hrun
    | failed w s2 =>
      rw [hrun] at hstep
      have : s2 = s1 := Option.some.inj hstep
      subst this
      rw [Outcome.failed_unchanged hrun]
      exact ih
    | crash =>
      rw [hrun] at hstep
      cases hstep

/-! ## C15: deleting a name that is not there -/

/-- C15. In a reachable state, for a valid name: when the current directory has no child
folder of that name, `deleteFolder` reports the failure and leaves the state (heap and
cursor) as it was, whether or not a file of that name exists; and when it has no child
file of that name, `deleteFile` does the same, whether or not a folder of that name
exists. -/
theorem delete_absent_is_noop {s : State} (hr : Reachable s) {name : Str}
    (hv : validName name) :
    ∃ cur, s.current = some cur ∧
      (name ∉ keys cur.foldersByName →
        deleteFolder s name = .failed "Folder with specified Name does not exist" s ∧
        (Op.run s (.deleteFolder name)).state? = some s) ∧
      (name ∉ keys cur.filesByName →
        deleteFile s name =
          .failed "File with specified name does not exist in memeory" s ∧
        (Op.run s (.deleteFile name)).state? = some s) := by
  obtain ⟨cur, hcur, _⟩ := hr.wf.cursor
  refine ⟨cur, hcur, ?_, ?_⟩
  · intro hk
    have h0 : multiCount cur.foldersByName name = 0 := multiCount_eq_zero.2 hk
    have h1 : deleteFolder s name =
        .failed "Folder with specified Name does not exist" s := by
      simp only [deleteFolder, throwErrorifNameInvalid_valid hv, Exec.ret_bind, hcur, h0,
        if_true, catchRuntimeError]
    refine ⟨h1, ?_⟩
    show (deleteFolder s name).state? = some s
    rw [h1]
    rfl
  · intro hk
    have h0 : multiCount cur.filesByName name = 0 := multiCount_eq_zero.2 hk
    have h1 : deleteFile s name =
        .failed "File with specified name does not exist in memeory" s := by
      simp only [deleteFile, throwErrorifNameInvalid_valid hv, Exec.ret_bind, hcur, h0,
        if_true, catchRuntimeError]
    refine ⟨h1, ?_⟩
    show (deleteFile s name).state? = some s
    rw [h1]
    rfl

/-- With only the file `a.txt` in the root, `deleteFolder("a.txt")` fails and changes
nothing; with only the folder `a` in the root, `deleteFile("a")` fails and changes
nothing. -/
theorem delete_absent_is_noop_witness :
    ("a.txt".toList ∈ keys (folderAt (after oneFileOps) 0).filesByName ∧
      ∃ cur, (after oneFileOps).current = some cur ∧
        ("a.txt".toList ∉ keys cur.foldersByName →
          deleteFolder (after oneFileOps) "a.txt".toList =
            .failed "Folder with specified Name does not exist" (after oneFileOps) ∧
          (Op.run (after oneFileOps) (.deleteFolder "a.txt".toList)).state? =
            some (after oneFileOps)) ∧
        ("a.txt".toList ∉ keys cur.filesByName →
          deleteFile (after oneFileOps) "a.txt".toList =
            .failed "File with specified name does not exist in memeory"
              (after oneFileOps) ∧
          (Op.run (after oneFileOps) (.deleteFile "a.txt".toList)).state? =
            some (after oneFileOps))) ∧
    "a.txt".toList ∉ keys (folderAt (after oneFileOps) 0).foldersByName ∧
    (after oneFileOps).current = some (folderAt (after oneFileOps) 0) :=
  ⟨⟨by decide,
      @delete_absent_is_noop (after oneFileOps) (reachable_after oneFileOps) "a.txt".toList
        (by decide)⟩,
    by decide, by decide⟩

/-! ## C20: the empty name -/

/-- C20. Validation of the empty name fails: its first character is read as the
terminating null character, which is not a letter. For the empty name `createFolder`,
`createFile`, `deleteFolder` and `deleteFile` report the failure and leave the state as it
was, in every state; and in a reachable state no live folder, no entry of a folder index
and no file has the empty name. -/
theorem empty_name_rejected :
    isAlphabet (([] : Str).headD (Char.ofNat 0)) = false ∧
    throwErrorifNameInvalid [] =
      .throw "File or Folder name must start with an alphabet" ∧
    (∀ (s : State) (content : Str),
      createFolder s [] = .failed "File or Folder name must start with an alphabet" s ∧
      createFile s [] content = .failed "File or Folder name must start with an alphabet" s ∧
      deleteFolder s [] = .failed "File or Folder name must start with an alphabet" s ∧
      deleteFile s [] = .failed "File or Folder name must start with an alphabet" s) ∧
    (∀ s : State, Reachable s → ∀ (p : Nat) (f : Folder), s.heap.deref p = some f →
      f.metadata.folderName ≠ [] ∧
      (∀ e ∈ f.foldersByName, e.1 ≠ [] ∧
        ∀ g, s.heap.deref e.2 = some g → g.metadata.folderName ≠ []) ∧
      (∀ e ∈ f.filesByName, e.1 ≠ [] ∧ e.2.metadata.fileName ≠ []) ∧
      (∀ e ∈ f.filesById, e.2.metadata.fileName ≠ [])) := by
  have hthrow : throwErrorifNameInvalid [] =
      .throw "File or Folder name must start with an alphabet" := by decide
  refine ⟨by decide, hthrow, ?_, ?_⟩
  · intro s content
    refine ⟨?_, ?_, ?_, ?_⟩ <;>
      simp only [createFolder, createFile, deleteFolder, deleteFile, hthrow, Exec.throw_bind,
        catchRuntimeError]
  · intro s hr
    have hl := hr.layout
    have hwf := hr.wf
    have hname : ∀ (p : Nat) (f : Folder), s.heap.deref p = some f →
        f.metadata.folderName ≠ [] := by
      intro p f hf
      rcases (hl.shapes p f hf).header with ⟨_, _, hn, _⟩ | ⟨_, hv⟩
      · rw [hn]
        decide
      · exact validName_ne_nil hv
    intro p f hf
    have hnode := hwf.nodes p f hf
    refine ⟨hname p f hf, ?_, ?_, ?_⟩
    · intro e he
      refine ⟨?_, fun g hg => hname _ g hg⟩
      by_cases hd : e.1 = dotdot
      · rw [hd]
        decide
      · exact validName_ne_nil (hnode.folders.folderNames e he hd)
    · intro e he
      obtain ⟨hv, hfn⟩ := hnode.files.fileNames e he
      refine ⟨validName_ne_nil hv, ?_⟩
      rw [hfn]
      exact validName_ne_nil hv
    · intro e he
      obtain ⟨_, hmem⟩ := hnode.files.fileIds e he
      obtain ⟨hv, _⟩ := hnode.files.fileNames _ hmem
      exact validName_ne_nil hv

/-- After the folder `x` has been created and entered and a folder and two files created
there, the empty name is still rejected and the folder `x` and its entries have names
that are not empty. -/
theorem empty_name_rejected_witness :
    createFolder (after nestedOps) [] =
      .failed "File or Folder name must start with an alphabet" (after nestedOps) ∧
    (folderAt (after nestedOps) 1).metadata.folderName ≠ [] ∧
    (∀ e ∈ (folderAt (after nestedOps) 1).filesByName,
      e.1 ≠ [] ∧ e.2.metadata.fileName ≠ []) :=
  ⟨(empty_name_rejected.2.2.1 (after nestedOps) []).1,
    (empty_name_rejected.2.2.2 (after nestedOps) (reachable_after nestedOps) 1
      (folderAt (after nestedOps) 1) (by decide)).1,
    (empty_name_rejected.2.2.2 (after nestedOps) (reachable_after nestedOps) 1
      (folderAt (after nestedOps) 1) (by decide)).2.2.1⟩

/-! ## C18: paths -/

/-- C18. In a reachable state, for every live folder `f`: its path is `/` exactly when it
is the root, and otherwise `/n1/.../nd` for valid names `n1`, ..., `nd`; every child
folder and every child file of `f` named `n` has the path `"/" ++ n` when `f` is the root
and `path(f) ++ "/" ++ n` otherwise, which is `/n1/.../nd/n`; no path has two slashes in a
row; and the children of one name in `f` have the same path. -/
theorem path_consistency {s : State} (hr : Reachable s) {p : Nat} {f : Folder}
    (hf : s.heap.deref p = some f) :
    ∃ names : List Str, (∀ n ∈ names, validName n) ∧
      f.metadata.folderPath = renderPath names ∧
      (f.parentFolder = none ↔ names = []) ∧
      (f.parentFolder = none ↔ f.metadata.folderPath = "/".toList) ∧
      doubleSlash f.metadata.folderPath = false ∧
      (∀ e ∈ f.foldersByName, e.1 ≠ dotdot →
        ∃ g, s.heap.deref e.2 = some g ∧ g.metadata.folderName = e.1 ∧
          g.metadata.folderPath = renderPath (names ++ [e.1]) ∧
          (f.parentFolder = none → g.metadata.folderPath = "/".toList ++ e.1) ∧
          (f.parentFolder ≠ none →
            g.metadata.folderPath = f.metadata.folderPath ++ "/".toList ++ e.1) ∧
          doubleSlash g.metadata.folderPath = false) ∧
      (∀ e ∈ f.filesByName, e.2.metadata.fileName = e.1 ∧
          e.2.metadata.filePath = renderPath (names ++ [e.1]) ∧
          (f.parentFolder = none → e.2.metadata.filePath = "/".toList ++ e.1) ∧
          (f.parentFolder ≠ none →
            e.2.metadata.filePath = f.metadata.folderPath ++ "/".toList ++ e.1) ∧
          doubleSlash e.2.metadata.filePath = false) ∧
      (∀ a ∈ f.filesByName, ∀ b ∈ f.filesByName, a.1 = b.1 →
        a.2.metadata.filePath = b.2.metadata.filePath) ∧
      (∀ a ∈ f.foldersByName, ∀ b ∈ f.foldersByName, a.1 ≠ dotdot → a.1 = b.1 →
        ∀ ga gb, s.heap.deref a.2 = some ga → s.heap.deref b.2 = some gb →
          ga.metadata.folderPath = gb.metadata.folderPath) := by
  have hl := hr.layout
  have hnode := hr.wf.nodes p f hf
  have hs := hl.shapes p f hf
  obtain ⟨names, hnv, hnp, hnone, _, _⟩ := hs.path
  have hslash : f.parentFolder = none ↔ f.metadata.folderPath = "/".toList := by
    rw [hnone, hnp, renderPath_eq_slash hnv]
  have hvalid : ∀ n, validName n → ∀ n1 ∈ names ++ [n], validName n1 := by
    intro n hn n1 hn1
    rcases List.mem_append.1 hn1 with h2 | h2
    · exact hnv n1 h2
    · rw [List.mem_singleton.1 h2]
      exact hn
  have hjoin : ∀ n x, x = newPath f.metadata.folderPath n → validName n →
      x = renderPath (names ++ [n]) ∧
      (f.parentFolder = none → x = "/".toList ++ n) ∧
      (f.parentFolder ≠ none → x = f.metadata.folderPath ++ "/".toList ++ n) ∧
      doubleSlash x = false := by
    intro n x hx hn
    have h1 : x = renderPath (names ++ [n]) := by
      rw [hx, hnp]
      exact newPath_renderPath hnv n
    refine ⟨h1, ?_, ?_, ?_⟩
    · intro hroot
      rw [hx, hslash.1 hroot]
      rfl
    · intro hnr
      have : f.metadata.folderPath ≠ "/".toList := fun h2 => hnr (hslash.2 h2)
      rw [hx]
      unfold newPath
      rw [if_neg this, List.append_assoc]
    · rw [h1]
      exact doubleSlash_renderPath (hvalid n hn)
  have hchild : ∀ e ∈ f.foldersByName, e.1 ≠ dotdot → ∀ g, s.heap.deref e.2 = some g →
      g.metadata.folderName = e.1 ∧
      g.metadata.folderPath = newPath f.metadata.folderPath e.1 := by
    intro e he hd g hg
    obtain ⟨_, g1, hg1, hpar, hname, _⟩ := hnode.folders.children e he hd
    rw [hg] at hg1
    cases hg1
    refine ⟨hname, ?_⟩
    rw [← hname]
    exact (hl.shapes e.2 g hg).parentPath p f hpar hf
  refine ⟨names, hnv, hnp, hnone, hslash, ?_, ?_, ?_, ?_, ?_⟩
  · rw [hnp]
    exact doubleSlash_renderPath hnv
  · intro e he hd
    obtain ⟨_, g, hg, _, _, _⟩ := hnode.folders.children e he hd
    obtain ⟨hname, hpath⟩ := hchild e he hd g hg
    obtain ⟨h1, h2, h3, h4⟩ := hjoin e.1 _ hpath (hnode.folders.folderNames e he hd)
    exact ⟨g, hg, hname, h1, h2, h3, h4⟩
  · intro e he
    obtain ⟨hv, hfn⟩ := hnode.files.fileNames e he
    obtain ⟨h1, h2, h3, h4⟩ := hjoin e.1 _ (hs.filePaths e he) hv
    exact ⟨hfn, h1, h2, h3, h4⟩
  · intro a ha b hb hab
    rw [hs.filePaths a ha, hs.filePaths b hb, hab]
  · intro a ha b hb hd hab ga gb hga hgb
    rw [(hchild a ha hd ga hga).2, (hchild b hb (hab ▸ hd) gb hgb).2, hab]

/-- In the folder `/x`, created in the root and entered, the child folder `y` has the path
`/x/y` and both versions of the file `a.txt` have the path `/x/a.txt`. -/
theorem path_consistency_witness :
    (after nestedOps).heap.deref 1 = some (folderAt (after nestedOps) 1) ∧
    (folderAt (after nestedOps) 1).metadata.folderPath = "/x".toList ∧
    (((folderAt (after nestedOps) 1).foldersByName.filter (fun e => e.1 ≠ dotdot)).map
        (fun e => (e.1, (folderAt (after nestedOps) e.2).metadata.folderPath))) =
      [("y".toList, "/x/y".toList)] ∧
    ((folderAt (after nestedOps) 1).filesByName.map
        (fun e => (e.1, e.2.metadata.filePath))) =
      [("a.txt".toList, "/x/a.txt".toList), ("a.txt".toList, "/x/a.txt".toList)] ∧
    ∃ names : List Str, (∀ n ∈ names, validName n) ∧
      (folderAt (after nestedOps) 1).metadata.folderPath = renderPath names ∧
      ((folderAt (after nestedOps) 1).parentFolder = none ↔ names = []) :=
  ⟨by decide, by decide, by decide, by decide,
    (@path_consistency (after nestedOps) (reachable_after nestedOps) 1
      (folderAt (after nestedOps) 1) (by decide)).imp
      (fun _ h => ⟨h.1, h.2.1, h.2.2.1⟩)⟩

/-! ## C16: the listing of the current directory -/

theorem printFolders_spec (h : Heap) : ∀ l : List (Str × Nat),
    (∀ e ∈ l, ∃ g, h.deref e.2 = some g) →
    ∃ out, printFolders h l = .ret out ∧ out.map Prod.fst = l.map Prod.fst ∧
      ∀ pr ∈ out, ∃ e ∈ l, ∃ g, h.deref e.2 = some g ∧ pr = (e.1, g.metadata.folderName)
  | [], _ => ⟨[], rfl, rfl, fun pr hpr => by cases hpr⟩
  | e :: l, hl => by
    obtain ⟨g, hg⟩ := hl e (List.mem_cons_self _ _)
    obtain ⟨out, hout, hkeys, hmem⟩ :=
      printFolders_spec h l (fun x hx => hl x (List.mem_cons_of_mem _ hx))
    refine ⟨(e.1, g.metadata.folderName) :: out, ?_, ?_, ?_⟩
    · simp only [printFolders, hg, hout, Exec.ret_bind]
    · simp only [List.map_cons, hkeys]
    · intro pr hpr
      rcases List.mem_cons.1 hpr with h1 | h1
      · exact ⟨e, List.mem_cons_self _ _, g, hg, h1⟩
      · obtain ⟨x, hx, gx, hgx, hpx⟩ := hmem pr h1
        exact ⟨x, List.mem_cons_of_mem _ hx, gx, hgx, hpx⟩

theorem pairwise_of_keys {α β : Type} {l : List (Str × α)} {m : List (Str × β)}
    (hk : l.map Prod.fst = m.map Prod.fst)
    (hm : m.Pairwise (fun a b => strLt a.1 b.1 = true)) :
    l.Pairwise (fun a b => strLt a.1 b.1 = true) := by
  have h1 : (m.map Prod.fst).Pairwise (fun a b => strLt a b = true) :=
    List.pairwise_map.2 hm
  rw [← hk] at h1
  exact List.pairwise_map.1 h1

/-- C16 as the code has it. In a reachable state `printFolderContent` returns. The folder
line lists the entries of the id index of the current directory in strictly ascending
order of the keys; a pair whose key is not `-1` is the id and the name of a live child
folder of the current directory, held in the name index under that name; a pair with the
key `-1` carries the name of the parent folder: there is none at the root and there is
one in every other directory. The file line lists the entries of the file id index in
strictly ascending order of the keys, each the id and the name of a child file held in
the name index. -/
theorem listing_of_current_directory {s : State} (hr : Reachable s) :
    ∃ cur folders files, s.current = some cur ∧
      printFolderContent s = .ret (folders, files) ∧
      folders.map Prod.fst = keys cur.foldersById ∧
      folders.Pairwise (fun a b => strLt a.1 b.1 = true) ∧
      (∀ pr ∈ folders, pr.1 ≠ parentKey →
        ∃ q g, (pr.2, q) ∈ cur.foldersByName ∧ pr.2 ≠ dotdot ∧ s.heap.deref q = some g ∧
          g.parentFolder = some s.currentDirectoryPointer ∧
          g.metadata.folderId = pr.1 ∧ g.metadata.folderName = pr.2) ∧
      (∀ pr ∈ folders, pr.1 = parentKey →
        ∃ q pf, cur.parentFolder = some q ∧ s.heap.deref q = some pf ∧
          pr.2 = pf.metadata.folderName) ∧
      (cur.parentFolder = none → ∀ pr ∈ folders, pr.1 ≠ parentKey) ∧
      (cur.parentFolder ≠ none → ∃ pr ∈ folders, pr.1 = parentKey) ∧
      files = cur.filesById.map (fun e => (e.1, e.2.metadata.fileName)) ∧
      files.Pairwise (fun a b => strLt a.1 b.1 = true) ∧
      (∀ pr ∈ files, ∃ e ∈ cur.filesByName,
        e.1 = pr.2 ∧ e.2.metadata.fileId = pr.1 ∧ e.2.metadata.fileName = pr.2) := by
  have hl := hr.layout
  have hwf := hr.wf
  obtain ⟨cur, hcur, _⟩ := hwf.cursor
  have hc : s.heap.deref s.currentDirectoryPointer = some cur := hcur
  have hnode := hwf.nodes _ cur hc
  have hs := hl.shapes _ cur hc
  have hparent : ∀ q, cur.parentFolder = some q → ∃ pf, s.heap.deref q = some pf :=
    fun q hq => (hl.rooted.parent hc hq).live
  have hlive : ∀ e ∈ cur.foldersById, ∃ g, s.heap.deref e.2 = some g := by
    intro e he
    by_cases hk : e.1 = parentKey
    · exact hparent e.2 (hs.parentKeyEntry e he hk)
    · obtain ⟨_, g, hg, _⟩ := hnode.folders.childIds e he hk
      exact ⟨g, hg⟩
  obtain ⟨folders, hout, hkeys, hmem⟩ := printFolders_spec s.heap cur.foldersById hlive
  refine ⟨cur, folders, cur.filesById.map (fun e => (e.1, e.2.metadata.fileName)), hcur, ?_,
    hkeys, pairwise_of_keys hkeys hs.sortedFolders, ?_, ?_, ?_, ?_, rfl, ?_, ?_⟩
  · simp only [printFolderContent, hcur, printContent, hout, Exec.ret_bind]
  · intro pr hpr hk
    obtain ⟨e, he, g, hg, hpe⟩ := hmem pr hpr
    have hk1 : e.1 ≠ parentKey := by
      rw [hpe] at hk
      exact hk
    obtain ⟨_, g1, hg1, hpar, hid⟩ := hnode.folders.childIds e he hk1
    rw [hg] at hg1
    cases hg1
    obtain ⟨k, hkd, hkm⟩ := hs.idLink e he hk1
    obtain ⟨_, g2, hg2, _, hname, _⟩ := hnode.folders.children (k, e.2) hkm hkd
    have hg3 : s.heap.deref e.2 = some g2 := hg2
    rw [hg] at hg3
    cases hg3
    have hname1 : g.metadata.folderName = k := hname
    rw [hpe]
    refine ⟨e.2, g, ?_, ?_, hg, hpar, hid, rfl⟩
    · show (g.metadata.folderName, e.2) ∈ cur.foldersByName
      rw [hname1]
      exact hkm
    · show g.metadata.folderName ≠ dotdot
      rw [hname1]
      exact hkd
  · intro pr hpr hk
    obtain ⟨e, he, g, hg, hpe⟩ := hmem pr hpr
    have hk1 : e.1 = parentKey := by
      rw [hpe] at hk
      exact hk
    refine ⟨e.2, g, hs.parentKeyEntry e he hk1, hg, ?_⟩
    rw [hpe]
  · intro hroot pr hpr hk
    obtain ⟨e, he, g, hg, hpe⟩ := hmem pr hpr
    have hk1 : e.1 = parentKey := by
      rw [hpe] at hk
      exact hk
    have := hs.parentKeyEntry e he hk1
    rw [hroot] at this
    cases this
  · intro hnr
    cases hq : cur.parentFolder with
    | none => exact absurd hq hnr
    | some q =>
      have hin : parentKey ∈ folders.map Prod.fst := by
        rw [hkeys]
        exact mem_keys_of_mem (hs.parentKeyPresent q hq)
      obtain ⟨pr, hpr, hk⟩ := List.mem_map.1 hin
      exact ⟨pr, hpr, hk⟩
  · exact List.pairwise_map.2 hs.sortedFiles
  · intro pr hpr
    obtain ⟨e, he, hpe⟩ := List.mem_map.1 hpr
    obtain ⟨hid, hmemf⟩ := hnode.files.fileIds e he
    refine ⟨(e.2.metadata.fileName, e.2), hmemf, ?_, ?_, ?_⟩
    · rw [← hpe]
    · rw [← hpe]
      exact hid
    · rw [← hpe]

/-- With the folders `b` and `a` and the file `m.txt` created in the root, the listing of
the root is `00100 ( b ), 00200 ( a )` and `00100 ( m.txt )`. -/
theorem listing_of_current_directory_witness :
    printFolderContent (after listingOps) =
      .ret ([("00100".toList, "b".toList), ("00200".toList, "a".toList)],
        [("00100".toList, "m.txt".toList)]) ∧
    ∃ cur folders files, (after listingOps).current = some cur ∧
      printFolderContent (after listingOps) = .ret (folders, files) ∧
      folders.map Prod.fst = keys cur.foldersById ∧
      folders.Pairwise (fun a b => strLt a.1 b.1 = true) :=
  ⟨by decide,
    (listing_of_current_directory (reachable_after listingOps)).imp
      (fun _ h => h.imp (fun _ h => h.imp (fun _ h => ⟨h.1, h.2.1, h.2.2.1, h.2.2.2.1⟩)))⟩

/-- C16 fails on the code in a directory other than the root: in the folder `/x`, entered
right after it was created, there is no child folder and no child file, and the folder
line of the listing has the pair `-1 ( root )`. -/
theorem listing_shows_parent_entry :
    (after descendOps).currentDirectoryPath = "/x".toList ∧
    childFolders (after descendOps) (folderAt (after descendOps) 1) = [] ∧
    (after descendOps).current = some (folderAt (after descendOps) 1) ∧
    printFolderContent (after descendOps) = .ret ([("-1".toList, "root".toList)], []) := by
  decide

/-! ## The cursor while the program runs -/

/-- In a state that the program reaches by operations that return, the cursor refers to a
live folder that is reached from the root by child entries, the stored path is the path
of that folder, and the root is the folder `root` with id `0` and path `/`. -/
theorem cursor_reached_from_root {s : State} (hr : Reachable s) :
    Rooted s.heap s.rootFolder s.currentDirectoryPointer ∧
    (∃ f, s.current = some f ∧ s.currentDirectoryPath = f.metadata.folderPath) ∧
    ∃ r, s.heap.deref s.rootFolder = some r ∧ r.parentFolder = none ∧
      r.metadata.folderId = "0".toList ∧ r.metadata.folderPath = "/".toList := by
  have hl := hr.layout
  refine ⟨hl.rooted, hr.wf.cursor, ?_⟩
  obtain ⟨r, hroot⟩ := hl.rooted.root_live.live
  have hs := hl.shapes _ r hroot
  have hnone : r.parentFolder = none := by
    cases hp : r.parentFolder with
    | none => rfl
    | some q =>
      have := hs.parent_lt q hp
      rw [hl.root] at this
      omega
  refine ⟨r, hroot, hnone, ?_, ?_⟩
  · rcases hs.header with ⟨_, _, _, hid⟩ | ⟨hne, _⟩
    · exact hid
    · exact absurd hnone hne
  · obtain ⟨names, _, hp, hiff, _⟩ := hs.path
    rw [hp, hiff.1 hnone]
    rfl

/-! ## C14: the id of a new name after a deletion -/

/-- C14 as the code has it: ids of deleted children come back. In a reachable state whose
current directory has `c` distinct names of child folders, after `deleteFolder(a)` of a
name that is present, `createFolder(b)` of a valid name that is then absent (`a` itself
or a name that was absent) returns normally and the new folder gets the id
`parentId ++ pad2(c) ++ "00"`, whatever ids were assigned and removed before; the same
holds for `deleteFile` and `createFile` with the counter of file names, for a name `b`
with a dot. -/
theorem id_of_new_name_after_delete {s : State} (hr : Reachable s) {cur : Folder}
    (hcur : s.current = some cur) {a b : Str} (ha : validName a) (hb : validName b) :
    (a ∈ keys cur.foldersByName → (b = a ∨ b ∉ keys cur.foldersByName) →
      ∃ s1 s2 child, deleteFolder s a = .ok s1 ∧ createFolder s1 b = .ok s2 ∧
        s1.heap.length = s.heap.length ∧
        s2.heap.deref s.heap.length = some child ∧ child.metadata.folderName = b ∧
        child.parentFolder = some s.currentDirectoryPointer ∧
        child.metadata.folderId = cur.metadata.folderId ++
          pad2 cur.metadata.uniqueFolderCount.toNat ++ "00".toList) ∧
    (a ∈ keys cur.filesByName → (b = a ∨ b ∉ keys cur.filesByName) → '.' ∈ b →
      ∀ content : Str, ∃ s1 s2 cur2, deleteFile s a = .ok s1 ∧
        createFile s1 b content = .ok s2 ∧ s2.current = some cur2 ∧
        ((equal_range cur2.filesByName b).getLast?).map (fun e => e.2.metadata.fileId) =
          some (cur.metadata.folderId ++
            pad2 cur.metadata.uniqueFileCount.toNat ++ "00".toList)) := by
  have hwf := hr.wf
  have hnode := hwf.nodes _ cur hcur
  have hc : s.heap.deref s.currentDirectoryPointer = some cur := hcur
  constructor
  · intro hin hbabs
    have hnd : a ≠ dotdot := validName_ne_dotdot ha
    have hcount : multiCount cur.foldersByName a ≠ 0 := fun h => (multiCount_eq_zero.1 h) hin
    obtain ⟨h1, hlen, hrun, ⟨me, hme⟩, _, _, _⟩ := removeFolder_spec hwf.nodes hc hnd
    have hok := deleteFolder_eq_ok ha hcur hcount hrun
    have hr1 := hr.ok (.deleteFolder a) hok
    have hclt : s.currentDirectoryPointer < h1.length := Heap.deref_lt hme
    generalize hcur1 : ({ cur with
        foldersById :=
          (idsBehind s.heap (equal_range cur.foldersByName a)).foldl mapErase cur.foldersById,
        foldersByName := multiErase cur.foldersByName a,
        metadata :=
          { cur.metadata with uniqueFolderCount := cur.metadata.uniqueFolderCount - 1 } } :
        Folder) = cur1 at hok hr1
    have e1 : cur1.foldersByName = multiErase cur.foldersByName a := by rw [← hcur1]
    have e3 : cur1.metadata.uniqueFolderCount = cur.metadata.uniqueFolderCount - 1 := by
      rw [← hcur1]
    have e4 : cur1.metadata.folderId = cur.metadata.folderId := by rw [← hcur1]
    have hs1cur : State.current { s with heap := h1.store s.currentDirectoryPointer cur1 } =
        some cur1 := Heap.deref_store_self _ hclt
    have hbnew : b ∉ keys cur1.foldersByName := by
      intro hk
      obtain ⟨x, hx, hxk⟩ := mem_keys.1 hk
      rw [e1] at hx
      obtain ⟨hxm, hxa⟩ := mem_multiErase.1 hx
      rcases hbabs with h2 | h2
      · exact hxa (hxk.trans h2)
      · exact h2 (mem_keys.2 ⟨x, hxm, hxk⟩)
    have hle := hnode.folders.folderCount_le
    obtain ⟨s2, child, hcreate, hchild, hname, hid⟩ :=
      ((create_new_name hr1 hs1cur hb).1 hbnew).2 (by rw [e3]; omega)
    have hlen1 : ({ s with heap := h1.store s.currentDirectoryPointer cur1 } : State).heap.length =
        s.heap.length := by
      show (h1.store s.currentDirectoryPointer cur1).length = s.heap.length
      rw [Heap.length_store, hlen]
    rw [hlen1] at hchild
    refine ⟨_, s2, child, hok, hcreate, hlen1, hchild, hname, ?_, ?_⟩
    · obtain ⟨_, cur0, id0, hcur0, _, hs2⟩ := createFolder_ok_inv hcreate
      subst hs2
      have hchild1 : Heap.deref
          (Heap.store ((h1.store s.currentDirectoryPointer cur1) ++
            [some (mkFolder id0 (newPath s.currentDirectoryPath b)
              (some s.currentDirectoryPointer) b)])
            s.currentDirectoryPointer
            (cur0.addFolder (h1.store s.currentDirectoryPointer cur1).length id0 b))
          s.heap.length = some child := hchild
      rw [Heap.deref_store_ne _ (by rw [← hlen]; omega), ← hlen1] at hchild1
      have hx := Heap.deref_append_length (h1.store s.currentDirectoryPointer cur1)
        (some (mkFolder id0 (newPath s.currentDirectoryPath b)
          (some s.currentDirectoryPointer) b))
      have hx1 : (some (mkFolder id0 (newPath s.currentDirectoryPath b)
          (some s.currentDirectoryPointer) b)) = some child := hx.symm.trans hchild1
      rw [← Option.some.inj hx1]
      rfl
    · rw [hid, e4, e3]
      have : (cur.metadata.uniqueFolderCount - 1 + 1).toNat =
          cur.metadata.uniqueFolderCount.toNat := by
        rw [Int.sub_add_cancel]
      rw [this]
  · intro hin hbabs hdot content
    have hcount : multiCount cur.filesByName a ≠ 0 := fun h => (multiCount_eq_zero.1 h) hin
    have hok := deleteFile_eq_ok ha hcur hcount
    have hr1 := hr.ok (.deleteFile a) hok
    have hs1cur := @current_store s cur (cur.removeFile a) hcur
    have hbnew : b ∉ keys (cur.removeFile a).filesByName := by
      intro hk
      obtain ⟨x, hx, hxk⟩ := mem_keys.1 hk
      have hx1 : x ∈ multiErase cur.filesByName a := hx
      obtain ⟨hxm, hxa⟩ := mem_multiErase.1 hx1
      rcases hbabs with h2 | h2
      · exact hxa (hxk.trans h2)
      · exact h2 (mem_keys.2 ⟨x, hxm, hxk⟩)
    have hle := hnode.files.fileCount_le
    have e3 : (cur.removeFile a).metadata.uniqueFileCount =
        cur.metadata.uniqueFileCount - 1 := rfl
    have e4 : (cur.removeFile a).metadata.folderId = cur.metadata.folderId := rfl
    obtain ⟨s2, cur2, hcreate, hcur2, hid⟩ :=
      ((create_new_name hr1 hs1cur hb).2 hbnew).2 (by rw [e3]; omega) hdot content
    refine ⟨_, s2, cur2, hok, hcreate, hcur2, ?_⟩
    rw [hid, e4, e3]
    have : (cur.metadata.uniqueFileCount - 1 + 1).toNat =
        cur.metadata.uniqueFileCount.toNat := by
      rw [Int.sub_add_cancel]
    rw [this]

/-- With the folder `a` (id `00100`) alone in the root, after `deleteFolder("a")` the new
folder `b` gets the id `0 ++ 01 ++ 00` again. -/
theorem id_of_new_name_after_delete_witness :
    childFolders (after oneFolderOps) (folderAt (after oneFolderOps) 0) =
      [("a".toList, "00100".toList)] ∧
    (folderAt (after oneFolderOps) 0).metadata.folderId ++
        pad2 (folderAt (after oneFolderOps) 0).metadata.uniqueFolderCount.toNat ++
        "00".toList = "00100".toList ∧
    ∃ s1 s2 child, deleteFolder (after oneFolderOps) "a".toList = .ok s1 ∧
      createFolder s1 "b".toList = .ok s2 ∧
      s1.heap.length = (after oneFolderOps).heap.length ∧
      s2.heap.deref (after oneFolderOps).heap.length = some child ∧
      child.metadata.folderName = "b".toList ∧
      child.parentFolder = some (after oneFolderOps).currentDirectoryPointer ∧
      child.metadata.folderId = (folderAt (after oneFolderOps) 0).metadata.folderId ++
        pad2 (folderAt (after oneFolderOps) 0).metadata.uniqueFolderCount.toNat ++
        "00".toList :=
  ⟨by decide, by decide,
    (@id_of_new_name_after_delete (after oneFolderOps) (reachable_after oneFolderOps)
      (folderAt (after oneFolderOps) 0) (by decide) "a".toList "b".toList (by decide)
      (by decide)).1 (by decide) (Or.inr (by decide))⟩

end FileSystem
